import Mathlib

/-
Verification development for the dectate configuration engine.

The Python source (dectate/config.py, dectate/toposort.py, dectate/error.py,
dectate/query.py) is shallowly embedded below:

* Python dicts are association lists with in-place replacement on key reuse
  (`Dict`, `dictInsert`, `dictUpdate`), which models CPython's insertion-order
  semantics.
* Python exceptions become an explicit `Except PyExc` result; the `PyExc.fuel`
  constructor is an artifact of the fuel-based embedding of the recursive
  depth-first search in toposort.py and does not correspond to any Python
  exception.
* User callbacks (`identifier`, `discriminators`, `perform`, composite
  `actions`) are modelled as functions into `Except PyExc _`, so that they can
  raise like arbitrary Python callables.
* Mutation of the shared config-value objects is modelled by threading the
  value state through hooks and performs and writing it back.
-/

set_option linter.unusedVariables false

namespace Dectate

/-- Immutable Python-like values used for identifiers, discriminators,
targets and config values in the model. Python lists/tuples are encoded
with nested `pair`s terminated by `vnone` where needed. -/
inductive Val where
  | vnone
  | nat (n : Nat)
  | str (s : String)
  | pair (a b : Val)
  deriving DecidableEq, Repr

/-- CodeInfo from config.py: the path, line number and source line at which a
directive was invoked. -/
structure CodeInfo where
  path : String
  lineno : Nat
  sourceline : String
  deriving DecidableEq, Repr

/-- conflict_keyfunc from error.py: sort key for actions in a ConflictError;
0 (modelled as `none`) when the action has no code info, else the
(path, lineno) pair. Python would raise TypeError comparing 0 with a tuple;
the model totalizes that comparison by putting `none` first. -/
def conflict_keyfunc (ci : Option CodeInfo) : Option (String × Nat) :=
  match ci with
  | none => none
  | some c => some (c.path, c.lineno)

/-- Strict lexicographic comparison of character lists (Python string <). -/
def charsLt : List Char → List Char → Bool
  | [], [] => false
  | [], _ :: _ => true
  | _ :: _, [] => false
  | c :: cs, d :: ds =>
    if c < d then true else if d < c then false else charsLt cs ds

/-- Python string <, on the underlying character lists. -/
def strLtB (a b : String) : Bool := charsLt a.data b.data

/-- Comparison of conflict sort keys, lexicographic on (path, lineno). -/
def keyLE (a b : Option (String × Nat)) : Bool :=
  match a, b with
  | none, _ => true
  | some _, none => false
  | some (p1, l1), some (p2, l2) => strLtB p1 p2 || (p1 = p2 && l1 ≤ l2)

/-- Identity of one action as reported inside a ConflictError: the model tag
of the action together with its code info. -/
structure ConflictInfo where
  tag : Nat
  ci : Option CodeInfo
  deriving DecidableEq, Repr

/-- Python exceptions raised by the embedded code. -/
inductive PyExc where
  | directiveError (msg : String)
  | directiveReportError (msg : String) (ci : Option CodeInfo)
  | configError (msg : String)
  | conflictError (first second : ConflictInfo)
  | typeError (msg : String)
  | attributeError (name : String)
  | keyError (name : String)
  | topoError
  | fuel
  | userError (msg : String)
  deriving DecidableEq, Repr

/-- ConflictError construction from error.py: the two actions are sorted by
`conflict_keyfunc` (list.sort is stable, so on equal keys the original
[action, other_action] order is kept). -/
def mkConflictError (action other : ConflictInfo) : PyExc :=
  if keyLE (conflict_keyfunc other.ci) (conflict_keyfunc action.ci)
      && !(keyLE (conflict_keyfunc action.ci) (conflict_keyfunc other.ci)) then
    .conflictError other action
  else
    .conflictError action other

/-- Python dict as an association list in insertion order. -/
def Dict (κ ν : Type) : Type := List (κ × ν)

/-- Lookup in a Python dict (dict.get). -/
def dictLookup [DecidableEq κ] (k : κ) : Dict κ ν → Option ν
  | [] => none
  | (k1, v1) :: rest => if k1 = k then some v1 else dictLookup k rest

/-- Assignment d[k] = v in a Python dict: replaces in place if the key is
present, appends otherwise. -/
def dictInsert [DecidableEq κ] (k : κ) (v : ν) : Dict κ ν → Dict κ ν
  | [] => [(k, v)]
  | (k1, v1) :: rest =>
    if k1 = k then (k, v) :: rest else (k1, v1) :: dictInsert k v rest

/-- base.update(overlay): insert every entry of the overlay, in its insertion
order, into the base dict. -/
def dictUpdate [DecidableEq κ] (base overlay : Dict κ ν) : Dict κ ν :=
  overlay.foldl (fun b kv => dictInsert kv.1 kv.2 b) base

/-- dict.values() in insertion order. -/
def dictValues (d : Dict κ ν) : List ν := d.map Prod.snd

/-- dict.keys() in insertion order. -/
def dictKeys (d : Dict κ ν) : List κ := d.map Prod.fst

theorem dictLookup_insert_self [DecidableEq κ] (k : κ) (v : ν) (d : Dict κ ν) :
    dictLookup k (dictInsert k v d) = some v := by
  induction d with
  | nil => simp [dictInsert, dictLookup]
  | cons kv rest ih =>
    obtain ⟨k1, v1⟩ := kv
    by_cases h : k1 = k
    · simp [dictInsert, h, dictLookup]
    · simp [dictInsert, h, dictLookup, ih]

theorem dictLookup_insert_ne [DecidableEq κ] (k k2 : κ) (v : ν) (d : Dict κ ν)
    (h : k ≠ k2) : dictLookup k2 (dictInsert k v d) = dictLookup k2 d := by
  induction d with
  | nil => simp [dictInsert, dictLookup, h]
  | cons kv rest ih =>
    obtain ⟨k1, v1⟩ := kv
    by_cases h1 : k1 = k
    · subst h1
      simp [dictInsert, dictLookup, h]
    · simp [dictInsert, h1, dictLookup, ih]

theorem dictLookup_eq_none_of_not_mem_keys [DecidableEq κ] (d : Dict κ ν)
    (k : κ) (h : k ∉ dictKeys d) : dictLookup k d = none := by
  induction d with
  | nil => rfl
  | cons kv rest ih =>
    obtain ⟨k1, v1⟩ := kv
    simp only [dictKeys, List.map_cons, List.mem_cons] at h
    push_neg at h
    have hne : ¬ k1 = k := fun hh => h.1 hh.symm
    simp [dictLookup, hne, ih (by simpa [dictKeys] using h.2)]

/-- Looking up in an updated dict: the overlay wins where it has the key,
otherwise the base answers. The overlay is a real dict, so its keys are
distinct. -/
theorem dictLookup_update [DecidableEq κ] (base overlay : Dict κ ν) (k : κ)
    (hnd : (dictKeys overlay).Nodup) :
    dictLookup k (dictUpdate base overlay) =
      ((dictLookup k overlay).or (dictLookup k base)) := by
  induction overlay generalizing base with
  | nil => simp [dictUpdate, dictLookup]
  | cons kv rest ih =>
    obtain ⟨k1, v1⟩ := kv
    simp only [dictKeys, List.map_cons, List.nodup_cons] at hnd
    show dictLookup k (dictUpdate (dictInsert k1 v1 base) rest) = _
    rw [ih _ hnd.2]
    by_cases h : k1 = k
    · subst h
      have h2 : dictLookup k1 rest = none :=
        dictLookup_eq_none_of_not_mem_keys rest k1 (by simpa [dictKeys] using hnd.1)
      simp [dictLookup, h2, dictLookup_insert_self]
    · simp [dictLookup, h, dictLookup_insert_ne k1 k v1 base (by exact h)]

end Dectate

namespace Dectate

/-- Error raised by toposort.py, plus the fuel artifact of the embedding. -/
inductive TErr where
  | cycle
  | fuel
  deriving DecidableEq, Repr

/-- Mutable state of topological_sort from toposort.py: the `marked` set, the
`temporary_marked` set and the `result` list. The two sets are modelled as
lists (membership is all the source uses). -/
structure TState (α : Type) where
  marked : List α
  temp : List α
  result : List α

mutual

/-- The inner `visit` closure of topological_sort from toposort.py, with
explicit fuel for the recursion. -/
def visit [DecidableEq α] (deps : α → List α) : Nat → α → TState α →
    Except TErr (TState α)
  | 0, _, _ => .error .fuel
  | fuel + 1, n, s =>
    if n ∈ s.marked then .ok s
    else if n ∈ s.temp then .error .cycle
    else
      match visitMany deps fuel (deps n) { s with temp := n :: s.temp } with
      | .error e => .error e
      | .ok s1 => .ok { s1 with marked := n :: s1.marked,
                                result := s1.result ++ [n] }

/-- The `for m in get_depends(n): visit(m)` loop (also used for the toplevel
`for n in l: visit(n)` loop) of topological_sort. -/
def visitMany [DecidableEq α] (deps : α → List α) : Nat → List α → TState α →
    Except TErr (TState α)
  | _, [], s => .ok s
  | fuel, n :: rest, s =>
    match visit deps fuel n s with
    | .error e => .error e
    | .ok s1 => visitMany deps fuel rest s1

end

/-- topological_sort from toposort.py, with explicit fuel. -/
def topological_sort [DecidableEq α] (fuel : Nat) (l : List α)
    (get_depends : α → List α) : Except TErr (List α) :=
  match visitMany get_depends fuel l ⟨[], [], []⟩ with
  | .error e => .error e
  | .ok s => .ok s.result

end Dectate

namespace Dectate

/-- Reachability through the dependency function: `Reach deps a b` holds when
b can be reached from a by repeatedly following `get_depends`. -/
def Reach (deps : α → List α) : α → α → Prop :=
  Relation.ReflTransGen (fun a b => b ∈ deps a)

/-- a appears strictly before b in the list l. -/
def ListOrd (l : List α) (a b : α) : Prop :=
  ∃ l1 l2 l3, l = l1 ++ a :: l2 ++ b :: l3

/-- Invariant of the DFS state: the result has no duplicates, the marked set
is exactly the set of emitted nodes, and every emitted node comes after all
of its dependencies. -/
structure TInv (deps : α → List α) (s : TState α) : Prop where
  nodup : s.result.Nodup
  marked_iff : ∀ x, x ∈ s.marked ↔ x ∈ s.result
  deps_before : ∀ n, n ∈ s.result → ∀ m, m ∈ deps n → ListOrd s.result m n

/-- How one (possibly compound) DFS step may change the state. -/
structure VStep (s s1 : TState α) : Prop where
  prefix_res : s.result <+: s1.result
  marked_sub : s.marked ⊆ s1.marked
  temp_sub : s.temp ⊆ s1.temp
  stack_pres : ∀ x, x ∈ s.temp → x ∉ s.marked → x ∉ s1.marked
  stack_sub : ∀ x, x ∈ s1.temp → x ∉ s1.marked → x ∈ s.temp ∧ x ∉ s.marked

theorem VStep.refl (s : TState α) : VStep s s :=
  ⟨List.prefix_refl _, fun _ h => h, fun _ h => h,
   fun _ _ h => h, fun _ ht hm => ⟨ht, hm⟩⟩

theorem VStep.trans {s1 s2 s3 : TState α} (a : VStep s1 s2) (b : VStep s2 s3) :
    VStep s1 s3 where
  prefix_res := a.prefix_res.trans b.prefix_res
  marked_sub := fun x h => b.marked_sub (a.marked_sub h)
  temp_sub := fun x h => b.temp_sub (a.temp_sub h)
  stack_pres := fun x ht hm hm3 =>
    (b.stack_pres x (a.temp_sub ht) (a.stack_pres x ht hm)) hm3
  stack_sub := fun x ht hm =>
    have h2 := b.stack_sub x ht hm
    a.stack_sub x h2.1 h2.2

theorem ListOrd.append_right {l : List α} {a b : α} (h : ListOrd l a b)
    (t : List α) : ListOrd (l ++ t) a b := by
  obtain ⟨l1, l2, l3, rfl⟩ := h
  exact ⟨l1, l2, l3 ++ t, by simp⟩

theorem ListOrd.of_mem_append {l : List α} {a b : α} (ha : a ∈ l)
    (hb : b ∉ l) {t : List α} (hbt : b ∈ t) : ListOrd (l ++ t) a b := by
  obtain ⟨l1, l2, rfl⟩ := List.append_of_mem ha
  obtain ⟨t1, t2, rfl⟩ := List.append_of_mem hbt
  exact ⟨l1, l2 ++ t1, t2, by simp⟩

theorem ListOrd.mem_left {l : List α} {a b : α} (h : ListOrd l a b) : a ∈ l := by
  obtain ⟨l1, l2, l3, rfl⟩ := h
  simp

theorem ListOrd.mem_right {l : List α} {a b : α} (h : ListOrd l a b) : b ∈ l := by
  obtain ⟨l1, l2, l3, rfl⟩ := h
  simp

/-- Main invariant-propagation lemma for the DFS of toposort.py: on a
successful run, the invariant is preserved, the state only grows, the visited
node ends up marked, and every newly marked node is reachable from a visited
node. -/
theorem visit_props [DecidableEq α] (deps : α → List α) : ∀ fuel : Nat,
    (∀ n (s s1 : TState α), visit deps fuel n s = .ok s1 → TInv deps s →
      TInv deps s1 ∧ VStep s s1 ∧ n ∈ s1.marked ∧
      (∀ x ∈ s1.marked, x ∈ s.marked ∨ Reach deps n x))
    ∧ (∀ (l : List α) (s s1 : TState α), visitMany deps fuel l s = .ok s1 →
      TInv deps s →
      TInv deps s1 ∧ VStep s s1 ∧ (∀ x ∈ l, x ∈ s1.marked) ∧
      (∀ x ∈ s1.marked, x ∈ s.marked ∨ ∃ y ∈ l, Reach deps y x)) := by
  intro fuel
  induction fuel with
  | zero =>
    constructor
    · intro n s s1 h
      simp [visit] at h
    · intro l s s1 h hinv
      cases l with
      | nil =>
        simp only [visitMany] at h
        cases h
        exact ⟨hinv, VStep.refl s, by simp, fun x hx => Or.inl hx⟩
      | cons n rest => simp [visitMany, visit] at h
  | succ fuel ih =>
    have hv : ∀ n (s s1 : TState α), visit deps (fuel + 1) n s = .ok s1 →
        TInv deps s →
        TInv deps s1 ∧ VStep s s1 ∧ n ∈ s1.marked ∧
        (∀ x ∈ s1.marked, x ∈ s.marked ∨ Reach deps n x) := by
      intro n s s1 h hinv
      rw [visit] at h
      by_cases hm : n ∈ s.marked
      · rw [if_pos hm] at h
        cases h
        exact ⟨hinv, VStep.refl s, hm, fun x hx => Or.inl hx⟩
      · by_cases ht : n ∈ s.temp
        · rw [if_neg hm, if_pos ht] at h
          exact absurd h (by simp)
        · rw [if_neg hm, if_neg ht] at h
          cases hmv : visitMany deps fuel (deps n) { s with temp := n :: s.temp } with
          | error e => rw [hmv] at h; exact absurd h (by simp)
          | ok s2 =>
            rw [hmv] at h
            cases h
            have hinv2 : TInv deps { s with temp := n :: s.temp } :=
              ⟨hinv.nodup, hinv.marked_iff, hinv.deps_before⟩
            obtain ⟨hi2, hstep2, hdeps2, hreach2⟩ := (ih.2) (deps n) _ s2 hmv hinv2
            have hnm2 : n ∉ s2.marked := by
              intro hc
              exact (hstep2.stack_pres n (List.mem_cons_self n s.temp) hm) hc
            have hnr2 : n ∉ s2.result := fun hc => hnm2 ((hi2.marked_iff n).mpr hc)
            refine ⟨?_, ?_, List.mem_cons_self n s2.marked, ?_⟩
            · refine ⟨?_, ?_, ?_⟩
              · show (s2.result ++ [n]).Nodup
                exact hi2.nodup.append (List.nodup_singleton n)
                  (List.disjoint_singleton.mpr hnr2)
              · intro x
                show x ∈ n :: s2.marked ↔ x ∈ s2.result ++ [n]
                constructor
                · intro hx
                  rcases List.mem_cons.mp hx with rfl | hx2
                  · exact List.mem_append.mpr (Or.inr (List.mem_singleton.mpr rfl))
                  · exact List.mem_append.mpr (Or.inl ((hi2.marked_iff x).mp hx2))
                · intro hx
                  rcases List.mem_append.mp hx with hx2 | hx2
                  · exact List.mem_cons_of_mem n ((hi2.marked_iff x).mpr hx2)
                  · rw [List.mem_singleton.mp hx2]
                    exact List.mem_cons_self n s2.marked
              · intro a ha m hmd
                have ha2 : a ∈ s2.result ++ [n] := ha
                show ListOrd (s2.result ++ [n]) m a
                rcases List.mem_append.mp ha2 with ha3 | ha3
                · exact (hi2.deps_before a ha3 m hmd).append_right [n]
                · rw [List.mem_singleton.mp ha3] at hmd ⊢
                  have hmm : m ∈ s2.marked := hdeps2 m hmd
                  have hmr : m ∈ s2.result := (hi2.marked_iff m).mp hmm
                  exact ListOrd.of_mem_append hmr hnr2 (List.mem_singleton.mpr rfl)
            · refine ⟨?_, ?_, ?_, ?_, ?_⟩
              · exact hstep2.prefix_res.trans ⟨[n], rfl⟩
              · intro x hx
                exact List.mem_cons_of_mem n (hstep2.marked_sub hx)
              · intro x hx
                exact hstep2.temp_sub (List.mem_cons_of_mem n hx)
              · intro x hxt hxm hc
                rcases List.mem_cons.mp hc with rfl | hc2
                · exact ht hxt
                · exact hstep2.stack_pres x (List.mem_cons_of_mem n hxt) hxm hc2
              · intro x hxt hxm
                have hxm2 : x ∉ s2.marked := fun hc =>
                  hxm (List.mem_cons_of_mem n hc)
                have hss := hstep2.stack_sub x hxt hxm2
                rcases List.mem_cons.mp hss.1 with rfl | hx2
                · exact absurd (List.mem_cons_self x s2.marked) hxm
                · exact ⟨hx2, hss.2⟩
            · intro x hx
              rcases List.mem_cons.mp hx with rfl | hx2
              · exact Or.inr Relation.ReflTransGen.refl
              · rcases hreach2 x hx2 with hold | ⟨y, hy, hr⟩
                · exact Or.inl hold
                · exact Or.inr (Relation.ReflTransGen.head hy hr)
    refine ⟨hv, ?_⟩
    intro l
    induction l with
    | nil =>
      intro s s1 h hinv
      simp only [visitMany] at h
      cases h
      exact ⟨hinv, VStep.refl s, by simp, fun x hx => Or.inl hx⟩
    | cons n rest ihl =>
      intro s s1 h hinv
      rw [visitMany] at h
      cases hvn : visit deps (fuel + 1) n s with
      | error e => rw [hvn] at h; cases h
      | ok s2 =>
        rw [hvn] at h
        obtain ⟨hi2, hstep2, hn2, hreach2⟩ := hv n s s2 hvn hinv
        obtain ⟨hi1, hstep1, hall1, hreach1⟩ := ihl s2 s1 h hi2
        refine ⟨hi1, hstep2.trans hstep1, ?_, ?_⟩
        · intro x hx
          rcases List.mem_cons.mp hx with rfl | hx2
          · exact hstep1.marked_sub hn2
          · exact hall1 x hx2
        · intro x hx
          rcases hreach1 x hx with h2 | ⟨y, hy, hr⟩
          · rcases hreach2 x h2 with h3 | hr2
            · exact Or.inl h3
            · exact Or.inr ⟨n, by simp, hr2⟩
          · exact Or.inr ⟨y, List.mem_cons_of_mem n hy, hr⟩

/-- Splitting a successful visiting loop over an appended list. -/
theorem visitMany_append_ok [DecidableEq α] (deps : α → List α) (fuel : Nat)
    (xs ys : List α) (s sF : TState α) :
    visitMany deps fuel (xs ++ ys) s = .ok sF ↔
      ∃ sM, visitMany deps fuel xs s = .ok sM ∧
        visitMany deps fuel ys sM = .ok sF := by
  induction xs generalizing s with
  | nil =>
    rw [List.nil_append]
    constructor
    · intro h
      exact ⟨s, by rw [visitMany], h⟩
    · rintro ⟨sM, h1, h2⟩
      rw [visitMany] at h1
      cases h1
      exact h2
  | cons n rest ih =>
    rw [List.cons_append, visitMany, visitMany]
    cases visit deps fuel n s with
    | error e =>
      constructor
      · intro h; exact absurd h (by simp)
      · rintro ⟨sM, h1, h2⟩; exact absurd h1 (by simp)
    | ok s2 => exact ih s2

/-- Adequacy of the fuel embedding: if every node of interest lives in a
dependency-closed universe U carrying a rank that strictly decreases along
`get_depends` (i.e. the reachable part of the graph is acyclic), then `visit`
and the visiting loop succeed whenever the fuel exceeds the rank. -/
theorem visit_succeeds [DecidableEq α] (deps : α → List α) (U : List α)
    (rk : α → Nat)
    (hclosed : ∀ n ∈ U, ∀ m ∈ deps n, m ∈ U)
    (hrk : ∀ n ∈ U, ∀ m ∈ deps n, rk m < rk n) : ∀ fuel : Nat,
    (∀ (n : α) (s : TState α), n ∈ U → rk n < fuel →
      (∀ x, x ∈ s.temp → x ∉ s.marked → x ∈ U ∧ rk n < rk x) →
      ∃ s1, visit deps fuel n s = .ok s1 ∧ VStep s s1)
    ∧ (∀ (l : List α) (s : TState α), (∀ m ∈ l, m ∈ U ∧ rk m < fuel) →
      (∀ x, x ∈ s.temp → x ∉ s.marked → x ∈ U ∧ ∀ m ∈ l, rk m < rk x) →
      ∃ s1, visitMany deps fuel l s = .ok s1 ∧ VStep s s1) := by
  intro fuel
  induction fuel with
  | zero =>
    constructor
    · intro n s hn hf
      exact absurd hf (by omega)
    · intro l s hl hstack
      cases l with
      | nil => exact ⟨s, by rw [visitMany], VStep.refl s⟩
      | cons n rest => exact absurd (hl n (List.mem_cons_self n rest)).2 (by omega)
  | succ fuel ih =>
    have hv : ∀ (n : α) (s : TState α), n ∈ U → rk n < fuel + 1 →
        (∀ x, x ∈ s.temp → x ∉ s.marked → x ∈ U ∧ rk n < rk x) →
        ∃ s1, visit deps (fuel + 1) n s = .ok s1 ∧ VStep s s1 := by
      intro n s hn hf hstack
      rw [visit]
      by_cases hm : n ∈ s.marked
      · rw [if_pos hm]
        exact ⟨s, rfl, VStep.refl s⟩
      · rw [if_neg hm]
        by_cases ht : n ∈ s.temp
        · exact absurd (hstack n ht hm).2 (by omega)
        · rw [if_neg ht]
          have hrec := (ih.2) (deps n) { s with temp := n :: s.temp }
            (fun m hmd => ⟨hclosed n hn m hmd, by
              have h1 := hrk n hn m hmd
              omega⟩)
            (by
              intro x hxt hxm
              rcases List.mem_cons.mp hxt with h1 | hxt2
              · rw [h1]
                exact ⟨hn, fun m hmd => hrk n hn m hmd⟩
              · obtain ⟨hxu, hxr⟩ := hstack x hxt2 hxm
                exact ⟨hxu, fun m hmd => lt_trans (hrk n hn m hmd) hxr⟩)
          obtain ⟨s2, hs2, hstep2⟩ := hrec
          rw [hs2]
          refine ⟨_, rfl, ?_⟩
          refine ⟨?_, ?_, ?_, ?_, ?_⟩
          · exact hstep2.prefix_res.trans ⟨[n], rfl⟩
          · intro x hx
            exact List.mem_cons_of_mem n (hstep2.marked_sub hx)
          · intro x hx
            exact hstep2.temp_sub (List.mem_cons_of_mem n hx)
          · intro x hxt hxm hc
            rcases List.mem_cons.mp hc with rfl | hc2
            · exact ht hxt
            · exact hstep2.stack_pres x (List.mem_cons_of_mem n hxt) hxm hc2
          · intro x hxt hxm
            have hxm2 : x ∉ s2.marked := fun hc =>
              hxm (List.mem_cons_of_mem n hc)
            have hss := hstep2.stack_sub x hxt hxm2
            rcases List.mem_cons.mp hss.1 with rfl | hx2
            · exact absurd (List.mem_cons_self x s2.marked) hxm
            · exact ⟨hx2, hss.2⟩
    refine ⟨hv, ?_⟩
    intro l
    induction l with
    | nil =>
      intro s hl hstack
      exact ⟨s, by rw [visitMany], VStep.refl s⟩
    | cons n rest ihl =>
      intro s hl hstack
      obtain ⟨s2, hs2, hstep2⟩ := hv n s (hl n (by simp)).1 (hl n (by simp)).2
        (fun x hxt hxm => ⟨(hstack x hxt hxm).1,
          (hstack x hxt hxm).2 n (by simp)⟩)
      obtain ⟨s3, hs3, hstep3⟩ := ihl s2
        (fun m hmm => hl m (List.mem_cons_of_mem n hmm))
        (by
          intro x hxt hxm
          obtain ⟨hxt2, hxm2⟩ := hstep2.stack_sub x hxt hxm
          exact ⟨(hstack x hxt2 hxm2).1,
            fun m hmm => (hstack x hxt2 hxm2).2 m (List.mem_cons_of_mem n hmm)⟩)
      refine ⟨s3, ?_, hstep2.trans hstep3⟩
      rw [visitMany, hs2]
      exact hs3

/-- The empty DFS state satisfies the invariant. -/
theorem TInv_init [DecidableEq α] (deps : α → List α) :
    TInv deps (⟨[], [], []⟩ : TState α) := by
  refine ⟨List.nodup_nil, fun x => by simp, fun n hn => absurd hn (by simp)⟩

/-- What a successful run of topological_sort guarantees: no duplicates, the
input is contained in the output, every emitted node comes after each of its
dependencies, and everything emitted is reachable from the input. -/
theorem topological_sort_spec [DecidableEq α] (deps : α → List α) (fuel : Nat)
    (l out : List α) (h : topological_sort fuel l deps = .ok out) :
    out.Nodup ∧ (∀ n ∈ l, n ∈ out) ∧
    (∀ n ∈ out, ∀ m ∈ deps n, ListOrd out m n) ∧
    (∀ x ∈ out, ∃ y ∈ l, Reach deps y x) := by
  rw [topological_sort] at h
  cases hmv : visitMany deps fuel l (⟨[], [], []⟩ : TState α) with
  | error e => rw [hmv] at h; exact absurd h (by simp)
  | ok s1 =>
    rw [hmv] at h
    cases h
    obtain ⟨hi, hstep, hall, hreach⟩ :=
      (visit_props deps fuel).2 l _ s1 hmv (TInv_init deps)
    refine ⟨hi.nodup, ?_, ?_, ?_⟩
    · intro n hn
      exact (hi.marked_iff n).mp (hall n hn)
    · intro n hn m hm
      exact hi.deps_before n hn m hm
    · intro x hx
      rcases hreach x ((hi.marked_iff x).mpr hx) with hc | hc
      · exact absurd hc (by simp)
      · exact hc

/-- Everything reachable from an input node ends up in the output of a
successful topological_sort (even nodes absent from the input list). -/
theorem topological_sort_reach_closed [DecidableEq α] (deps : α → List α)
    (fuel : Nat) (l out : List α) (h : topological_sort fuel l deps = .ok out)
    (y : α) (hy : y ∈ l) : ∀ x, Reach deps y x → x ∈ out := by
  obtain ⟨hnd, hin, hord, hre⟩ := topological_sort_spec deps fuel l out h
  intro x hx
  induction hx with
  | refl => exact hin y hy
  | tail hab hbc ih => exact (hord _ ih _ hbc).mem_left

/-- Stability of the DFS output, in the form that actually holds: a node u of
the input precedes an input node v listed after it whenever v is not reachable
from u or from any input node listed before u. -/
theorem topological_sort_stable [DecidableEq α] (deps : α → List α)
    (fuel : Nat) (l1 l2 out : List α) (u v : α)
    (h : topological_sort fuel (l1 ++ u :: l2) deps = .ok out)
    (hv : v ∈ l2) (hnr : ∀ y, (y ∈ l1 ∨ y = u) → ¬ Reach deps y v) :
    ListOrd out u v := by
  rw [topological_sort] at h
  cases hmv0 : visitMany deps fuel (l1 ++ u :: l2) (⟨[], [], []⟩ : TState α) with
  | error e => rw [hmv0] at h; exact absurd h (by simp)
  | ok sF =>
    rw [hmv0] at h
    cases h
    have hsplit : l1 ++ u :: l2 = (l1 ++ [u]) ++ l2 := by simp
    rw [hsplit] at hmv0
    obtain ⟨sM, hmv, hmv2⟩ := (visitMany_append_ok deps fuel _ _ _ _).mp hmv0
    obtain ⟨hiM, hstepM, hallM, hreachM⟩ :=
      (visit_props deps fuel).2 (l1 ++ [u]) _ sM hmv (TInv_init deps)
    obtain ⟨hiF, hstepF, hallF, hreachF⟩ :=
      (visit_props deps fuel).2 l2 sM sF hmv2 hiM
    have huM : u ∈ sM.result := (hiM.marked_iff u).mp (hallM u (by simp))
    have hvM : v ∉ sM.result := by
      intro hc
      rcases hreachM v ((hiM.marked_iff v).mpr hc) with hc2 | ⟨y, hy, hr⟩
      · exact absurd hc2 (by simp)
      · refine hnr y ?_ hr
        rcases List.mem_append.mp hy with hy2 | hy2
        · exact Or.inl hy2
        · exact Or.inr (List.mem_singleton.mp hy2)
    have hvF : v ∈ sF.result := (hiF.marked_iff v).mp (hallF v hv)
    obtain ⟨t, hpre⟩ := hstepF.prefix_res
    rw [← hpre]
    rw [← hpre] at hvF
    have hvt : v ∈ t := by
      rcases List.mem_append.mp hvF with hc | hc
      · exact absurd hc hvM
      · exact hc
    exact ListOrd.of_mem_append huM hvM hvt

/-- Example dependency function: node 0 depends on node 2, all other nodes
have no dependencies. -/
def exDeps : Nat → List Nat := fun n => if n = 0 then [2] else []

/-- A rank showing exDeps is acyclic. -/
def exRank : Nat → Nat := fun n => if n = 0 then 3 else n

/-- C4 counterexample: on the acyclic input [0, 1, 2] with 0 depending on 2,
topological_sort returns [2, 0, 1]. The nodes 1 and 2 have no dependency
path between them in either direction, 1 precedes 2 in the input, yet 2
precedes 1 in the output — refuting the claimed stability among mutually
independent nodes. -/
theorem C4_counterexample :
    (∀ n : Nat, ∀ m ∈ exDeps n, exRank m < exRank n) ∧
    topological_sort 4 [0, 1, 2] exDeps = .ok [2, 0, 1] ∧
    ¬ Reach exDeps 1 2 ∧ ¬ Reach exDeps 2 1 ∧
    [1, 2].Sublist [0, 1, 2] ∧
    ¬ [1, 2].Sublist [2, 0, 1] ∧ [2, 1].Sublist [2, 0, 1] := by
  refine ⟨?_, ?_, ?_, ?_, by decide, by decide, by decide⟩
  · intro n m hm
    by_cases hn : n = 0
    · subst hn
      have hm2 : m = 2 := by simpa [exDeps] using hm
      subst hm2
      decide
    · simp [exDeps, hn] at hm
  · simp +decide [topological_sort, visitMany, visit, exDeps]
  · intro h
    rcases h.cases_head with h1 | ⟨c, hc, h2⟩
    · exact absurd h1 (by decide)
    · simp [exDeps] at hc
  · intro h
    rcases h.cases_head with h1 | ⟨c, hc, h2⟩
    · exact absurd h1 (by decide)
    · simp [exDeps] at hc

/-- C4 (amended): for every input list whose depends relation restricted to
the reachable part is acyclic — witnessed by a rank strictly decreasing along
get_depends on a dependency-closed superset U of the input — topological_sort
succeeds (given fuel above every input rank); every node of the input appears
in the output after all of its dependencies that are also in the input; and a
node u of the input precedes a later input node v whenever v is not reachable
via get_depends from u or from any input node before u. The original claim's
stronger stability clause (input order preserved between any two nodes with
no dependency path between them) is false: see C4_counterexample. -/
theorem C4_toposort_order_and_stability [DecidableEq α] (deps : α → List α)
    (U l : List α) (rk : α → Nat) (fuel : Nat)
    (hU : ∀ n ∈ l, n ∈ U)
    (hclosed : ∀ n ∈ U, ∀ m ∈ deps n, m ∈ U)
    (hrk : ∀ n ∈ U, ∀ m ∈ deps n, rk m < rk n)
    (hfuel : ∀ n ∈ l, rk n < fuel) :
    ∃ out, topological_sort fuel l deps = .ok out ∧
      (∀ n ∈ l, n ∈ out) ∧
      (∀ n ∈ out, ∀ m ∈ deps n, m ∈ l → ListOrd out m n) ∧
      (∀ l1 u l2 v, l = l1 ++ u :: l2 → v ∈ l2 →
        (∀ y, (y ∈ l1 ∨ y = u) → ¬ Reach deps y v) → ListOrd out u v) := by
  obtain ⟨sF, hok, hstep⟩ :=
    (visit_succeeds deps U rk hclosed hrk fuel).2 l ⟨[], [], []⟩
      (fun m hm => ⟨hU m hm, hfuel m hm⟩)
      (fun x hxt hxm => absurd hxt (by simp))
  have htop : topological_sort fuel l deps = .ok sF.result := by
    rw [topological_sort, hok]
  obtain ⟨hnd, hin, hord, hre⟩ := topological_sort_spec deps fuel l _ htop
  refine ⟨sF.result, htop, hin, ?_, ?_⟩
  · intro n hn m hm hml
    exact hord n hn m hm
  · intro l1 u l2 v hl hv hnr
    rw [hl] at htop
    exact topological_sort_stable deps fuel l1 l2 _ u v htop hv hnr

/-- Witness instantiating C4_toposort_order_and_stability on the concrete
acyclic graph exDeps. -/
theorem C4_toposort_order_and_stability_witness :
    ∃ out, topological_sort 4 [0, 1, 2] exDeps = .ok out ∧
      (∀ n ∈ [0, 1, 2], n ∈ out) ∧
      (∀ n ∈ out, ∀ m ∈ exDeps n, m ∈ [0, 1, 2] → ListOrd out m n) ∧
      (∀ l1 u l2 v, [0, 1, 2] = l1 ++ u :: l2 → v ∈ l2 →
        (∀ y, (y ∈ l1 ∨ y = u) → ¬ Reach exDeps y v) → ListOrd out u v) :=
  C4_toposort_order_and_stability exDeps [0, 1, 2] [0, 1, 2] exRank 4
    (by decide) (by decide) (by decide) (by decide)

/-- Target objects (the functions/classes actions are performed for),
identified opaquely. -/
abbrev Target := Nat

/-- The config attribute bag of a configurable, mapping attribute names to
values. An attribute holding Python None is a present key with value vnone
(hasattr and "getattr(...) is not None" differ exactly as in the source). -/
abbrev Config := Dict String Val

/-- getattr(config, name, None). -/
def getattrD (cfg : Config) (name : String) : Val :=
  (dictLookup name cfg).getD .vnone

/-- del config.name (only reached behind a hasattr guard in the source, so a
no-op on an absent key is faithful). -/
def dictRemove [DecidableEq κ] (k : κ) : Dict κ ν → Dict κ ν
  | [] => []
  | (k1, v1) :: rest =>
    if k1 = k then dictRemove k rest else (k1, v1) :: dictRemove k rest

/-- An Action config-value factory: its factory_arguments (mapping argument
name to the factory registered for it) and the construction function, which
receives the argument values in declaration order. Factories are referenced
by an opaque id (Python object identity, used by the "seen[name] is not
factory" check). -/
structure FactorySpec where
  args : List (String × Nat)
  build : List Val → Val

/-- Table resolving factory ids. -/
abbrev FacTable := Nat → FactorySpec

/-- An Action subclass, as the class-level data config.py reads: whether it
is an Action subclass at all (composites are not), its group_class, its
effective config dict, its depends list, whether config/before/after are
declared in its own class body (the double-underscore dict checks), and its
before/after hooks modelled as transformers of the config keyword values. -/
structure ClassSpec where
  isAction : Bool
  group_class : Option Nat
  config : List (String × Nat)
  depends : List Nat
  ownConfig : Bool
  ownBefore : Bool
  ownAfter : Bool
  before : Dict String Val → Dict String Val
  after : Dict String Val → Dict String Val

/-- Table resolving action-class ids. -/
abbrev ClassTab := Nat → ClassSpec

/-- factory_key from config.py: the toposort dependencies of a (name,
factory) item are the items of the factory's factory_arguments. -/
def factory_key (ftab : FacTable) (item : String × Nat) : List (String × Nat) :=
  (ftab item.2).args

/-- sort_action_classes from config.py. -/
def sort_action_classes (ct : ClassTab) (fuel : Nat) (l : List Nat) :
    Except TErr (List Nat) :=
  topological_sort fuel l (fun c => (ct c).depends)

/-- get_factory_arguments from config.py: look up each factory argument on
the config object; a missing (or None) value is a ConfigError. Returns the
argument values in declaration order. -/
def get_factory_arguments (ftab : FacTable) (cfg : Config) (fid : Nat) :
    Except PyExc (List Val) :=
  go ((ftab fid).args)
where
  go : List (String × Nat) → Except PyExc (List Val)
    | [] => .ok []
    | (name, _) :: rest =>
      let v := getattrD cfg name
      if v = .vnone then
        .error (.configError ("Cannot find factory argument " ++ name))
      else
        match go rest with
        | .error e => .error e
        | .ok vs => .ok (v :: vs)

/-- The loop body of Configurable.setup_config: process the topologically
sorted (name, factory) items. The state is the config bag, the
_factories_seen dict and (as observable instrumentation) the list of names
actually constructed, in construction order. -/
def setup_config_items (ftab : FacTable) :
    List (String × Nat) → Config → Dict String Nat → List String →
    Except PyExc (Config × Dict String Nat × List String)
  | [], cfg, seen, log => .ok (cfg, seen, log)
  | (name, fid) :: rest, cfg, seen, log =>
    if getattrD cfg name ≠ .vnone then
      match dictLookup name seen with
      | none => .error (.keyError name)
      | some fid0 =>
        if fid0 ≠ fid then
          .error (.configError ("Inconsistent factories for config " ++ name))
        else
          setup_config_items ftab rest cfg seen log
    else
      match get_factory_arguments ftab cfg fid with
      | .error e => .error e
      | .ok vs =>
        setup_config_items ftab rest
          (dictInsert name ((ftab fid).build vs) cfg)
          (dictInsert name fid seen) (log ++ [name])

/-- Configurable.setup_config from config.py: topologically sort the config
items of the action class by factory_key, then construct every value not
already present. -/
def setup_config (ftab : FacTable) (fuel : Nat) (clsConfig : List (String × Nat))
    (cfg : Config) (seen : Dict String Nat) (log : List String) :
    Except PyExc (Config × Dict String Nat × List String) :=
  match topological_sort fuel clsConfig (factory_key ftab) with
  | .error .cycle => .error .topoError
  | .error .fuel => .error .fuel
  | .ok items => setup_config_items ftab items cfg seen log

/-- Configurable.delete_config from config.py: delete the class's config
names and all of their factory-argument names from the config bag. -/
def delete_config (ftab : FacTable) (clsConfig : List (String × Nat))
    (cfg : Config) : Config :=
  clsConfig.foldl
    (fun c nf =>
      (ftab nf.2).args.foldl (fun c2 an => dictRemove an.1 c2)
        (dictRemove nf.1 c))
    cfg

/-- A configuration action instance, as ActionGroup.prepare/execute consume
it: its class, an opaque identity tag, its directive's code info (None when
created without a directive), its order attribute (None models the attribute
being absent), and the user callbacks, each receiving the config keyword
values and allowed to raise. perform returns the updated keyword values
(modelling in-place mutation of the shared config objects). For the query
layer: the instance attributes (getattr), the filter_name map, the
filter_get_value fallback (none models the attribute being set to None, the
Action default is a function constantly returning NOT_FOUND), and the
filter_compare map, whose comparison functions receive the resolved value
(none = the NOT_FOUND sentinel) and the filter argument. -/
structure MAction where
  cls : Nat
  tag : Nat
  directive : Option CodeInfo
  order : Option Nat
  identifier : Dict String Val → Except PyExc Val
  discriminators : Dict String Val → Except PyExc (List Val)
  perform : Target → Dict String Val → Except PyExc (Dict String Val)
  attrs : Dict String Val
  filter_name : Dict String String
  filter_get_value : Option (String → Option Val)
  filter_compare : String → Option (Option Val → Val → Bool)

/-- Action.code_info: None when the action has no directive. -/
def MAction.code_info (a : MAction) : Option CodeInfo := a.directive

/-- The identity of an action as reported in a ConflictError. -/
def MAction.cinfo (a : MAction) : ConflictInfo := ⟨a.tag, a.directive⟩

/-- Action._get_config_kw: resolve the class to its group class and read that
class's config names off the config bag (plain getattr: a missing attribute
raises AttributeError). -/
def get_config_kw (ct : ClassTab) (cfg : Config) (cls : Nat) :
    Except PyExc (Dict String Val) :=
  go ((ct ((ct cls).group_class.getD cls)).config)
where
  go : List (String × Nat) → Except PyExc (Dict String Val)
    | [] => .ok []
    | (name, _) :: rest =>
      match dictLookup name cfg with
      | none => .error (.attributeError name)
      | some v =>
        match go rest with
        | .error e => .error e
        | .ok kw => .ok ((name, v) :: kw)

/-- The inner discriminator loop of ActionGroup.prepare: claim each
discriminator value (the identifier first); a value already claimed — by any
action, including this one — raises ConflictError. -/
def claimDiscs (a : MAction) : List Val → Dict Val MAction →
    Except PyExc (Dict Val MAction)
  | [], discs => .ok discs
  | d :: rest, discs =>
    match dictLookup d discs with
    | some other => .error (mkConflictError a.cinfo other.cinfo)
    | none => claimDiscs a rest (dictInsert d a discs)

/-- The per-action loop of ActionGroup.prepare: compute the config kw,
identifier and discriminators of each buffered action, run conflict
detection, and fill the identifier-to-(action, target) map. -/
def prepareActions (ct : ClassTab) (cfg : Config) :
    List (MAction × Target) → Dict Val MAction → Dict Val (MAction × Target) →
    Except PyExc (Dict Val (MAction × Target))
  | [], _, amap => .ok amap
  | (a, obj) :: rest, discs, amap =>
    match get_config_kw ct cfg a.cls with
    | .error e => .error e
    | .ok kw =>
      match a.identifier kw with
      | .error e => .error e
      | .ok id =>
        match a.discriminators kw with
        | .error e => .error e
        | .ok ds =>
          match claimDiscs a (id :: ds) discs with
          | .error e => .error e
          | .ok discs1 =>
            prepareActions ct cfg rest discs1 (dictInsert id (a, obj) amap)

/-- An ActionGroup: its true action class, the buffered (action, target)
pairs of this configurable, and for each parent configurable (in extends
order) the parent's resolved action map (the parent has been committed
before, or the map is empty). -/
structure ActionGroup where
  action_class : Nat
  actions : List (MAction × Target)
  extendsMaps : List (Dict Val (MAction × Target))

/-- ActionGroup.combine from config.py: take a copy of the extended group's
action map and overlay this group's own map on top (dict.update), so that
entries with matching identifiers are silently overridden by this group. -/
def ActionGroup.combine (selfMap parentMap : Dict Val (MAction × Target)) :
    Dict Val (MAction × Target) :=
  dictUpdate parentMap selfMap

/-- ActionGroup.prepare from config.py: local conflict detection building the
identifier map, then combine with each extended group's map in listed
order. -/
def ActionGroup.prepare (ct : ClassTab) (cfg : Config) (g : ActionGroup) :
    Except PyExc (Dict Val (MAction × Target)) :=
  match prepareActions ct cfg g.actions [] [] with
  | .error e => .error e
  | .ok amap => .ok (g.extendsMaps.foldl ActionGroup.combine amap)

/-- Stable insertion into a key-sorted list: the new element (from later in
the original list) goes after existing elements with an equal key. -/
def insertSorted (key : β → Nat) (x : β) : List β → List β
  | [] => [x]
  | y :: rest =>
    if key y ≤ key x then y :: insertSorted key x rest else x :: y :: rest

/-- Stable sort by a Nat key (list.sort in the source is timsort; any stable
sort computes the same list). -/
def sortByKey (key : β → Nat) : List β → List β
  | [] => []
  | x :: rest => insertSorted key x (sortByKey key rest)


/-- ActionGroup.get_actions from config.py: the values of the action map,
sorted (stably) by each action's order attribute, with None treated as 0
("value[0].order or 0"). -/
def get_actions (amap : Dict Val (MAction × Target)) : List (MAction × Target) :=
  sortByKey (fun v => v.1.order.getD 0) (dictValues amap)

/-- Observable execution events of a commit: the group-level before hook, one
performed action (recorded by tag and target), the group-level after hook. -/
inductive Event where
  | beforeHook (cls : Nat)
  | performed (tag : Nat) (obj : Target)
  | afterHook (cls : Nat)
  deriving DecidableEq, Repr

/-- The except-DirectiveError handler of ActionGroup.execute and
expand_actions: a DirectiveError becomes a DirectiveReportError carrying the
given code info; any other exception propagates unchanged. -/
def translateDirectiveErr (ci : Option CodeInfo) : PyExc → PyExc
  | .directiveError msg => .directiveReportError msg ci
  | e => e

/-- The perform loop of ActionGroup.execute: run each action's perform in
order on the shared config keyword values; a DirectiveError becomes a
DirectiveReportError carrying the action's code info, any other exception
propagates unchanged. -/
def performAll : List (MAction × Target) → Dict String Val → List Event →
    Except PyExc (Dict String Val × List Event)
  | [], kw, ev => .ok (kw, ev)
  | (a, obj) :: rest, kw, ev =>
    match a.perform obj kw with
    | .error e => .error (translateDirectiveErr a.code_info e)
    | .ok kw1 => performAll rest kw1 (ev ++ [.performed a.tag obj])

/-- Write the (possibly mutated) config keyword values back into the config
bag: in Python the kw entries alias the objects stored on config, so their
mutation is visible there. -/
def writeBackKw (cfg : Config) (kw : Dict String Val) : Config :=
  kw.foldl (fun c nv => dictInsert nv.1 nv.2 c) cfg

/-- ActionGroup.execute from config.py: prepare (conflict detection and
combination), compute the group class's config kw once, run the before hook,
perform every action in registration order, run the after hook. -/
def ActionGroup.execute (ct : ClassTab) (g : ActionGroup) (cfg : Config) :
    Except PyExc (Config × List Event) :=
  match g.prepare ct cfg with
  | .error e => .error e
  | .ok amap =>
    match get_config_kw ct cfg g.action_class with
    | .error e => .error e
    | .ok kw =>
      let kw1 := (ct g.action_class).before kw
      match performAll (get_actions amap) kw1 [.beforeHook g.action_class] with
      | .error e => .error e
      | .ok (kw2, ev) =>
        let kw3 := (ct g.action_class).after kw2
        .ok (writeBackKw cfg kw3, ev ++ [.afterHook g.action_class])

/-- A registration item as fed to expand_actions: either an Action instance
or a Composite instance. A composite carries its directive's code info and
the outcome of calling actions(obj) — the sub-(action|composite, target)
pairs, or the exception that call raises. (Each composite is expanded exactly
once, for one target, so the call's outcome can be inlined.) -/
inductive RItem where
  | act (a : MAction)
  | comp (directive : Option CodeInfo) (result : Except PyExc (List (RItem × Target)))

/-- Assigning to the directive attribute of an action or composite
(sub_action.directive = action.directive in expand_actions — note this is
unconditional in the source). -/
def RItem.setDirective (d : Option CodeInfo) : RItem → RItem
  | .act a => .act { a with directive := d }
  | .comp _ r => .comp d r

mutual

/-- Structural size of an item (the directive field does not count, so that
setDirective is size-preserving). -/
def RItem.size : RItem → Nat
  | .act _ => 1
  | .comp _ r => 1 + sizeRes r

def sizeRes : Except PyExc (List (RItem × Target)) → Nat
  | .error _ => 0
  | .ok subs => sizeList subs

def sizeList : List (RItem × Target) → Nat
  | [] => 0
  | (i, _) :: rest => i.size + sizeList rest

end

theorem size_setDirective (d : Option CodeInfo) (i : RItem) :
    (i.setDirective d).size = i.size := by
  cases i with
  | act a => rfl
  | comp d0 r => rfl

theorem sizeList_map_setDirective (d : Option CodeInfo)
    (l : List (RItem × Target)) :
    sizeList (l.map (fun so => (so.1.setDirective d, so.2))) = sizeList l := by
  induction l with
  | nil => rfl
  | cons x rest ih =>
    obtain ⟨i, t⟩ := x
    simp only [List.map_cons, sizeList, ih, size_setDirective]

theorem sizeList_append (l1 l2 : List (RItem × Target)) :
    sizeList (l1 ++ l2) = sizeList l1 + sizeList l2 := by
  induction l1 with
  | nil => simp [sizeList]
  | cons x rest ih =>
    obtain ⟨i, t⟩ := x
    rw [List.cons_append]
    rw [show sizeList ((i, t) :: (rest ++ l2)) = i.size + sizeList (rest ++ l2) from rfl]
    rw [show sizeList ((i, t) :: rest) = i.size + sizeList rest from rfl]
    rw [ih]
    omega

/-- expand_actions from config.py, with the global order counter threaded
explicitly. Composites are expanded recursively; the composite's directive
is assigned (unconditionally) to every sub item; a DirectiveError raised by
actions(obj) becomes a DirectiveReportError carrying the composite's code
info; a leaf action lacking the order attribute is assigned the next counter
value. -/
def expand_actions : List (RItem × Target) → Nat →
    Except PyExc (List (MAction × Target) × Nat)
  | [], c => .ok ([], c)
  | (.comp dir res, obj) :: rest, c =>
    match res with
    | .error e => .error (translateDirectiveErr dir e)
    | .ok subs =>
      match expand_actions (subs.map (fun so => (so.1.setDirective dir, so.2))) c with
      | .error e => .error e
      | .ok (l1, c1) =>
        match expand_actions rest c1 with
        | .error e => .error e
        | .ok (l2, c2) => .ok (l1 ++ l2, c2)
  | (.act a, obj) :: rest, c =>
    let ac := if a.order = none then ({ a with order := some c }, c + 1) else (a, c)
    match expand_actions rest ac.2 with
    | .error e => .error e
    | .ok (l, c2) => .ok ((ac.1, obj) :: l, c2)
termination_by l c => sizeList l
decreasing_by
  all_goals
    simp only [sizeList, RItem.size, sizeRes, sizeList_map_setDirective,
      sizeList_append, List.append_eq]
  all_goals omega

/-- A Directive as the commit phase consumes it: the code info captured at
the call site, and the outcome of calling the action factory with the stored
arguments (an Action or Composite instance, or the exception the constructor
raises — a TypeError for an arity/type error). -/
structure MDirective where
  code_info : CodeInfo
  factory : Except PyExc RItem

/-- The except-TypeError handler of Directive.action: a TypeError becomes a
DirectiveReportError carrying the directive's code info; other exceptions
propagate unchanged. -/
def translateTypeErr (ci : CodeInfo) : PyExc → PyExc
  | .typeError msg => .directiveReportError msg (some ci)
  | e => e

/-- Directive.action from config.py: invoke the action factory, translating
a TypeError into a DirectiveReportError carrying the directive's code info
(other exceptions propagate), and store the directive on the resulting
action. -/
def MDirective.action (d : MDirective) : Except PyExc RItem :=
  match d.factory with
  | .error e => .error (translateTypeErr d.code_info e)
  | .ok item => .ok (item.setDirective (some d.code_info))

/-- The list comprehension at the start of Configurable.group_actions:
turn every buffered (directive, obj) registration into an action item. -/
def buildActions : List (MDirective × Target) → Except PyExc (List (RItem × Target))
  | [] => .ok []
  | (d, obj) :: rest =>
    match d.action with
    | .error e => .error e
    | .ok item =>
      match buildActions rest with
      | .error e => .error e
      | .ok l => .ok ((item, obj) :: l)

/-- The filing loop of Configurable.group_actions: route each expanded
(action, obj) pair into the ActionGroup of its true class (the action's
group_class if set, else its own class); a missing group is the KeyError the
source's d[action_class] would raise. -/
def routeActions (ct : ClassTab) :
    List (MAction × Target) → Dict Nat ActionGroup →
    Except PyExc (Dict Nat ActionGroup)
  | [], groups => .ok groups
  | (a, obj) :: rest, groups =>
    let key := ((ct a.cls).group_class).getD a.cls
    match dictLookup key groups with
    | none => .error (.keyError "action class has no group")
    | some g =>
      routeActions ct rest
        (dictInsert key { g with actions := g.actions ++ [(a, obj)] } groups)

/-- The group-class validation in Configurable.setup (lines 94-117 of
config.py): resolve an action class to its true group class, rejecting a
group_class that itself has a group_class, and a class that declares
config, before or after in its own body while using group_class. -/
def resolveGroupClass (ct : ClassTab) (c : Nat) : Except PyExc Nat :=
  match (ct c).group_class with
  | none => .ok c
  | some gc =>
    if (ct gc).group_class ≠ none then
      .error (.configError "Cannot use group_class on another action class that uses group_class")
    else if (ct c).ownConfig then
      .error (.configError "Cannot use config class attribute when you use group_class")
    else if (ct c).ownBefore then
      .error (.configError "Cannot define before method when you use group_class")
    else if (ct c).ownAfter then
      .error (.configError "Cannot define after method when you use group_class")
    else
      .ok gc

/-- The first loop of Configurable.setup: collect the set of true group
classes of all known action classes (skipping registered factories that are
not Action subclasses). The Python set is modelled as a list deduplicated in
first-insertion order. -/
def setupGroupSet (ct : ClassTab) : List Nat → List Nat → Except PyExc (List Nat)
  | [], acc => .ok acc
  | c :: rest, acc =>
    if (ct c).isAction = false then
      setupGroupSet ct rest acc
    else
      match resolveGroupClass ct c with
      | .error e => .error e
      | .ok g =>
        setupGroupSet ct rest (if g ∈ acc then acc else acc ++ [g])

/-- The per-class second loop of Configurable.setup: construct the config
values for each sorted group class and create its (empty) ActionGroup,
linked to the parents' resolved maps for that class. -/
def setupGroups (ct : ClassTab) (ftab : FacTable) (fuel : Nat)
    (parentMaps : Nat → List (Dict Val (MAction × Target))) :
    List Nat → Config → Dict String Nat → List String → Dict Nat ActionGroup →
    Except PyExc (Config × Dict String Nat × List String × Dict Nat ActionGroup)
  | [], cfg, seen, log, groups => .ok (cfg, seen, log, groups)
  | g :: rest, cfg, seen, log, groups =>
    match setup_config ftab fuel (ct g).config cfg seen log with
    | .error e => .error e
    | .ok (cfg1, seen1, log1) =>
      setupGroups ct ftab fuel parentMaps rest cfg1 seen1 log1
        (dictInsert g ⟨g, [], parentMaps g⟩ groups)

/-- Configurable.setup from config.py: resolve and validate the group
classes of all known action classes (own plus inherited — the caller passes
the union), topologically sort them by depends, delete any configuration a
previous commit left (for every sorted class, including classes pulled in
via depends only), then rebuild the config values and create one fresh empty
ActionGroup per sorted class. Returns the sorted class list, the new config
bag, the factories seen, the construction log and the group map. -/
def Configurable.setup (ct : ClassTab) (ftab : FacTable) (fuel : Nat)
    (allClasses : List Nat)
    (parentMaps : Nat → List (Dict Val (MAction × Target)))
    (cfg : Config) :
    Except PyExc (List Nat × Config × Dict String Nat × List String × Dict Nat ActionGroup) :=
  match setupGroupSet ct allClasses [] with
  | .error e => .error e
  | .ok gset =>
    match sort_action_classes ct fuel gset with
    | .error .cycle => .error .topoError
    | .error .fuel => .error .fuel
    | .ok sorted1 =>
      let cfg1 := sorted1.foldl (fun c g => delete_config ftab (ct g).config c) cfg
      match setupGroups ct ftab fuel parentMaps sorted1 cfg1 [] [] [] with
      | .error e => .error e
      | .ok (cfg2, seen, log, groups) => .ok (sorted1, cfg2, seen, log, groups)

/-- Configurable.group_actions from config.py: instantiate every buffered
directive into an action item, expand composites (assigning registration
order), and file each resulting pair into its group. -/
def Configurable.group_actions (ct : ClassTab)
    (directives : List (MDirective × Target)) (counter : Nat)
    (groups : Dict Nat ActionGroup) :
    Except PyExc (Dict Nat ActionGroup × Nat) :=
  match buildActions directives with
  | .error e => .error e
  | .ok items =>
    match expand_actions items counter with
    | .error e => .error e
    | .ok (pairs, counter1) =>
      match routeActions ct pairs groups with
      | .error e => .error e
      | .ok groups1 => .ok (groups1, counter1)

/-- The execution loop at the end of Configurable.execute: run each group in
dependency order, threading the config bag and collecting events. -/
def execGroups (ct : ClassTab) :
    List Nat → Dict Nat ActionGroup → Config → List Event →
    Except PyExc (Config × List Event)
  | [], _, cfg, ev => .ok (cfg, ev)
  | g :: rest, groups, cfg, ev =>
    match dictLookup g groups with
    | none => .error (.keyError "missing action group")
    | some grp =>
      match grp.execute ct cfg with
      | .error e => .error e
      | .ok (cfg1, ev1) => execGroups ct rest groups cfg1 (ev ++ ev1)

/-- Configurable.execute from config.py: setup, group_actions, then execute
every action group in depends order (the source re-sorts the group map's
keys; the key list of the map built by setup is already depends-closed, and
a key missing from the map would be the source's KeyError). -/
def Configurable.execute (ct : ClassTab) (ftab : FacTable) (fuel : Nat)
    (allClasses : List Nat)
    (parentMaps : Nat → List (Dict Val (MAction × Target)))
    (directives : List (MDirective × Target))
    (cfg : Config) (counter : Nat) :
    Except PyExc (Config × Nat × Dict Nat ActionGroup × List String × List Event) :=
  match Configurable.setup ct ftab fuel allClasses parentMaps cfg with
  | .error e => .error e
  | .ok (sorted1, cfg1, seen, log, groups) =>
    match Configurable.group_actions ct directives counter groups with
    | .error e => .error e
    | .ok (groups1, counter1) =>
      match sort_action_classes ct fuel (dictKeys groups1) with
      | .error .cycle => .error .topoError
      | .error .fuel => .error .fuel
      | .ok order2 =>
        match execGroups ct order2 groups1 cfg1 [] with
        | .error e => .error e
        | .ok (cfg2, ev) => .ok (cfg2, counter1, groups1, log, ev)

/-- Action.get_value_for_filter from config.py: map the filter name through
filter_name (defaulting to itself), look the attribute up on the action, and
fall back to filter_get_value; `none` is the NOT_FOUND sentinel. -/
def get_value_for_filter (a : MAction) (name : String) : Option Val :=
  let actual_name := (dictLookup name a.filter_name).getD name
  match dictLookup actual_name a.attrs with
  | some v => some v
  | none =>
    match a.filter_get_value with
    | none => none
    | some f => f name

/-- compare_equality from query.py: the default filter comparison. The
compared value can be the NOT_FOUND sentinel (modelled as none), which a
caller-supplied plain value never equals. -/
def compare_equality (compared : Option Val) (value : Val) : Bool :=
  compared = some value

/-- Filter.execute from query.py, applied to the (action, obj) pairs the
inner query yields: keep a pair when every (sorted) filter key's resolved
value passes that key's comparison function (compare_equality when the class
declares none) against the filter argument. -/
def Filter.execute (kw : List (String × Val))
    (pairs : List (MAction × Target)) : List (MAction × Target) :=
  pairs.filter (fun p =>
    kw.all (fun nv =>
      let compared := get_value_for_filter p.1 nv.1
      match p.1.filter_compare nv.1 with
      | some f => f compared nv.2
      | none => compare_equality compared nv.2))

theorem dictLookup_none_iff [DecidableEq κ] (d : Dict κ ν) (k : κ) :
    dictLookup k d = none ↔ k ∉ dictKeys d := by
  constructor
  · intro h hmem
    induction d with
    | nil => simp [dictKeys] at hmem
    | cons kv rest ih =>
      obtain ⟨k1, v1⟩ := kv
      by_cases hk : k1 = k
      · simp [dictLookup, hk] at h
      · simp only [dictLookup, hk, if_false] at h
        simp only [dictKeys, List.map_cons, List.mem_cons] at hmem
        rcases hmem with h2 | h2
        · exact hk h2.symm
        · exact ih h (by simpa [dictKeys] using h2)
  · exact dictLookup_eq_none_of_not_mem_keys d k

theorem dictKeys_insert_not_mem [DecidableEq κ] (k : κ) (v : ν) (d : Dict κ ν)
    (h : dictLookup k d = none) :
    dictKeys (dictInsert k v d) = dictKeys d ++ [k] := by
  induction d with
  | nil => simp [dictInsert, dictKeys]
  | cons kv rest ih =>
    obtain ⟨k1, v1⟩ := kv
    by_cases hk : k1 = k
    · simp [dictLookup, hk] at h
    · simp only [dictLookup, hk, if_false] at h
      have h2 := ih h
      simp only [dictKeys] at h2
      simp [dictInsert, hk, dictKeys, h2]

theorem charsLt_trichotomy (x y : List Char) :
    charsLt x y = true ∨ x = y ∨ charsLt y x = true := by
  induction x generalizing y with
  | nil =>
    cases y with
    | nil => exact Or.inr (Or.inl rfl)
    | cons d ds => exact Or.inl rfl
  | cons c cs ih =>
    cases y with
    | nil => exact Or.inr (Or.inr rfl)
    | cons d ds =>
      rcases lt_trichotomy c d with h | h | h
      · exact Or.inl (by simp [charsLt, h])
      · subst h
        rcases ih ds with h2 | h2 | h2
        · exact Or.inl (by simp [charsLt, lt_irrefl, h2])
        · exact Or.inr (Or.inl (by rw [h2]))
        · exact Or.inr (Or.inr (by simp [charsLt, lt_irrefl, h2]))
      · exact Or.inr (Or.inr (by simp [charsLt, h]))

/-- The key comparison used by the ConflictError sort is total. -/
theorem keyLE_total (a b : Option (String × Nat)) :
    keyLE a b = true ∨ keyLE b a = true := by
  match a, b with
  | none, _ => exact Or.inl rfl
  | some (p1, l1), none => exact Or.inr rfl
  | some (p1, l1), some (p2, l2) =>
    simp only [keyLE, Bool.or_eq_true, decide_eq_true_eq, Bool.and_eq_true]
    rcases charsLt_trichotomy p1.data p2.data with h | h | h
    · exact Or.inl (Or.inl h)
    · have hp : p1 = p2 := by
        cases p1
        cases p2
        exact congrArg String.mk h
      subst hp
      rcases Nat.le_total l1 l2 with h2 | h2
      · exact Or.inl (Or.inr ⟨rfl, by simpa using h2⟩)
      · exact Or.inr (Or.inr ⟨rfl, by simpa using h2⟩)
    · exact Or.inr (Or.inl h)

/-- mkConflictError reports the two actions in deterministic order: the pair
is sorted by conflict_keyfunc, and the reported actions are exactly the two
involved. -/
theorem mkConflictError_sorted (i j : ConflictInfo) :
    ∃ x y, mkConflictError i j = .conflictError x y ∧
      keyLE (conflict_keyfunc x.ci) (conflict_keyfunc y.ci) = true ∧
      ((x = i ∧ y = j) ∨ (x = j ∧ y = i)) := by
  rw [mkConflictError]
  by_cases h : (keyLE (conflict_keyfunc j.ci) (conflict_keyfunc i.ci)
      && !(keyLE (conflict_keyfunc i.ci) (conflict_keyfunc j.ci))) = true
  · rw [if_pos h]
    simp only [Bool.and_eq_true, Bool.not_eq_eq_eq_not, Bool.not_true] at h
    exact ⟨j, i, rfl, h.1, Or.inr ⟨rfl, rfl⟩⟩
  · rw [if_neg h]
    refine ⟨i, j, rfl, ?_, Or.inl ⟨rfl, rfl⟩⟩
    simp only [Bool.and_eq_true, not_and, Bool.not_eq_eq_eq_not, Bool.not_true,
      Bool.not_eq_false] at h
    rcases keyLE_total (conflict_keyfunc i.ci) (conflict_keyfunc j.ci) with h2 | h2
    · exact h2
    · exact h h2

/-- What the discriminator-claiming loop of prepare does: with a well-formed
claim dict it succeeds — appending the new values to the claimed keys —
exactly when the already-claimed values together with the new values are all
distinct; otherwise it raises a ConflictError naming the claiming action and
the earlier claimant (possibly the same action). -/
theorem claimDiscs_cases (a : MAction) (l : List Val) :
    ∀ discs : Dict Val MAction, (dictKeys discs).Nodup →
    ((dictKeys discs ++ l).Nodup ∧
      ∃ discs1, claimDiscs a l discs = .ok discs1 ∧
        dictKeys discs1 = dictKeys discs ++ l) ∨
    (¬ (dictKeys discs ++ l).Nodup ∧
      ∃ other : MAction,
        claimDiscs a l discs = .error (mkConflictError a.cinfo other.cinfo)) := by
  induction l with
  | nil =>
    intro discs hnd
    exact Or.inl ⟨by simpa using hnd, discs, rfl, by simp⟩
  | cons d rest ih =>
    intro discs hnd
    rw [claimDiscs]
    cases hl : dictLookup d discs with
    | some other =>
      refine Or.inr ⟨?_, other, rfl⟩
      intro hc
      have hdk : d ∈ dictKeys discs := by
        by_contra hnk
        rw [(dictLookup_none_iff discs d).mpr hnk] at hl
        cases hl
      rw [List.nodup_append] at hc
      exact hc.2.2 hdk (List.mem_cons_self d rest)
    | none =>
      have hkeys : dictKeys (dictInsert d a discs) = dictKeys discs ++ [d] :=
        dictKeys_insert_not_mem d a discs hl
      have hdk : d ∉ dictKeys discs := (dictLookup_none_iff discs d).mp hl
      have hnd1 : (dictKeys (dictInsert d a discs)).Nodup := by
        rw [hkeys]
        exact hnd.append (List.nodup_singleton d)
          (List.disjoint_singleton.mpr hdk)
      have hassoc : (dictKeys discs ++ [d]) ++ rest = dictKeys discs ++ d :: rest := by
        simp
      rcases ih (dictInsert d a discs) hnd1 with ⟨hng, discs1, hok, hk1⟩ | ⟨hng, other, herr⟩
      · left
        refine ⟨?_, discs1, hok, ?_⟩
        · rw [hkeys] at hng
          rw [← hassoc]
          exact hng
        · rw [hk1, hkeys, hassoc]
      · right
        refine ⟨?_, other, herr⟩
        rw [hkeys] at hng
        intro hc
        exact hng (by rw [hassoc]; exact hc)

/-- The concatenated stream of conflict-detection values of one prepare
pass: each action contributes its identifier followed by its
discriminators, in registration order. -/
def discStream (idOf : MAction → Val) (dsOf : MAction → List Val) :
    List (MAction × Target) → List Val
  | [] => []
  | p :: rest => (idOf p.1 :: dsOf p.1) ++ discStream idOf dsOf rest

/-- The per-action prepare loop succeeds — building the identifier map by
insertion in registration order — exactly when the claimed values plus the
whole discriminator stream are distinct; otherwise it raises a ConflictError
naming two (not necessarily different) claiming actions. The hypotheses fix
the value each action's identifier and discriminators callbacks return. -/
theorem prepareActions_cases (ct : ClassTab) (cfg : Config)
    (idOf : MAction → Val) (dsOf : MAction → List Val) :
    ∀ (acts : List (MAction × Target)),
    (∀ p ∈ acts, ∃ kw, get_config_kw ct cfg p.1.cls = .ok kw) →
    (∀ p ∈ acts, ∀ kw, p.1.identifier kw = .ok (idOf p.1)) →
    (∀ p ∈ acts, ∀ kw, p.1.discriminators kw = .ok (dsOf p.1)) →
    ∀ (discs : Dict Val MAction) (amap : Dict Val (MAction × Target)),
    (dictKeys discs).Nodup →
    ((dictKeys discs ++ discStream idOf dsOf acts).Nodup ∧
      ∃ amap1, prepareActions ct cfg acts discs amap = .ok amap1 ∧
        amap1 = acts.foldl (fun m p => dictInsert (idOf p.1) (p.1, p.2) m) amap) ∨
    (¬ (dictKeys discs ++ discStream idOf dsOf acts).Nodup ∧
      ∃ a other : MAction, prepareActions ct cfg acts discs amap =
        .error (mkConflictError (MAction.cinfo a) (MAction.cinfo other))) := by
  intro acts
  induction acts with
  | nil =>
    intro hcfg hid hds discs amap hnd
    exact Or.inl ⟨by simpa [discStream] using hnd, amap, rfl, rfl⟩
  | cons p rest ih =>
    intro hcfg hid hds discs amap hnd
    obtain ⟨a, obj⟩ := p
    obtain ⟨kw, hkw0⟩ := hcfg (a, obj) (List.mem_cons_self _ _)
    have hkw : get_config_kw ct cfg a.cls = .ok kw := hkw0
    have hid1 : a.identifier kw = .ok (idOf a) :=
      hid (a, obj) (List.mem_cons_self _ _) kw
    have hds1 : a.discriminators kw = .ok (dsOf a) :=
      hds (a, obj) (List.mem_cons_self _ _) kw
    have hassoc : (dictKeys discs ++ (idOf a :: dsOf a)) ++
        discStream idOf dsOf rest =
        dictKeys discs ++ discStream idOf dsOf ((a, obj) :: rest) := by
      rw [discStream, List.append_assoc]
    rcases claimDiscs_cases a (idOf a :: dsOf a) discs hnd with
      ⟨hng, discs1, hok, hk1⟩ | ⟨hng, other, herr⟩
    · simp only [prepareActions, hkw, hid1, hds1, hok]
      have hnd1 : (dictKeys discs1).Nodup := by rw [hk1]; exact hng
      rcases ih (fun q hq => hcfg q (List.mem_cons_of_mem _ hq))
          (fun q hq => hid q (List.mem_cons_of_mem _ hq))
          (fun q hq => hds q (List.mem_cons_of_mem _ hq))
          discs1 (dictInsert (idOf a) (a, obj) amap) hnd1 with
        ⟨hng2, amap1, hok2, hfold⟩ | ⟨hng2, b, c, herr2⟩
      · left
        refine ⟨?_, amap1, hok2, by rw [hfold]; rfl⟩
        rw [← hassoc, ← hk1]
        exact hng2
      · right
        refine ⟨?_, b, c, herr2⟩
        rw [← hassoc, ← hk1]
        exact hng2
    · simp only [prepareActions, hkw, hid1, hds1, herr]
      right
      refine ⟨?_, a, other, rfl⟩
      intro hc
      apply hng
      rw [← hassoc] at hc
      exact hc.sublist (List.sublist_append_left _ _)

theorem discStream_append (idOf : MAction → Val) (dsOf : MAction → List Val)
    (l1 l2 : List (MAction × Target)) :
    discStream idOf dsOf (l1 ++ l2) =
      discStream idOf dsOf l1 ++ discStream idOf dsOf l2 := by
  induction l1 with
  | nil => simp [discStream]
  | cons p rest ih =>
    rw [List.cons_append, discStream, discStream, ih, List.append_assoc]

/-- C2 (amended): during one prepare pass of an ActionGroup on a single
configurable, a ConflictError is raised exactly when some discriminator
value of an action (its identifier included) was already claimed earlier in
that same pass — by a different action or by the same action, since the
source checks the claim table against None rather than against the current
action, so an action whose discriminators repeat its own identifier (or one
another) conflicts with itself. In particular, two actions with identical
identifiers registered on the same configurable always conflict regardless
of registration order, and the ConflictError names the claiming actions
sorted deterministically by origin. -/
theorem C2_prepare_conflict (ct : ClassTab) (cfg : Config) (g : ActionGroup)
    (idOf : MAction → Val) (dsOf : MAction → List Val)
    (hcfg : ∀ p ∈ g.actions, ∃ kw, get_config_kw ct cfg p.1.cls = .ok kw)
    (hid : ∀ p ∈ g.actions, ∀ kw, p.1.identifier kw = .ok (idOf p.1))
    (hds : ∀ p ∈ g.actions, ∀ kw, p.1.discriminators kw = .ok (dsOf p.1)) :
    ((∃ e, g.prepare ct cfg = .error e) ↔
      ¬ (discStream idOf dsOf g.actions).Nodup)
    ∧ (∀ l1 p l2 q l3, g.actions = l1 ++ p :: l2 ++ q :: l3 →
        idOf p.1 = idOf q.1 → ∃ e, g.prepare ct cfg = .error e)
    ∧ (∀ e, g.prepare ct cfg = .error e →
        ∃ x y : ConflictInfo, e = .conflictError x y ∧
          keyLE (conflict_keyfunc x.ci) (conflict_keyfunc y.ci) = true) := by
  have hmain := prepareActions_cases ct cfg idOf dsOf g.actions hcfg hid hds [] []
    (by simp [dictKeys])
  have hstream : dictKeys ([] : Dict Val MAction) ++
      discStream idOf dsOf g.actions = discStream idOf dsOf g.actions := by
    simp [dictKeys]
  rw [hstream] at hmain
  have hfirst : (∃ e, g.prepare ct cfg = .error e) ↔
      ¬ (discStream idOf dsOf g.actions).Nodup := by
    rcases hmain with ⟨hnd, amap1, hok, _⟩ | ⟨hnd, a, other, herr⟩
    · constructor
      · rintro ⟨e, he⟩
        rw [ActionGroup.prepare, hok] at he
        cases he
      · intro hc
        exact absurd hnd hc
    · constructor
      · intro _
        exact hnd
      · intro _
        exact ⟨_, by rw [ActionGroup.prepare, herr]⟩
  refine ⟨hfirst, ?_, ?_⟩
  · intro l1 p l2 q l3 hsplit heq
    apply hfirst.mpr
    intro hnodup
    have hcount := List.nodup_iff_count_le_one.mp hnodup (idOf p.1)
    rw [hsplit] at hcount
    simp only [discStream_append, discStream, List.count_append] at hcount
    rw [← heq] at hcount
    rw [List.count_cons_self, List.count_cons_self] at hcount
    omega
  · intro e he
    rcases hmain with ⟨hnd, amap1, hok, _⟩ | ⟨hnd, a, other, herr⟩
    · rw [ActionGroup.prepare, hok] at he
      cases he
    · rw [ActionGroup.prepare, herr] at he
      cases he
      obtain ⟨x, y, hxy, hsorted, _⟩ :=
        mkConflictError_sorted (MAction.cinfo a) (MAction.cinfo other)
      exact ⟨x, y, hxy, hsorted⟩

/-- A concrete action with constant identifier and discriminators, used to
instantiate the prepare theorems on concrete inputs. -/
def mkAction (cls tag : Nat) (ci : Option CodeInfo) (ident : Val)
    (discs : List Val) : MAction where
  cls := cls
  tag := tag
  directive := ci
  order := none
  identifier := fun _ => .ok ident
  discriminators := fun _ => .ok discs
  perform := fun _ kw => .ok kw
  attrs := []
  filter_name := []
  filter_get_value := some (fun _ => none)
  filter_compare := fun _ => none

/-- A trivial class table: every class is an Action subclass with no
group_class, no config, no depends and no own declarations. -/
def ct0 : ClassTab := fun _ =>
  ⟨true, none, [], [], false, false, false, id, id⟩

/-- C2 counterexample: a single registered action whose discriminators()
repeats its own identifier raises a ConflictError naming the action twice —
the source compares the claim table entry against None, not against the
current action, so an action does conflict with itself. -/
theorem C2_counterexample :
    ActionGroup.prepare ct0 []
        ⟨0, [(mkAction 0 7 (some ⟨"a.py", 3, "@foo(1)"⟩) (.nat 1) [.nat 1], 0)], []⟩ =
      .error (.conflictError ⟨7, some ⟨"a.py", 3, "@foo(1)"⟩⟩
        ⟨7, some ⟨"a.py", 3, "@foo(1)"⟩⟩) := by
  rfl

/-- Concrete two-action group for the C2 witness: both actions declare
identifier 5, registered from distinct code locations. -/
def c2Group : ActionGroup :=
  ⟨0, [(mkAction 0 1 (some ⟨"a.py", 3, "@foo(5)"⟩) (.nat 5) [], 10),
       (mkAction 0 2 (some ⟨"b.py", 4, "@foo(5)"⟩) (.nat 5) [], 11)], []⟩

/-- The constant identifier function of the C2 witness actions. -/
def c2IdOf : MAction → Val := fun _ => .nat 5

/-- The constant discriminators function of the C2 witness actions. -/
def c2DsOf : MAction → List Val := fun _ => []

/-- Witness instantiating C2_prepare_conflict on two concrete same-identifier
actions. -/
theorem C2_prepare_conflict_witness :
    ((∃ e, c2Group.prepare ct0 [] = .error e) ↔
      ¬ (discStream c2IdOf c2DsOf c2Group.actions).Nodup)
    ∧ (∀ l1 p l2 q l3, c2Group.actions = l1 ++ p :: l2 ++ q :: l3 →
        c2IdOf p.1 = c2IdOf q.1 → ∃ e, c2Group.prepare ct0 [] = .error e)
    ∧ (∀ e, c2Group.prepare ct0 [] = .error e →
        ∃ x y : ConflictInfo, e = .conflictError x y ∧
          keyLE (conflict_keyfunc x.ci) (conflict_keyfunc y.ci) = true) :=
  C2_prepare_conflict ct0 [] c2Group c2IdOf c2DsOf
    (fun p hp => ⟨[], rfl⟩)
    (fun p hp kw => by fin_cases hp <;> rfl)
    (fun p hp kw => by fin_cases hp <;> rfl)

theorem dictLookup_some_mem_keys [DecidableEq κ] (d : Dict κ ν) (k : κ) (v : ν)
    (h : dictLookup k d = some v) : k ∈ dictKeys d := by
  by_contra hc
  rw [(dictLookup_none_iff d k).mpr hc] at h
  cases h

theorem dictKeys_insert_mem [DecidableEq κ] (k : κ) (v w : ν) (d : Dict κ ν)
    (h : dictLookup k d = some w) :
    dictKeys (dictInsert k v d) = dictKeys d := by
  induction d with
  | nil => cases h
  | cons kv rest ih =>
    obtain ⟨k1, v1⟩ := kv
    by_cases hk : k1 = k
    · subst hk
      simp [dictInsert, dictKeys]
    · simp only [dictLookup, hk, if_false] at h
      have h2 := ih h
      simp only [dictKeys] at h2
      simp [dictInsert, hk, dictKeys, h2]

theorem dictKeys_insert_nodup [DecidableEq κ] (k : κ) (v : ν) (d : Dict κ ν)
    (h : (dictKeys d).Nodup) : (dictKeys (dictInsert k v d)).Nodup := by
  cases hl : dictLookup k d with
  | some w => rw [dictKeys_insert_mem k v w d hl]; exact h
  | none =>
    rw [dictKeys_insert_not_mem k v d hl]
    exact h.append (List.nodup_singleton k)
      (List.disjoint_singleton.mpr ((dictLookup_none_iff d k).mp hl))

theorem dictKeys_update_nodup [DecidableEq κ] (base overlay : Dict κ ν)
    (h : (dictKeys base).Nodup) : (dictKeys (dictUpdate base overlay)).Nodup := by
  induction overlay generalizing base with
  | nil => exact h
  | cons kv rest ih =>
    exact ih (dictInsert kv.1 kv.2 base) (dictKeys_insert_nodup kv.1 kv.2 base h)

theorem dictValues_insert_subset [DecidableEq κ] (k : κ) (v x : ν) (d : Dict κ ν)
    (h : x ∈ dictValues (dictInsert k v d)) : x = v ∨ x ∈ dictValues d := by
  induction d with
  | nil => exact Or.inl (by simpa [dictInsert, dictValues] using h)
  | cons kv rest ih =>
    obtain ⟨k1, v1⟩ := kv
    by_cases hk : k1 = k
    · subst hk
      have h2 : x = v ∨ x ∈ dictValues rest := by
        simpa [dictInsert, dictValues] using h
      rcases h2 with h1 | h1
      · exact Or.inl h1
      · refine Or.inr ?_
        have h3 : x ∈ v1 :: dictValues rest := List.mem_cons_of_mem v1 h1
        simpa [dictValues] using h3
    · simp only [dictInsert, hk, if_false, dictValues, List.map_cons,
        List.mem_cons] at h
      rcases h with h1 | h1
      · refine Or.inr ?_
        simp only [dictValues, List.map_cons, List.mem_cons]
        exact Or.inl h1
      · rcases ih (by simpa [dictValues] using h1) with h2 | h2
        · exact Or.inl h2
        · refine Or.inr ?_
          simp only [dictValues, List.map_cons, List.mem_cons]
          exact Or.inr (by simpa [dictValues] using h2)

/-- Values and lookups of a well-formed dict correspond. -/
theorem dictValues_lookup [DecidableEq κ] (d : Dict κ ν)
    (h : (dictKeys d).Nodup) (v : ν) :
    v ∈ dictValues d ↔ ∃ k, dictLookup k d = some v := by
  induction d with
  | nil => simp [dictValues, dictLookup]
  | cons kv rest ih =>
    obtain ⟨k1, v1⟩ := kv
    simp only [dictKeys, List.map_cons, List.nodup_cons] at h
    have hk1 : k1 ∉ dictKeys rest := by simpa [dictKeys] using h.1
    have hnd : (dictKeys rest).Nodup := by simpa [dictKeys] using h.2
    constructor
    · intro hv
      have hv2 : v = v1 ∨ v ∈ dictValues rest := by
        simpa [dictValues] using hv
      rcases hv2 with h1 | h1
      · refine ⟨k1, ?_⟩
        simp [dictLookup, h1]
      · obtain ⟨k, hk⟩ := (ih hnd).mp h1
        have hne : ¬ k1 = k := by
          intro he
          exact hk1 (he ▸ dictLookup_some_mem_keys rest k v hk)
        refine ⟨k, ?_⟩
        simp [dictLookup, hne, hk]
    · rintro ⟨k, hk⟩
      by_cases hne : k1 = k
      · subst hne
        simp only [dictLookup, if_pos rfl] at hk
        cases hk
        simp [dictValues]
      · simp only [dictLookup, hne, if_false] at hk
        have hv := (ih hnd).mpr ⟨k, hk⟩
        refine List.mem_of_mem_tail ?_
        simpa [dictValues] using hv

/-- Looking an identifier up through a list of parent maps in extends order:
the first parent that has it answers. -/
def lookupChain (id : Val) :
    List (Dict Val (MAction × Target)) → Option (MAction × Target)
  | [] => none
  | m :: rest => (dictLookup id m).or (lookupChain id rest)

theorem lookupChain_some (id : Val)
    (ps : List (Dict Val (MAction × Target))) (x : MAction × Target)
    (h : lookupChain id ps = some x) :
    ∃ P ∈ ps, dictLookup id P = some x := by
  induction ps with
  | nil => cases h
  | cons P rest ih =>
    rw [lookupChain] at h
    cases hP : dictLookup id P with
    | some y =>
      rw [hP] at h
      cases h
      exact ⟨P, List.mem_cons_self _ _, hP⟩
    | none =>
      rw [hP, Option.none_or] at h
      obtain ⟨Q, hQ, hx⟩ := ih h
      exact ⟨Q, List.mem_cons_of_mem _ hQ, hx⟩

/-- The identifier-to-(action, target) map the local pass of prepare builds
for a group's own actions. -/
def ownMapOf (idOf : MAction → Val) (acts : List (MAction × Target)) :
    Dict Val (MAction × Target) :=
  acts.foldl (fun m p => dictInsert (idOf p.1) (p.1, p.2) m) []

theorem foldInsert_keys_nodup (idOf : MAction → Val)
    (acts : List (MAction × Target)) :
    ∀ m : Dict Val (MAction × Target), (dictKeys m).Nodup →
    (dictKeys (acts.foldl (fun m p => dictInsert (idOf p.1) (p.1, p.2) m) m)).Nodup := by
  induction acts with
  | nil => intro m hm; exact hm
  | cons p rest ih =>
    intro m hm
    exact ih _ (dictKeys_insert_nodup _ _ _ hm)

theorem ownMapOf_keys_nodup (idOf : MAction → Val)
    (acts : List (MAction × Target)) :
    (dictKeys (ownMapOf idOf acts)).Nodup :=
  foldInsert_keys_nodup idOf acts [] (by simp [dictKeys])

theorem foldInsert_values_mem (idOf : MAction → Val)
    (acts : List (MAction × Target)) (x : MAction × Target) :
    ∀ m : Dict Val (MAction × Target),
    x ∈ dictValues (acts.foldl (fun m p => dictInsert (idOf p.1) (p.1, p.2) m) m) →
    x ∈ dictValues m ∨ ∃ p ∈ acts, x = (p.1, p.2) := by
  induction acts with
  | nil => intro m hm; exact Or.inl hm
  | cons p rest ih =>
    intro m hm
    rcases ih _ hm with h1 | ⟨q, hq, hx⟩
    · rcases dictValues_insert_subset _ _ _ _ h1 with h2 | h2
      · exact Or.inr ⟨p, List.mem_cons_self _ _, h2⟩
      · exact Or.inl h2
    · exact Or.inr ⟨q, List.mem_cons_of_mem _ hq, hx⟩

theorem ownMapOf_values_mem (idOf : MAction → Val)
    (acts : List (MAction × Target)) (x : MAction × Target)
    (hx : x ∈ dictValues (ownMapOf idOf acts)) : ∃ p ∈ acts, x = (p.1, p.2) := by
  rcases foldInsert_values_mem idOf acts x [] hx with h | h
  · simp [dictValues] at h
  · exact h

/-- Combining with every parent in listed extends order resolves each
identifier child-first, then through the parents in order. -/
theorem lookup_combineAll (parents : List (Dict Val (MAction × Target)))
    (hpar : ∀ P ∈ parents, (dictKeys P).Nodup) :
    ∀ m : Dict Val (MAction × Target), (dictKeys m).Nodup →
    (∀ id, dictLookup id (parents.foldl ActionGroup.combine m) =
      (dictLookup id m).or (lookupChain id parents))
    ∧ (dictKeys (parents.foldl ActionGroup.combine m)).Nodup := by
  induction parents with
  | nil =>
    intro m hm
    exact ⟨fun id => by simp [lookupChain], hm⟩
  | cons P rest ih =>
    intro m hm
    have hP : (dictKeys P).Nodup := hpar P (List.mem_cons_self _ _)
    have hm1 : (dictKeys (ActionGroup.combine m P)).Nodup :=
      dictKeys_update_nodup P m hP
    obtain ⟨hlook, hnd⟩ := ih (fun Q hQ => hpar Q (List.mem_cons_of_mem _ hQ))
      (ActionGroup.combine m P) hm1
    refine ⟨fun id => ?_, hnd⟩
    have hstep : (P :: rest).foldl ActionGroup.combine m =
        rest.foldl ActionGroup.combine (ActionGroup.combine m P) := rfl
    rw [hstep, hlook id]
    have hcomb : ActionGroup.combine m P = dictUpdate P m := rfl
    rw [hcomb, dictLookup_update P m id hm, lookupChain, Option.or_assoc]

theorem insertSorted_perm (key : β → Nat) (x : β) (l : List β) :
    (insertSorted key x l).Perm (x :: l) := by
  induction l with
  | nil => exact List.Perm.refl _
  | cons y rest ih =>
    rw [insertSorted]
    by_cases h : key y ≤ key x
    · rw [if_pos h]
      exact (List.Perm.cons y ih).trans (List.Perm.swap x y rest)
    · rw [if_neg h]

theorem sortByKey_perm (key : β → Nat) (l : List β) :
    (sortByKey key l).Perm l := by
  induction l with
  | nil => exact List.Perm.refl _
  | cons x rest ih =>
    exact (insertSorted_perm key x (sortByKey key rest)).trans
      (List.Perm.cons x ih)

/-- Membership in get_actions is membership in the action map's values. -/
theorem get_actions_mem (amap : Dict Val (MAction × Target))
    (q : MAction × Target) : q ∈ get_actions amap ↔ q ∈ dictValues amap :=
  (sortByKey_perm _ (dictValues amap)).mem_iff

/-- On a conflict-free pass, prepare succeeds and the resolved map answers
every identifier with this group's own entry first, then the parents' in
listed extends order. -/
theorem prepare_ok_resolved (ct : ClassTab) (cfg : Config) (g : ActionGroup)
    (idOf : MAction → Val) (dsOf : MAction → List Val)
    (hcfg : ∀ p ∈ g.actions, ∃ kw, get_config_kw ct cfg p.1.cls = .ok kw)
    (hid : ∀ p ∈ g.actions, ∀ kw, p.1.identifier kw = .ok (idOf p.1))
    (hds : ∀ p ∈ g.actions, ∀ kw, p.1.discriminators kw = .ok (dsOf p.1))
    (hnodup : (discStream idOf dsOf g.actions).Nodup)
    (hpar : ∀ P ∈ g.extendsMaps, (dictKeys P).Nodup) :
    ∃ F, g.prepare ct cfg = .ok F ∧ (dictKeys F).Nodup ∧
      ∀ id, dictLookup id F =
        (dictLookup id (ownMapOf idOf g.actions)).or
          (lookupChain id g.extendsMaps) := by
  rcases prepareActions_cases ct cfg idOf dsOf g.actions hcfg hid hds [] []
      (by simp [dictKeys]) with ⟨hnd, amap1, hok, hfold⟩ | ⟨hnd, a, b, herr⟩
  · have hown : amap1 = ownMapOf idOf g.actions := hfold
    subst hown
    obtain ⟨hlook, hndF⟩ := lookup_combineAll g.extendsMaps hpar
      (ownMapOf idOf g.actions) (ownMapOf_keys_nodup idOf g.actions)
    refine ⟨_, ?_, hndF, hlook⟩
    rw [ActionGroup.prepare, hok]
  · exact absurd (by simpa [dictKeys] using hnodup) hnd

/-- C1: for a configurable B extending parents A..., after the parents are
resolved, B's ActionGroup.prepare combines each parent group in listed
extends order by overlaying B's own identifier-to-(action, target) map on
top of the parents' resolved maps: every identifier resolves child-first and
then through the parents in order; when B and a parent both hold an entry
under the same identifier no ConflictError is raised for that pair, B's
entry is the resolved one and B's action is among the actions the group
performs while the parent's action is not performed (provided every
identifier under which the parent action is stored is overridden by B and B
did not register that very action); and the merge is transitive through the
whole extension chain: a group extending the combined map resolves
child-first, then B, then B's parents. -/
theorem C1_extends_override (ct : ClassTab) (cfg : Config) (gB : ActionGroup)
    (idOf : MAction → Val) (dsOf : MAction → List Val)
    (hcfg : ∀ p ∈ gB.actions, ∃ kw, get_config_kw ct cfg p.1.cls = .ok kw)
    (hid : ∀ p ∈ gB.actions, ∀ kw, p.1.identifier kw = .ok (idOf p.1))
    (hds : ∀ p ∈ gB.actions, ∀ kw, p.1.discriminators kw = .ok (dsOf p.1))
    (hnodup : (discStream idOf dsOf gB.actions).Nodup)
    (hpar : ∀ P ∈ gB.extendsMaps, (dictKeys P).Nodup) :
    ∃ F, gB.prepare ct cfg = .ok F ∧
      (∀ id, dictLookup id F =
        (dictLookup id (ownMapOf idOf gB.actions)).or
          (lookupChain id gB.extendsMaps)) ∧
      (∀ id b, dictLookup id (ownMapOf idOf gB.actions) = some b →
        dictLookup id F = some b ∧ b ∈ get_actions F) ∧
      (∀ aTag : Nat, (∀ p ∈ gB.actions, p.1.tag ≠ aTag) →
        (∀ P ∈ gB.extendsMaps, ∀ k x, dictLookup k P = some x →
          x.1.tag = aTag → dictLookup k (ownMapOf idOf gB.actions) ≠ none) →
        ∀ q ∈ get_actions F, q.1.tag ≠ aTag) ∧
      (∀ (gC : ActionGroup) (idOfC : MAction → Val) (dsOfC : MAction → List Val),
        gC.extendsMaps = [F] →
        (∀ p ∈ gC.actions, ∃ kw, get_config_kw ct cfg p.1.cls = .ok kw) →
        (∀ p ∈ gC.actions, ∀ kw, p.1.identifier kw = .ok (idOfC p.1)) →
        (∀ p ∈ gC.actions, ∀ kw, p.1.discriminators kw = .ok (dsOfC p.1)) →
        (discStream idOfC dsOfC gC.actions).Nodup →
        ∃ F2, gC.prepare ct cfg = .ok F2 ∧
          ∀ id, dictLookup id F2 =
            (dictLookup id (ownMapOf idOfC gC.actions)).or
              ((dictLookup id (ownMapOf idOf gB.actions)).or
                (lookupChain id gB.extendsMaps))) := by
  obtain ⟨F, hprep, hndF, hlook⟩ :=
    prepare_ok_resolved ct cfg gB idOf dsOf hcfg hid hds hnodup hpar
  refine ⟨F, hprep, hlook, ?_, ?_, ?_⟩
  · intro id b hb
    have h1 : dictLookup id F = some b := by
      rw [hlook id, hb]
      rfl
    exact ⟨h1, (get_actions_mem F b).mpr
      ((dictValues_lookup F hndF b).mpr ⟨id, h1⟩)⟩
  · intro aTag hown hcov q hq htag
    have hqv : q ∈ dictValues F := (get_actions_mem F q).mp hq
    obtain ⟨k, hk⟩ := (dictValues_lookup F hndF q).mp hqv
    rw [hlook k] at hk
    cases hko : dictLookup k (ownMapOf idOf gB.actions) with
    | some w =>
      rw [hko] at hk
      have hk2 : some w = some q := hk
      have hw : w = q := by injection hk2
      have hqv2 : q ∈ dictValues (ownMapOf idOf gB.actions) :=
        (dictValues_lookup _ (ownMapOf_keys_nodup idOf gB.actions) q).mpr
          ⟨k, by rw [hko, hw]⟩
      obtain ⟨p, hp, hpq⟩ := ownMapOf_values_mem idOf gB.actions q hqv2
      refine hown p hp ?_
      have hq1 : p.1.tag = q.1.tag := by rw [hpq]
      rw [hq1]
      exact htag
    | none =>
      rw [hko, Option.none_or] at hk
      obtain ⟨P, hP, hPk⟩ := lookupChain_some k gB.extendsMaps q hk
      exact (hcov P hP k q hPk htag) hko
  · intro gC idOfC dsOfC hext hcfgC hidC hdsC hnodupC
    have hparC : ∀ P ∈ gC.extendsMaps, (dictKeys P).Nodup := by
      rw [hext]
      intro P hP
      rw [List.mem_singleton.mp hP]
      exact hndF
    obtain ⟨F2, hprep2, hnd2, hlook2⟩ :=
      prepare_ok_resolved ct cfg gC idOfC dsOfC hcfgC hidC hdsC hnodupC hparC
    refine ⟨F2, hprep2, fun id => ?_⟩
    rw [hlook2 id, hext]
    simp only [lookupChain, Option.or_none]
    rw [hlook id]

/-- The parent (base app) resolved map of the C1 witness: one action with
identifier 5, tag 1, target 100. -/
def c1ParentMap : Dict Val (MAction × Target) :=
  [(.nat 5, (mkAction 0 1 (some ⟨"base.py", 5, "@foo(5)"⟩) (.nat 5) [], 100))]

/-- The child (extending app) group of the C1 witness: one action with the
same identifier 5, tag 2, target 200, extending the parent map. -/
def c1Group : ActionGroup :=
  ⟨0, [(mkAction 0 2 (some ⟨"sub.py", 7, "@foo(5)"⟩) (.nat 5) [], 200)],
    [c1ParentMap]⟩

/-- The constant identifier function of the C1 witness actions. -/
def c1IdOf : MAction → Val := fun _ => .nat 5

/-- The constant discriminators function of the C1 witness actions. -/
def c1DsOf : MAction → List Val := fun _ => []

/-- Witness instantiating C1_extends_override on a concrete base/extending
pair sharing identifier 5. -/
theorem C1_extends_override_witness :
    ∃ F, c1Group.prepare ct0 [] = .ok F ∧
      (∀ id, dictLookup id F =
        (dictLookup id (ownMapOf c1IdOf c1Group.actions)).or
          (lookupChain id c1Group.extendsMaps)) ∧
      (∀ id b, dictLookup id (ownMapOf c1IdOf c1Group.actions) = some b →
        dictLookup id F = some b ∧ b ∈ get_actions F) ∧
      (∀ aTag : Nat, (∀ p ∈ c1Group.actions, p.1.tag ≠ aTag) →
        (∀ P ∈ c1Group.extendsMaps, ∀ k x, dictLookup k P = some x →
          x.1.tag = aTag → dictLookup k (ownMapOf c1IdOf c1Group.actions) ≠ none) →
        ∀ q ∈ get_actions F, q.1.tag ≠ aTag) ∧
      (∀ (gC : ActionGroup) (idOfC : MAction → Val) (dsOfC : MAction → List Val),
        gC.extendsMaps = [F] →
        (∀ p ∈ gC.actions, ∃ kw, get_config_kw ct0 [] p.1.cls = .ok kw) →
        (∀ p ∈ gC.actions, ∀ kw, p.1.identifier kw = .ok (idOfC p.1)) →
        (∀ p ∈ gC.actions, ∀ kw, p.1.discriminators kw = .ok (dsOfC p.1)) →
        (discStream idOfC dsOfC gC.actions).Nodup →
        ∃ F2, gC.prepare ct0 [] = .ok F2 ∧
          ∀ id, dictLookup id F2 =
            (dictLookup id (ownMapOf idOfC gC.actions)).or
              ((dictLookup id (ownMapOf c1IdOf c1Group.actions)).or
                (lookupChain id c1Group.extendsMaps))) :=
  C1_extends_override ct0 [] c1Group c1IdOf c1DsOf
    (fun p hp => ⟨[], rfl⟩)
    (fun p hp kw => by fin_cases hp <;> rfl)
    (fun p hp kw => by fin_cases hp <;> rfl)
    (by decide)
    (by
      intro P hP
      rw [List.mem_singleton.mp hP]
      decide)

theorem sizeList_eq_zero (items : List (RItem × Target))
    (h : sizeList items = 0) : items = [] := by
  cases items with
  | nil => rfl
  | cons it rest =>
    obtain ⟨i, t⟩ := it
    exfalso
    have h1 : 1 ≤ RItem.size i := by
      cases i with
      | act a => exact Nat.le_refl 1
      | comp d r =>
        show 1 ≤ 1 + sizeRes r
        omega
    rw [show sizeList ((i, t) :: rest) = RItem.size i + sizeList rest from rfl] at h
    omega

/-- Stamping lemma: expanding items whose directives have just been set to d
produces only actions whose directive is d — composites nested inside are
stamped with d again on the way down. -/
theorem expand_stamped (d : Option CodeInfo) : ∀ n : Nat,
    ∀ (items : List (RItem × Target)) (c : Nat) (l : List (MAction × Target))
      (c1 : Nat), sizeList items ≤ n →
    expand_actions (items.map (fun so => (so.1.setDirective d, so.2))) c =
      .ok (l, c1) →
    ∀ q ∈ l, q.1.directive = d := by
  intro n
  induction n with
  | zero =>
    intro items c l c1 hsz hexp q hq
    rw [sizeList_eq_zero items (Nat.le_zero.mp hsz)] at hexp
    rw [show (([] : List (RItem × Target)).map
      (fun so => (so.1.setDirective d, so.2))) = [] from rfl] at hexp
    rw [expand_actions] at hexp
    cases hexp
    simp at hq
  | succ n ih =>
    intro items c l c1 hsz hexp q hq
    cases items with
    | nil =>
      rw [show (([] : List (RItem × Target)).map
        (fun so => (so.1.setDirective d, so.2))) = [] from rfl] at hexp
      rw [expand_actions] at hexp
      cases hexp
      simp at hq
    | cons it rest =>
      obtain ⟨i, t⟩ := it
      cases i with
      | act a =>
        rw [List.map_cons] at hexp
        rw [show (RItem.act a, t).1.setDirective d =
          RItem.act { a with directive := d } from rfl] at hexp
        rw [expand_actions] at hexp
        have hsz2 : sizeList rest ≤ n := by
          rw [show sizeList ((RItem.act a, t) :: rest) =
            RItem.size (RItem.act a) + sizeList rest from rfl] at hsz
          rw [show RItem.size (RItem.act a) = 1 from rfl] at hsz
          omega
        by_cases hord : ({ a with directive := d } : MAction).order = none
        · rw [if_pos hord] at hexp
          cases hrec : expand_actions
              (rest.map (fun so => (so.1.setDirective d, so.2))) (c + 1) with
          | error e => rw [hrec] at hexp; cases hexp
          | ok p =>
            obtain ⟨l2, c2v⟩ := p
            rw [hrec] at hexp
            cases hexp
            rcases List.mem_cons.mp hq with h1 | h1
            · rw [h1]
            · exact ih rest (c + 1) l2 _ hsz2 hrec q h1
        · rw [if_neg hord] at hexp
          cases hrec : expand_actions
              (rest.map (fun so => (so.1.setDirective d, so.2))) c with
          | error e => rw [hrec] at hexp; cases hexp
          | ok p =>
            obtain ⟨l2, c2v⟩ := p
            rw [hrec] at hexp
            cases hexp
            rcases List.mem_cons.mp hq with h1 | h1
            · rw [h1]
            · exact ih rest c l2 _ hsz2 hrec q h1
      | comp d0 r =>
        rw [List.map_cons] at hexp
        rw [show (RItem.comp d0 r, t).1.setDirective d =
          RItem.comp d r from rfl] at hexp
        cases r with
        | error e =>
          rw [expand_actions] at hexp
          cases hexp
        | ok subs =>
          rw [expand_actions] at hexp
          have hszs : sizeList subs ≤ n ∧ sizeList rest ≤ n := by
            rw [show sizeList ((RItem.comp d0 (.ok subs), t) :: rest) =
              (1 + sizeRes (.ok subs)) + sizeList rest from rfl] at hsz
            rw [show sizeRes (Except.ok (ε := PyExc) subs) =
              sizeList subs from rfl] at hsz
            omega
          cases hrec1 : expand_actions
              (subs.map (fun so => (so.1.setDirective d, so.2))) c with
          | error e => rw [hrec1] at hexp; cases hexp
          | ok p1 =>
            obtain ⟨l1, c1a⟩ := p1
            rw [hrec1] at hexp
            have hexp2 : (match expand_actions
                (rest.map (fun so => (so.1.setDirective d, so.2))) c1a with
              | Except.error e => Except.error e
              | Except.ok (l2, c2) => Except.ok (l1 ++ l2, c2)) =
                Except.ok (l, c1) := hexp
            cases hrec2 : expand_actions
                (rest.map (fun so => (so.1.setDirective d, so.2))) c1a with
            | error e => rw [hrec2] at hexp2; cases hexp2
            | ok p2 =>
              obtain ⟨l2, c2v⟩ := p2
              rw [hrec2] at hexp2
              cases hexp2
              rcases List.mem_append.mp hq with h1 | h1
              · exact ih subs c l1 c1a hszs.1 hrec1 q h1
              · exact ih rest c1a l2 _ hszs.2 hrec2 q h1

/-- C6 (amended): composite expansion is recursive to arbitrary nesting
depth — the sub-tree below the composite is arbitrary, including composites
that yield composites — and the composite's origin is propagated onto every
produced leaf action unconditionally, overwriting any origin the leaf
already carries (the source assigns sub_action.directive = action.directive
with no check; the original claim's "a leaf action that already carries an
origin keeps it" is refuted by C6_counterexample). -/
theorem C6_expand_origin (d : Option CodeInfo)
    (subs : List (RItem × Target)) (obj : Target) (c : Nat)
    (l : List (MAction × Target)) (c1 : Nat)
    (h : expand_actions [(RItem.comp d (.ok subs), obj)] c = .ok (l, c1)) :
    ∀ q ∈ l, q.1.directive = d := by
  rw [expand_actions] at h
  cases hrec1 : expand_actions
      (subs.map (fun so => (so.1.setDirective d, so.2))) c with
  | error e => rw [hrec1] at h; cases h
  | ok p1 =>
    obtain ⟨l1, c1a⟩ := p1
    rw [hrec1] at h
    have h2 : (match expand_actions ([] : List (RItem × Target)) c1a with
      | Except.error e => Except.error e
      | Except.ok (l2, c2) => Except.ok (l1 ++ l2, c2)) =
        Except.ok (l, c1) := h
    rw [show expand_actions ([] : List (RItem × Target)) c1a = .ok ([], c1a)
      from by rw [expand_actions]] at h2
    cases h2
    intro q hq
    exact expand_stamped d (sizeList subs) subs c l1 _ (Nat.le_refl _)
      hrec1 q (by simpa using hq)

/-- Code info of the inner leaf action of the C6 counterexample. -/
def c6LeafCi : CodeInfo := ⟨"leaf.py", 1, "inner"⟩

/-- Code info of the outer composite of the C6 counterexample. -/
def c6CompCi : CodeInfo := ⟨"comp.py", 2, "outer"⟩

/-- The leaf action of the C6 counterexample, carrying its own origin. -/
def c6Leaf : MAction := mkAction 0 3 (some c6LeafCi) (.nat 0) []

/-- C6 counterexample: a leaf action that already carries its own origin
(c6LeafCi) comes out of the expansion of a composite carrying the distinct
origin c6CompCi with the composite's origin — its own origin is overwritten,
not kept. -/
theorem C6_counterexample :
    c6Leaf.directive = some c6LeafCi ∧
    expand_actions [(RItem.comp (some c6CompCi) (.ok [(.act c6Leaf, 50)]), 60)] 0 =
      .ok ([({ c6Leaf with directive := some c6CompCi, order := some 0 }, 50)], 1) ∧
    ((some c6CompCi : Option CodeInfo) ≠ some c6LeafCi) := by
  refine ⟨rfl, ?_, by decide⟩
  simp [expand_actions, RItem.setDirective, c6Leaf, mkAction]

/-- Witness instantiating C6_expand_origin on a composite nested two levels
deep (a composite yielding a composite yielding a leaf). -/
theorem C6_expand_origin_witness :
    expand_actions
      [(RItem.comp (some c6CompCi)
          (.ok [(RItem.comp (some c6LeafCi)
            (.ok [(.act (mkAction 0 4 none (.nat 1) []), 70)]), 71)]), 72)] 0 =
      .ok ([({ mkAction 0 4 none (.nat 1) [] with
        directive := some c6CompCi, order := some 0 }, 70)], 1) ∧
    (∀ q ∈ [({ mkAction 0 4 none (.nat 1) [] with
        directive := some c6CompCi, order := some 0 }, 70)],
      (q : MAction × Target).1.directive = some c6CompCi) := by
  have h : expand_actions
      [(RItem.comp (some c6CompCi)
          (.ok [(RItem.comp (some c6LeafCi)
            (.ok [(.act (mkAction 0 4 none (.nat 1) []), 70)]), 71)]), 72)] 0 =
      .ok ([({ mkAction 0 4 none (.nat 1) [] with
        directive := some c6CompCi, order := some 0 }, 70)], 1) := by
    simp [expand_actions, RItem.setDirective, mkAction]
  exact ⟨h, C6_expand_origin (some c6CompCi) _ 72 0 _ 1 h⟩

theorem translateDirectiveErr_directive (ci : Option CodeInfo) (msg : String) :
    translateDirectiveErr ci (.directiveError msg) =
      .directiveReportError msg ci := rfl

theorem translateDirectiveErr_other (ci : Option CodeInfo) (e : PyExc)
    (h : ∀ msg, e ≠ .directiveError msg) : translateDirectiveErr ci e = e := by
  cases e with
  | directiveError msg => exact absurd rfl (h msg)
  | directiveReportError msg ci2 => rfl
  | configError msg => rfl
  | conflictError x y => rfl
  | typeError msg => rfl
  | attributeError n => rfl
  | keyError n => rfl
  | topoError => rfl
  | fuel => rfl
  | userError msg => rfl

theorem performAll_append (l1 l2 : List (MAction × Target))
    (kw : Dict String Val) (ev : List Event) :
    performAll (l1 ++ l2) kw ev =
      match performAll l1 kw ev with
      | .error e => .error e
      | .ok (kw1, ev1) => performAll l2 kw1 ev1 := by
  induction l1 generalizing kw ev with
  | nil => simp [performAll]
  | cons p rest ih =>
    obtain ⟨a, obj⟩ := p
    rw [List.cons_append, performAll, performAll]
    cases a.perform obj kw with
    | error e => rfl
    | ok kw1 => exact ih kw1 (ev ++ [.performed a.tag obj])

/-- If the local pass is conflict-free up to some action whose identifier
callback raises, prepare propagates that exception unchanged (there is no
try/except around identifier in the source). -/
theorem prepareActions_identifier_raises (ct : ClassTab) (cfg : Config)
    (idOf : MAction → Val) (dsOf : MAction → List Val) (e0 : PyExc) :
    ∀ (l1 : List (MAction × Target)),
    (∀ p ∈ l1, ∃ kw, get_config_kw ct cfg p.1.cls = .ok kw) →
    (∀ p ∈ l1, ∀ kw, p.1.identifier kw = .ok (idOf p.1)) →
    (∀ p ∈ l1, ∀ kw, p.1.discriminators kw = .ok (dsOf p.1)) →
    ∀ (discs : Dict Val MAction) (amap : Dict Val (MAction × Target)),
    (dictKeys discs).Nodup →
    (dictKeys discs ++ discStream idOf dsOf l1).Nodup →
    ∀ (a : MAction) (obj : Target) (l2 : List (MAction × Target))
      (kw : Dict String Val),
    get_config_kw ct cfg a.cls = .ok kw →
    a.identifier kw = .error e0 →
    prepareActions ct cfg (l1 ++ (a, obj) :: l2) discs amap = .error e0 := by
  intro l1
  induction l1 with
  | nil =>
    intro _ _ _ discs amap hnd hnd2 a obj l2 kw hkw hida
    rw [List.nil_append]
    simp only [prepareActions, hkw, hida]
  | cons p rest ih =>
    intro hcfg hid hds discs amap hnd hnd2 a obj l2 kw hkw hida
    obtain ⟨b, bobj⟩ := p
    obtain ⟨kwb, hkwb0⟩ := hcfg (b, bobj) (List.mem_cons_self _ _)
    have hkwb : get_config_kw ct cfg b.cls = .ok kwb := hkwb0
    have hidb : b.identifier kwb = .ok (idOf b) :=
      hid (b, bobj) (List.mem_cons_self _ _) kwb
    have hdsb : b.discriminators kwb = .ok (dsOf b) :=
      hds (b, bobj) (List.mem_cons_self _ _) kwb
    rcases claimDiscs_cases b (idOf b :: dsOf b) discs hnd with
      ⟨hng, discs1, hok, hk1⟩ | ⟨hng, other, herr⟩
    · rw [List.cons_append]
      simp only [prepareActions, hkwb, hidb, hdsb, hok]
      have hnd1 : (dictKeys discs1).Nodup := by rw [hk1]; exact hng
      refine ih (fun q hq => hcfg q (List.mem_cons_of_mem _ hq))
        (fun q hq => hid q (List.mem_cons_of_mem _ hq))
        (fun q hq => hds q (List.mem_cons_of_mem _ hq))
        discs1 _ hnd1 ?_ a obj l2 kw hkw hida
      rw [hk1, List.append_assoc]
      have hstream : (idOf b :: dsOf b) ++ discStream idOf dsOf rest =
          discStream idOf dsOf ((b, bobj) :: rest) := by
        rw [discStream]
      rw [hstream]
      exact hnd2
    · exfalso
      apply hng
      have hsub : (dictKeys discs ++ (idOf b :: dsOf b)).Sublist
          (dictKeys discs ++ discStream idOf dsOf ((b, bobj) :: rest)) := by
        refine List.Sublist.append (List.Sublist.refl _) ?_
        rw [discStream]
        exact List.sublist_append_left _ _
      exact hnd2.sublist hsub

/-- C5 (amended): a DirectiveError raised by a user perform during
ActionGroup.execute is re-raised as a DirectiveReportError carrying that
action's origin, while any non-DirectiveError exception from perform
propagates unchanged; a DirectiveError raised by Composite.actions during
expansion is likewise re-raised as a DirectiveReportError carrying the
composite's origin; but a DirectiveError raised by Action.identifier during
prepare propagates unchanged — there is no try/except in prepare, so the
original claim's translation for identifier does not happen (see
C5_counterexample). -/
theorem C5_error_translation (ct : ClassTab) (cfg : Config) :
    (∀ (g : ActionGroup) (F : Dict Val (MAction × Target))
       (kw : Dict String Val) (l1 l2 : List (MAction × Target)) (a : MAction)
       (obj : Target) (kw1 : Dict String Val) (ev1 : List Event) (e0 : PyExc),
      g.prepare ct cfg = .ok F →
      get_config_kw ct cfg g.action_class = .ok kw →
      get_actions F = l1 ++ (a, obj) :: l2 →
      performAll l1 ((ct g.action_class).before kw)
        [.beforeHook g.action_class] = .ok (kw1, ev1) →
      a.perform obj kw1 = .error e0 →
      (g.execute ct cfg = .error (translateDirectiveErr a.code_info e0) ∧
       (∀ msg, e0 = .directiveError msg →
         g.execute ct cfg = .error (.directiveReportError msg a.code_info)) ∧
       ((∀ msg, e0 ≠ .directiveError msg) → g.execute ct cfg = .error e0)))
    ∧ (∀ (d : Option CodeInfo) (e : PyExc) (obj : Target)
         (rest : List (RItem × Target)) (c : Nat),
        expand_actions ((RItem.comp d (.error e), obj) :: rest) c =
          .error (translateDirectiveErr d e))
    ∧ (∀ (g : ActionGroup) (idOf : MAction → Val) (dsOf : MAction → List Val)
         (l1 l2 : List (MAction × Target)) (a : MAction) (obj : Target)
         (kw : Dict String Val) (e0 : PyExc),
        g.actions = l1 ++ (a, obj) :: l2 →
        (∀ p ∈ l1, ∃ kw2, get_config_kw ct cfg p.1.cls = .ok kw2) →
        (∀ p ∈ l1, ∀ kw2, p.1.identifier kw2 = .ok (idOf p.1)) →
        (∀ p ∈ l1, ∀ kw2, p.1.discriminators kw2 = .ok (dsOf p.1)) →
        (discStream idOf dsOf l1).Nodup →
        get_config_kw ct cfg a.cls = .ok kw →
        a.identifier kw = .error e0 →
        g.prepare ct cfg = .error e0) := by
  refine ⟨?_, ?_, ?_⟩
  · intro g F kw l1 l2 a obj kw1 ev1 e0 hprep hkw hsplit hok1 herr
    have hperf : performAll (get_actions F) ((ct g.action_class).before kw)
        [.beforeHook g.action_class] =
        .error (translateDirectiveErr a.code_info e0) := by
      rw [hsplit, performAll_append, hok1]
      show performAll ((a, obj) :: l2) kw1 ev1 = _
      rw [performAll, herr]
    have hexec : g.execute ct cfg =
        .error (translateDirectiveErr a.code_info e0) := by
      rw [ActionGroup.execute, hprep, hkw]
      show (match performAll (get_actions F) ((ct g.action_class).before kw)
          [Event.beforeHook g.action_class] with
        | Except.error e => Except.error e
        | Except.ok (kw2, ev) =>
          Except.ok (writeBackKw cfg ((ct g.action_class).after kw2),
            ev ++ [Event.afterHook g.action_class])) =
        Except.error (translateDirectiveErr a.code_info e0)
      rw [hperf]
    refine ⟨hexec, ?_, ?_⟩
    · intro msg hmsg
      rw [hexec, hmsg]
      rfl
    · intro hne
      rw [hexec, translateDirectiveErr_other a.code_info e0 hne]
  · intro d e obj rest c
    rw [expand_actions]
  · intro g idOf dsOf l1 l2 a obj kw e0 hsplit hcfg hid hds hnodup hkw hida
    rw [ActionGroup.prepare, hsplit]
    rw [prepareActions_identifier_raises ct cfg idOf dsOf e0 l1 hcfg hid hds
      [] [] (by simp [dictKeys]) (by simpa [dictKeys] using hnodup)
      a obj l2 kw hkw hida]

/-- An action whose identifier callback raises a DirectiveError. -/
def c5IdErrAction : MAction :=
  { mkAction 0 9 (some ⟨"p.py", 4, "@foo()"⟩) (.nat 1) [] with
    identifier := fun _ => .error (.directiveError "A real problem") }

/-- C5 counterexample: a DirectiveError raised inside Action.identifier
during prepare propagates as the raw DirectiveError — it is not translated
to a DirectiveReportError (prepare has no try/except). -/
theorem C5_counterexample :
    ActionGroup.prepare ct0 [] ⟨0, [(c5IdErrAction, 5)], []⟩ =
      .error (.directiveError "A real problem") ∧
    (∀ msg ci, (PyExc.directiveError "A real problem") ≠
      .directiveReportError msg ci) := by
  refine ⟨rfl, ?_⟩
  intro msg ci h
  cases h

/-- An action whose perform raises a DirectiveError. -/
def c5PerformErrAction : MAction :=
  { mkAction 0 9 (some ⟨"p.py", 4, "@foo()"⟩) (.nat 1) [] with
    perform := fun _ _ => .error (.directiveError "A real problem") }

/-- The one-action group of the C5 witness. -/
def c5Group : ActionGroup := ⟨0, [(c5PerformErrAction, 5)], []⟩

/-- Witness instantiating C5_error_translation: a failing perform is
reported with origin, a composite whose actions() raises a DirectiveError is
reported with the composite's origin, and a failing identifier propagates
its raw exception. -/
theorem C5_error_translation_witness :
    c5Group.execute ct0 [] =
      .error (.directiveReportError "A real problem"
        (some ⟨"p.py", 4, "@foo()"⟩)) ∧
    expand_actions [(RItem.comp (some c6CompCi)
        (.error (.directiveError "bad composite")), 1)] 0 =
      .error (.directiveReportError "bad composite" (some c6CompCi)) ∧
    ActionGroup.prepare ct0 [] ⟨0, [(c5IdErrAction, 5)], []⟩ =
      .error (.directiveError "A real problem") := by
  obtain ⟨h1, h2, h3⟩ := C5_error_translation ct0 []
  refine ⟨?_, ?_, ?_⟩
  · exact (h1 c5Group [(.nat 1, (c5PerformErrAction, 5))] [] [] []
      c5PerformErrAction 5 [] [.beforeHook 0] (.directiveError "A real problem")
      rfl rfl rfl rfl rfl).2.1 "A real problem" rfl
  · exact h2 (some c6CompCi) (.directiveError "bad composite") 1 [] 0
  · exact h3 ⟨0, [(c5IdErrAction, 5)], []⟩ (fun _ => .vnone) (fun _ => [])
      [] [] c5IdErrAction 5 [] (.directiveError "A real problem") rfl
      (fun p hp => absurd hp (List.not_mem_nil p))
      (fun p hp => absurd hp (List.not_mem_nil p))
      (fun p hp => absurd hp (List.not_mem_nil p))
      (by rw [discStream]; exact List.nodup_nil) rfl rfl

theorem get_config_kw_keys (ct : ClassTab) (cfg : Config) :
    ∀ (l : List (String × Nat)) (kw : Dict String Val),
    get_config_kw.go cfg l = .ok kw → dictKeys kw = l.map Prod.fst := by
  intro l
  induction l with
  | nil =>
    intro kw h
    rw [get_config_kw.go] at h
    cases h
    rfl
  | cons nf rest ih =>
    intro kw h
    obtain ⟨name, fid⟩ := nf
    rw [get_config_kw.go] at h
    cases hl : dictLookup name cfg with
    | none => rw [hl] at h; cases h
    | some v =>
      rw [hl] at h
      cases hrec : get_config_kw.go cfg rest with
      | error e => rw [hrec] at h; cases h
      | ok kw2 =>
        rw [hrec] at h
        cases h
        have h2 := ih kw2 hrec
        simp only [dictKeys, List.map_cons] at h2 ⊢
        rw [h2]

/-- C8: during setup, validation fails with a ConfigError exactly when some
registered Action subclass either routes to a group_class that itself has a
group_class, or declares group_class together with its own config, before or
after; a valid class resolves to its group target, its actions are filed
into the target's group, and ActionGroup.execute invokes the target class's
before and after hooks with the keyword values built from the resolved
target's config names. -/
theorem C8_group_class_rules (ct : ClassTab) :
    (∀ c, ((∃ e, resolveGroupClass ct c = .error e) ↔
      (∃ gc, (ct c).group_class = some gc ∧
        ((ct gc).group_class ≠ none ∨ (ct c).ownConfig = true ∨
         (ct c).ownBefore = true ∨ (ct c).ownAfter = true))))
    ∧ (∀ c e, resolveGroupClass ct c = .error e → ∃ msg, e = .configError msg)
    ∧ (∀ (cls : List Nat) (acc : List Nat),
        ((∃ e, setupGroupSet ct cls acc = .error e) ↔
          ∃ c ∈ cls, (ct c).isAction = true ∧
            ∃ e2, resolveGroupClass ct c = .error e2))
    ∧ (∀ c gc, (ct c).group_class = some gc → (ct gc).group_class = none →
        (ct c).ownConfig = false → (ct c).ownBefore = false →
        (ct c).ownAfter = false → resolveGroupClass ct c = .ok gc)
    ∧ (∀ (a : MAction) (obj : Target) (gc : Nat)
         (groups : Dict Nat ActionGroup) (g : ActionGroup),
        (ct a.cls).group_class = some gc → dictLookup gc groups = some g →
        routeActions ct [(a, obj)] groups =
          .ok (dictInsert gc { g with actions := g.actions ++ [(a, obj)] } groups))
    ∧ (∀ (g : ActionGroup) (cfg : Config) (F : Dict Val (MAction × Target))
         (kw kw2 : Dict String Val) (ev2 : List Event),
        g.prepare ct cfg = .ok F →
        get_config_kw ct cfg g.action_class = .ok kw →
        performAll (get_actions F) ((ct g.action_class).before kw)
          [.beforeHook g.action_class] = .ok (kw2, ev2) →
        g.execute ct cfg = .ok (writeBackKw cfg ((ct g.action_class).after kw2),
          ev2 ++ [.afterHook g.action_class]))
    ∧ (∀ (cfg : Config) (c : Nat) (kw : Dict String Val),
        get_config_kw ct cfg c = .ok kw →
        dictKeys kw = ((ct ((ct c).group_class.getD c)).config).map Prod.fst) := by
  have hresolve : ∀ c, ((∃ e, resolveGroupClass ct c = .error e) ↔
      (∃ gc, (ct c).group_class = some gc ∧
        ((ct gc).group_class ≠ none ∨ (ct c).ownConfig = true ∨
         (ct c).ownBefore = true ∨ (ct c).ownAfter = true))) := by
    intro c
    cases hgc : (ct c).group_class with
    | none =>
      constructor
      · rintro ⟨e, he⟩
        simp only [resolveGroupClass, hgc] at he
        cases he
      · rintro ⟨gc, hgc2, _⟩
        simp [hgc] at hgc2
    | some gc =>
      constructor
      · rintro ⟨e, he⟩
        simp only [resolveGroupClass, hgc] at he
        refine ⟨gc, rfl, ?_⟩
        by_cases h1 : (ct gc).group_class ≠ none
        · exact Or.inl h1
        · rw [if_neg h1] at he
          by_cases h2 : (ct c).ownConfig = true
          · exact Or.inr (Or.inl h2)
          · rw [if_neg h2] at he
            by_cases h3 : (ct c).ownBefore = true
            · exact Or.inr (Or.inr (Or.inl h3))
            · rw [if_neg h3] at he
              by_cases h4 : (ct c).ownAfter = true
              · exact Or.inr (Or.inr (Or.inr h4))
              · rw [if_neg h4] at he
                cases he
      · rintro ⟨gc2, hgc2, hviol⟩
        cases hgc2
        simp only [resolveGroupClass, hgc]
        by_cases h1 : (ct gc).group_class ≠ none
        · rw [if_pos h1]
          exact ⟨_, rfl⟩
        · rw [if_neg h1]
          by_cases h2 : (ct c).ownConfig = true
          · rw [if_pos h2]
            exact ⟨_, rfl⟩
          · rw [if_neg h2]
            by_cases h3 : (ct c).ownBefore = true
            · rw [if_pos h3]
              exact ⟨_, rfl⟩
            · rw [if_neg h3]
              by_cases h4 : (ct c).ownAfter = true
              · rw [if_pos h4]
                exact ⟨_, rfl⟩
              · exfalso
                rcases hviol with hv | hv | hv | hv
                · exact h1 hv
                · exact h2 hv
                · exact h3 hv
                · exact h4 hv
  refine ⟨hresolve, ?_, ?_, ?_, ?_, ?_, ?_⟩
  · intro c e he
    cases hgc : (ct c).group_class with
    | none =>
      simp only [resolveGroupClass, hgc] at he
      cases he
    | some gc =>
      simp only [resolveGroupClass, hgc] at he
      by_cases h1 : (ct gc).group_class ≠ none
      · rw [if_pos h1] at he
        cases he
        exact ⟨_, rfl⟩
      · rw [if_neg h1] at he
        by_cases h2 : (ct c).ownConfig = true
        · rw [if_pos h2] at he
          cases he
          exact ⟨_, rfl⟩
        · rw [if_neg h2] at he
          by_cases h3 : (ct c).ownBefore = true
          · rw [if_pos h3] at he
            cases he
            exact ⟨_, rfl⟩
          · rw [if_neg h3] at he
            by_cases h4 : (ct c).ownAfter = true
            · rw [if_pos h4] at he
              cases he
              exact ⟨_, rfl⟩
            · rw [if_neg h4] at he
              cases he
  · intro cls
    induction cls with
    | nil =>
      intro acc
      constructor
      · rintro ⟨e, he⟩
        rw [setupGroupSet] at he
        cases he
      · rintro ⟨c, hc, _⟩
        simp at hc
    | cons c rest ih =>
      intro acc
      rw [setupGroupSet]
      by_cases hact : (ct c).isAction = false
      · rw [if_pos hact]
        constructor
        · intro he
          obtain ⟨c2, hc2, hv⟩ := (ih acc).mp he
          exact ⟨c2, List.mem_cons_of_mem _ hc2, hv⟩
        · rintro ⟨c2, hc2, hia, hv⟩
          rcases List.mem_cons.mp hc2 with h | h
          · rw [h] at hia
            rw [hia] at hact
            cases hact
          · exact (ih acc).mpr ⟨c2, h, hia, hv⟩
      · rw [if_neg hact]
        cases hres : resolveGroupClass ct c with
        | error e =>
          constructor
          · intro _
            refine ⟨c, List.mem_cons_self _ _, ?_, e, hres⟩
            cases h : (ct c).isAction
            · exact absurd h hact
            · rfl
          · intro _
            exact ⟨e, rfl⟩
        | ok g =>
          constructor
          · intro he
            obtain ⟨c2, hc2, hv⟩ :=
              (ih (if g ∈ acc then acc else acc ++ [g])).mp he
            exact ⟨c2, List.mem_cons_of_mem _ hc2, hv⟩
          · rintro ⟨c2, hc2, hia, e2, hv⟩
            rcases List.mem_cons.mp hc2 with h | h
            · rw [h] at hv
              rw [hv] at hres
              cases hres
            · exact (ih _).mpr ⟨c2, h, hia, e2, hv⟩
  · intro c gc hgc hgcn hoc hob hoa
    simp only [resolveGroupClass, hgc]
    rw [if_neg (by simp [hgcn]), if_neg (by simp [hoc]),
      if_neg (by simp [hob]), if_neg (by simp [hoa])]
  · intro a obj gc groups g hgc hlk
    show (match dictLookup (((ct a.cls).group_class).getD a.cls) groups with
      | none => Except.error (PyExc.keyError "action class has no group")
      | some g2 => routeActions ct []
          (dictInsert (((ct a.cls).group_class).getD a.cls)
            { g2 with actions := g2.actions ++ [(a, obj)] } groups)) = _
    rw [show ((ct a.cls).group_class).getD a.cls = gc from by rw [hgc]; rfl]
    rw [hlk]
    rfl
  · intro g cfg F kw kw2 ev2 hprep hkw hperf
    rw [ActionGroup.execute, hprep, hkw]
    show (match performAll (get_actions F) ((ct g.action_class).before kw)
        [Event.beforeHook g.action_class] with
      | Except.error e => Except.error e
      | Except.ok (kw3, ev) =>
        Except.ok (writeBackKw cfg ((ct g.action_class).after kw3),
          ev ++ [Event.afterHook g.action_class])) = _
    rw [hperf]
  · intro cfg c kw h
    exact get_config_kw_keys ct cfg _ kw h

/-- Concrete class table for exercising the group_class rules: class 1 uses
group_class 0 legally, class 2 uses group_class 0 but also declares its own
config (a rule violation), class 0 is a plain action class with one config
item. -/
def ct8 : ClassTab := fun c =>
  if c = 1 then ⟨true, some 0, [], [], false, false, false, id, id⟩
  else if c = 2 then ⟨true, some 0, [], [], true, false, false, id, id⟩
  else ⟨true, none, [("x", 0)], [], false, false, false, id, id⟩

/-- An action of the group_class-using class 1. -/
def c8act : MAction := mkAction 1 5 none Val.vnone []

/-- An empty action group for class 0. -/
def c8grp : ActionGroup := ⟨0, [], []⟩

/-- Witness for C8 at the concrete table ct8: class 2's declaration errors
(with a ConfigError), setup errors on it, class 1 resolves to its group
class 0, its actions are routed into group 0's ActionGroup, executing the
empty group runs before/after hooks around its config kw, and the kw keys
are the group class's config names. -/
theorem C8_group_class_rules_witness :
    (∃ e, resolveGroupClass ct8 2 = .error e)
    ∧ (∃ msg, (PyExc.configError
        "Cannot use config class attribute when you use group_class")
        = .configError msg)
    ∧ (∃ e, setupGroupSet ct8 [2] [] = .error e)
    ∧ resolveGroupClass ct8 1 = .ok 0
    ∧ routeActions ct8 [(c8act, 7)] [(0, c8grp)] =
        .ok [(0, { c8grp with actions := c8grp.actions ++ [(c8act, 7)] })]
    ∧ c8grp.execute ct8 [("x", Val.vnone)] =
        .ok (writeBackKw [("x", Val.vnone)]
              ((ct8 0).after [("x", Val.vnone)]),
            [Event.beforeHook 0] ++ [Event.afterHook 0])
    ∧ dictKeys ([("x", Val.vnone)] : Dict String Val) =
        ((ct8 ((ct8 1).group_class.getD 1)).config).map Prod.fst := by
  obtain ⟨h1, h2, h3, h4, h5, h6, h7⟩ := C8_group_class_rules ct8
  refine ⟨?_, ?_, ?_, ?_, ?_, ?_, ?_⟩
  · exact (h1 2).mpr ⟨0, rfl, Or.inr (Or.inl rfl)⟩
  · exact h2 2 _ rfl
  · exact (h3 [2] []).mpr ⟨2, by simp, rfl,
      ⟨.configError "Cannot use config class attribute when you use group_class",
        rfl⟩⟩
  · exact h4 1 0 rfl rfl rfl rfl rfl
  · exact h5 c8act 7 0 [(0, c8grp)] c8grp rfl rfl
  · exact h6 c8grp [("x", Val.vnone)] [] [("x", Val.vnone)]
      [("x", Val.vnone)] [Event.beforeHook 0] rfl rfl rfl
  · exact h7 [("x", Val.vnone)] 1 [("x", Val.vnone)] rfl

/-- getattr after setattr: the written name reads back the new value, other
names are unchanged. -/
theorem getattrD_insert (cfg : Config) (k : String) (v : Val) (n : String) :
    getattrD (dictInsert k v cfg) n = if n = k then v else getattrD cfg n := by
  by_cases h : n = k
  · subst h
    rw [if_pos rfl]
    unfold getattrD
    rw [dictLookup_insert_self]
    rfl
  · rw [if_neg h]
    unfold getattrD
    rw [dictLookup_insert_ne k n v cfg (Ne.symm h)]

/-- When get_factory_arguments succeeds, every factory-argument name had a
non-None value on the config object. -/
theorem get_factory_arguments_args_present (cfg : Config) :
    ∀ (args : List (String × Nat)) (vs : List Val),
    get_factory_arguments.go cfg args = .ok vs →
    ∀ p ∈ args, getattrD cfg p.1 ≠ .vnone := by
  intro args
  induction args with
  | nil =>
    intro vs h p hp
    cases hp
  | cons a rest ih =>
    intro vs h p hp
    obtain ⟨name, fid⟩ := a
    simp only [get_factory_arguments.go] at h
    by_cases hv : getattrD cfg name = .vnone
    · rw [if_pos hv] at h
      cases h
    · rw [if_neg hv] at h
      cases hrec : get_factory_arguments.go cfg rest with
      | error e =>
        rw [hrec] at h
        cases h
      | ok vs2 =>
        cases hp with
        | head => exact hv
        | tail _ hp2 => exact ih vs2 hrec p hp2

/-- Main properties of the setup_config item loop, assuming every factory
builds a non-None value: the construction log only grows, stays free of
duplicates (each name is constructed at most once), a name is non-None on
the config object exactly when it was constructed, and every newly
constructed name comes from the item list with all of its factory arguments
constructed beforehand (already present at entry, or earlier in the log). -/
theorem setup_items_props (ftab : FacTable)
    (hbuild : ∀ fid vs, (ftab fid).build vs ≠ .vnone) :
    ∀ (items : List (String × Nat)) (cfg : Config) (seen : Dict String Nat)
      (log : List String) (cfg2 : Config) (seen2 : Dict String Nat)
      (log2 : List String),
    (∀ n, getattrD cfg n ≠ .vnone ↔ n ∈ log) → log.Nodup →
    setup_config_items ftab items cfg seen log = .ok (cfg2, seen2, log2) →
    (∃ tail, log2 = log ++ tail)
    ∧ log2.Nodup
    ∧ (∀ n, getattrD cfg2 n ≠ .vnone ↔ n ∈ log2)
    ∧ (∀ n, n ∈ log2 → n ∉ log → ∃ fid, (n, fid) ∈ items ∧
        ∀ p ∈ (ftab fid).args, p.1 ∈ log ∨ ListOrd log2 p.1 n) := by
  intro items
  induction items with
  | nil =>
    intro cfg seen log cfg2 seen2 log2 hinv hnd hrun
    rw [setup_config_items] at hrun
    cases hrun
    exact ⟨⟨[], by simp⟩, hnd, hinv, fun n h1 h2 => absurd h1 h2⟩
  | cons it rest ih =>
    intro cfg seen log cfg2 seen2 log2 hinv hnd hrun
    obtain ⟨name, fid⟩ := it
    rw [setup_config_items] at hrun
    by_cases hv : getattrD cfg name = .vnone
    · rw [if_neg (not_not_intro hv)] at hrun
      cases hargs : get_factory_arguments ftab cfg fid with
      | error e =>
        rw [hargs] at hrun
        cases hrun
      | ok vs =>
        rw [hargs] at hrun
        have hrun2 : setup_config_items ftab rest
            (dictInsert name ((ftab fid).build vs) cfg)
            (dictInsert name fid seen) (log ++ [name]) =
            .ok (cfg2, seen2, log2) := hrun
        have hname_not : name ∉ log := fun hmem => ((hinv name).mpr hmem) hv
        have hinv2 : ∀ n,
            getattrD (dictInsert name ((ftab fid).build vs) cfg) n ≠ .vnone ↔
            n ∈ log ++ [name] := by
          intro n
          rw [getattrD_insert]
          by_cases hn : n = name
          · rw [if_pos hn]
            simp [hn, hbuild fid vs]
          · rw [if_neg hn]
            simpa [hn] using hinv n
        have hnd2 : (log ++ [name]).Nodup := by
          simp [List.nodup_append, hnd, hname_not]
        obtain ⟨⟨tl, htail⟩, hnodup, hinv3, hdep⟩ :=
          ih _ _ _ _ _ _ hinv2 hnd2 hrun2
        refine ⟨⟨name :: tl, by simpa using htail⟩, hnodup, hinv3, ?_⟩
        intro n hn2 hnlog
        by_cases hne : n = name
        · subst hne
          refine ⟨fid, List.mem_cons_self _ _, ?_⟩
          intro p hp
          have hargs2 : get_factory_arguments.go cfg ((ftab fid).args) =
              .ok vs := hargs
          exact Or.inl ((hinv p.1).mp
            (get_factory_arguments_args_present cfg ((ftab fid).args) vs
              hargs2 p hp))
        · have hn_not2 : n ∉ log ++ [name] := by
            simp [hnlog, hne]
          obtain ⟨fid2, hmem2, hps⟩ := hdep n hn2 hn_not2
          refine ⟨fid2, List.mem_cons_of_mem _ hmem2, ?_⟩
          intro p hp
          rcases hps p hp with hpl | hord
          · rcases List.mem_append.mp hpl with h1 | h2
            · exact Or.inl h1
            · have hpname : p.1 = name := by simpa using h2
              have hn_tl : n ∈ tl := by
                have hn2b : n ∈ (log ++ [name]) ++ tl := by
                  rw [← htail]
                  exact hn2
                rcases List.mem_append.mp hn2b with hl | ht
                · exact absurd hl hn_not2
                · exact ht
              right
              rw [htail]
              exact ListOrd.of_mem_append (by simp [hpname]) hn_not2 hn_tl
          · exact Or.inr hord
    · rw [if_pos hv] at hrun
      cases hseen : dictLookup name seen with
      | none =>
        rw [hseen] at hrun
        cases hrun
      | some fid0 =>
        rw [hseen] at hrun
        have hrun2 : (if fid0 ≠ fid then
            (Except.error (PyExc.configError
              ("Inconsistent factories for config " ++ name)) :
              Except PyExc (Config × Dict String Nat × List String))
          else setup_config_items ftab rest cfg seen log) =
            .ok (cfg2, seen2, log2) := hrun
        by_cases hf : fid0 = fid
        · rw [if_neg (not_not_intro hf)] at hrun2
          obtain ⟨hpre, hnodup, hinv3, hdep⟩ := ih _ _ _ _ _ _ hinv hnd hrun2
          exact ⟨hpre, hnodup, hinv3, fun n h1 h2 =>
            (hdep n h1 h2).imp fun fid2 hh =>
              ⟨List.mem_cons_of_mem _ hh.1, hh.2⟩⟩
        · rw [if_pos hf] at hrun2
          cases hrun2

/-- C7: during setup_config, when a name already configured (with a non-None
value) is declared again with a different factory, the loop raises the
"Inconsistent factories" ConfigError eagerly; and, provided every factory
builds a non-None value, a successful run constructs every config name at
most once per commit (the construction log never repeats a name), a name is
present on the config object exactly when it was constructed, and each
constructed name's factory arguments are constructed before it (already
present on the config at entry, or earlier in the log). -/
theorem C7_factory_consistency (ftab : FacTable) :
    (∀ (cfg : Config) (seen : Dict String Nat) (log : List String)
       (name : String) (f0 f1 : Nat) (rest : List (String × Nat)),
      getattrD cfg name ≠ .vnone → dictLookup name seen = some f0 → f0 ≠ f1 →
      setup_config_items ftab ((name, f1) :: rest) cfg seen log =
        .error (.configError ("Inconsistent factories for config " ++ name)))
    ∧ ((∀ fid vs, (ftab fid).build vs ≠ .vnone) →
      ∀ (items : List (String × Nat)) (cfg : Config) (seen : Dict String Nat)
        (log : List String) (cfg2 : Config) (seen2 : Dict String Nat)
        (log2 : List String),
      (∀ n, getattrD cfg n ≠ .vnone ↔ n ∈ log) → log.Nodup →
      setup_config_items ftab items cfg seen log = .ok (cfg2, seen2, log2) →
      (∃ tail, log2 = log ++ tail)
      ∧ log2.Nodup
      ∧ (∀ n, getattrD cfg2 n ≠ .vnone ↔ n ∈ log2)
      ∧ (∀ n, n ∈ log2 → n ∉ log → ∃ fid, (n, fid) ∈ items ∧
          ∀ p ∈ (ftab fid).args, p.1 ∈ log ∨ ListOrd log2 p.1 n)) := by
  constructor
  · intro cfg seen log name f0 f1 rest hv hseen hne
    rw [setup_config_items]
    rw [if_pos hv, hseen]
    show (if f0 ≠ f1 then
        (Except.error (PyExc.configError
          ("Inconsistent factories for config " ++ name)) :
          Except PyExc (Config × Dict String Nat × List String))
      else setup_config_items ftab rest cfg seen log) = _
    rw [if_pos hne]
  · intro hbuild items cfg seen log cfg2 seen2 log2 hinv hnd hrun
    exact setup_items_props ftab hbuild items cfg seen log cfg2 seen2 log2
      hinv hnd hrun

/-- Factory table where factory 0 builds None and factory 1 builds a string:
two different factories for use on the same config name. -/
def ftab7 : FacTable := fun fid =>
  if fid = 0 then ⟨[], fun _ => .vnone⟩ else ⟨[], fun _ => .str "v"⟩

/-- C7 counterexample: because setup_config detects an existing value with
getattr(config, name, None) compared against None, a factory that returns
None defeats the consistency check. Class A declares config name "x" with
factory 0 (which builds None); class B declares "x" with the different
factory 1. Processing A then B in one commit raises no ConfigError at all,
and "x" is constructed twice (the log repeats it). -/
theorem C7_counterexample :
    setup_config ftab7 2 [("x", 0)] [] [] [] =
      .ok ([("x", Val.vnone)], [("x", 0)], ["x"])
    ∧ setup_config ftab7 2 [("x", 1)] [("x", Val.vnone)] [("x", 0)] ["x"] =
      .ok ([("x", Val.str "v")], [("x", 1)], ["x", "x"])
    ∧ ¬ (["x", "x"] : List String).Nodup := by
  refine ⟨?_, ?_, by decide⟩
  · simp +decide [setup_config, topological_sort, visitMany, visit,
      factory_key, ftab7, setup_config_items, get_factory_arguments,
      get_factory_arguments.go, getattrD, dictLookup, dictInsert]
  · simp +decide [setup_config, topological_sort, visitMany, visit,
      factory_key, ftab7, setup_config_items, get_factory_arguments,
      get_factory_arguments.go, getattrD, dictLookup, dictInsert]

/-- Factory table with only non-None builds: factory 1 takes the config
value "a" (built by factory 0) as a factory argument. -/
def ftab7w : FacTable := fun fid =>
  if fid = 1 then ⟨[("a", 0)], fun _ => .str "b"⟩ else ⟨[], fun _ => .str "a"⟩

/-- Witness for C7: a second declaration of "x" with a different factory
(while "x" is configured non-None) errors; and a concrete successful run
constructing "a" then "x" (whose factory needs "a") has a duplicate-free
log, config presence matching the log, and "x" listed with its factory. -/
theorem C7_factory_consistency_witness :
    setup_config_items ftab7w [("x", 1)] [("x", Val.str "q")] [("x", 0)] [] =
      .error (.configError ("Inconsistent factories for config " ++ "x"))
    ∧ (∃ tail, (["a", "x"] : List String) = [] ++ tail)
    ∧ (["a", "x"] : List String).Nodup
    ∧ (getattrD [("a", Val.str "a"), ("x", Val.str "b")] "x" ≠ .vnone ↔
        "x" ∈ (["a", "x"] : List String))
    ∧ (∃ fid, ("x", fid) ∈ [("a", 0), ("x", 1)] ∧
        ∀ p ∈ (ftab7w fid).args, p.1 ∈ ([] : List String) ∨
          ListOrd ["a", "x"] p.1 "x") := by
  have h := C7_factory_consistency ftab7w
  have hbuild : ∀ fid vs, (ftab7w fid).build vs ≠ Val.vnone := by
    intro fid vs
    by_cases hf : fid = 1 <;> simp [ftab7w, hf]
  have h2 := h.2 hbuild [("a", 0), ("x", 1)] [] [] []
    [("a", Val.str "a"), ("x", Val.str "b")] [("a", 0), ("x", 1)] ["a", "x"]
    (by intro n; simp [getattrD, dictLookup]) List.nodup_nil rfl
  exact ⟨h.1 [("x", Val.str "q")] [("x", 0)] [] "x" 0 1 [] (by decide) rfl
      (by decide),
    h2.1, h2.2.1, h2.2.2.1 "x", h2.2.2.2 "x" (by simp) (by simp)⟩

/-- C9: Filter.execute yields exactly those (action, target) pairs of the
underlying query for which every filter key's resolved value passes that
key's comparison — the class-declared filter_compare function when one is
registered for the key, compare_equality otherwise; a pair whose value for
some key is unresolvable (the NOT_FOUND sentinel, modelled as none) is
excluded when that key uses the default equality comparison; the default
comparison is plain equality; and the value is resolved via the filter_name
mapping, then attribute lookup, then the filter_get_value fallback. -/
theorem C9_filter (kw : List (String × Val)) (pairs : List (MAction × Target)) :
    (∀ p, p ∈ Filter.execute kw pairs ↔ p ∈ pairs ∧
      ∀ nv ∈ kw, (match p.1.filter_compare nv.1 with
        | some f => f (get_value_for_filter p.1 nv.1) nv.2
        | none => compare_equality (get_value_for_filter p.1 nv.1) nv.2) =
        true)
    ∧ (∀ (p : MAction × Target) (nv : String × Val), nv ∈ kw →
        p.1.filter_compare nv.1 = none →
        get_value_for_filter p.1 nv.1 = none →
        p ∉ Filter.execute kw pairs)
    ∧ (∀ (compared : Option Val) (v : Val),
        compare_equality compared v = true ↔ compared = some v)
    ∧ (∀ (a : MAction) (name : String) (v : Val),
        dictLookup ((dictLookup name a.filter_name).getD name) a.attrs =
          some v →
        get_value_for_filter a name = some v)
    ∧ (∀ (a : MAction) (name : String) (f : String → Option Val),
        dictLookup ((dictLookup name a.filter_name).getD name) a.attrs =
          none →
        a.filter_get_value = some f →
        get_value_for_filter a name = f name)
    ∧ (∀ (a : MAction) (name : String),
        dictLookup ((dictLookup name a.filter_name).getD name) a.attrs =
          none →
        a.filter_get_value = none →
        get_value_for_filter a name = none) := by
  have hmem : ∀ p, p ∈ Filter.execute kw pairs ↔ p ∈ pairs ∧
      ∀ nv ∈ kw, (match p.1.filter_compare nv.1 with
        | some f => f (get_value_for_filter p.1 nv.1) nv.2
        | none => compare_equality (get_value_for_filter p.1 nv.1) nv.2) =
        true := by
    intro p
    rw [Filter.execute, List.mem_filter, List.all_eq_true]
  refine ⟨hmem, ?_, ?_, ?_, ?_, ?_⟩
  · intro p nv hnv hcmp hval hin
    have h2 := ((hmem p).mp hin).2 nv hnv
    rw [hcmp, hval] at h2
    simp [compare_equality] at h2
  · intro compared v
    simp [compare_equality]
  · intro a name v hattr
    rw [get_value_for_filter]
    rw [hattr]
  · intro a name f hattr hf
    rw [get_value_for_filter]
    rw [hattr, hf]
  · intro a name hattr hf
    rw [get_value_for_filter]
    rw [hattr, hf]

/-- An action with a custom filter_compare that accepts any compared value,
including the NOT_FOUND sentinel; its attributes are empty and its
filter_get_value fallback returns NOT_FOUND, so no filter value resolves. -/
def c9act : MAction :=
  { mkAction 3 9 none Val.vnone [] with
    filter_compare := fun _ => some (fun _ _ => true) }

/-- C9 counterexample: the value for key "k" on c9act is unresolvable
(NOT_FOUND), yet Filter.execute keeps the pair, because the class-declared
comparison function receives the sentinel and returns True — query.py does
not exclude NOT_FOUND before calling a custom compare. -/
theorem C9_counterexample :
    get_value_for_filter c9act "k" = none
    ∧ Filter.execute [("k", Val.str "z")] [(c9act, 0)] = [(c9act, 0)] := by
  exact ⟨rfl, rfl⟩

/-- An action with the default comparison (no filter_compare entries) and no
resolvable filter values. -/
def c9act2 : MAction := mkAction 3 9 none Val.vnone []

/-- Witness for C9: with the default equality comparison, the pair whose
"k" value is unresolvable is excluded from the filter result, and the
default comparison is equality on a concrete value. -/
theorem C9_filter_witness :
    (c9act2, (0 : Target)) ∉
      Filter.execute [("k", Val.str "z")] [(c9act2, 0)]
    ∧ (compare_equality (some (Val.str "z")) (Val.str "z") = true ↔
        (some (Val.str "z") : Option Val) = some (Val.str "z")) := by
  have h := C9_filter [("k", Val.str "z")] [(c9act2, 0)]
  exact ⟨h.2.1 (c9act2, 0) ("k", Val.str "z") (by simp) rfl rfl,
    h.2.2.1 (some (Val.str "z")) (Val.str "z")⟩

/-- Class table for the depends-superset scenario: class 0 is a registered
action class depending on class 2; class 2 is never registered and carries
one config item. -/
def ct10 : ClassTab := fun c =>
  if c = 0 then ⟨true, none, [], [2], false, false, false, id, id⟩
  else ⟨true, none, [("y", 0)], [], false, false, false, id, id⟩

/-- Factory table for the depends-superset scenario: every factory builds a
string, with no factory arguments. -/
def ftab10 : FacTable := fun _ => ⟨[], fun _ => .str "v"⟩

/-- C10: topological_sort emits every node reachable through get_depends
from an input node, even nodes absent from the input — so its output can be
a strict superset of the input, as on input [0] with 0 depending on 2; and
consequently a commit of a configurable whose only registered class is 0
also constructs class 2's config value, creates an ActionGroup for class 2,
and executes it (its before/after hooks run, first in dependency order). -/
theorem C10_depends_superset :
    (∀ (deps : Nat → List Nat) (fuel : Nat) (l out : List Nat) (y x : Nat),
      topological_sort fuel l deps = .ok out → y ∈ l →
      Reach deps y x → x ∈ out)
    ∧ topological_sort 4 [0] exDeps = .ok [2, 0]
    ∧ (2 ∉ ([0] : List Nat))
    ∧ Configurable.execute ct10 ftab10 4 [0] (fun _ => []) [] [] 0 =
      .ok ([("y", Val.str "v")], 0, [(2, ⟨2, [], []⟩), (0, ⟨0, [], []⟩)],
        ["y"],
        [.beforeHook 2, .afterHook 2, .beforeHook 0, .afterHook 0]) := by
  refine ⟨?_, ?_, by decide, ?_⟩
  · intro deps fuel l out y x h hy hr
    exact topological_sort_reach_closed deps fuel l out h y hy x hr
  · simp +decide [topological_sort, visitMany, visit, exDeps]
  · simp +decide [Configurable.execute, Configurable.setup, setupGroupSet,
      resolveGroupClass, sort_action_classes, topological_sort, visitMany,
      visit, delete_config, dictRemove, setupGroups, setup_config,
      setup_config_items, factory_key, get_factory_arguments,
      get_factory_arguments.go, getattrD, dictLookup, dictInsert, dictKeys,
      Configurable.group_actions, buildActions, expand_actions, routeActions,
      execGroups, ActionGroup.execute, ActionGroup.prepare, prepareActions,
      ActionGroup.combine, get_actions, sortByKey, dictValues, get_config_kw,
      get_config_kw.go, performAll, writeBackKw, ct10, ftab10]

/-- Witness for C10: node 2, reachable from input node 0 but absent from the
input [0], is in the output of the concrete sort. -/
theorem C10_depends_superset_witness : 2 ∈ ([2, 0] : List Nat) :=
  C10_depends_superset.1 exDeps 4 [0] [2, 0] 0 2
    C10_depends_superset.2.1 (by simp)
    (Relation.ReflTransGen.single (by simp [exDeps]))

/-- Factory table with a two-level factory-argument chain: the factory for
"x" needs "y", whose factory needs "z", whose factory needs nothing. -/
def ftab3 : FacTable := fun fid =>
  if fid = 0 then ⟨[("y", 1)], fun _ => .str "x"⟩
  else if fid = 1 then ⟨[("z", 2)], fun _ => .str "y"⟩
  else ⟨[], fun _ => .str "z"⟩

/-- Class table for the re-commit scenario: a single action class declaring
the one config item "x". -/
def ct3 : ClassTab := fun _ =>
  ⟨true, none, [("x", 0)], [], false, false, false, id, id⟩

/-- C3 counterexample: the first commit constructs "z", "y", "x" (the
topological sort of setup_config pulls in transitive factory arguments) and
succeeds; but delete_config removes only the class's config names and their
direct factory-argument names ("x" and "y"), so "z" survives into the second
commit, where setup_config finds it already configured while _factories_seen
is fresh — the seen[name] lookup fails (KeyError), and the second commit
errors instead of reproducing the first commit's state. -/
theorem C3_counterexample :
    Configurable.execute ct3 ftab3 9 [0] (fun _ => []) [] [] 0 =
      .ok ([("z", Val.str "z"), ("y", Val.str "y"), ("x", Val.str "x")], 0,
        [(0, ⟨0, [], []⟩)], ["z", "y", "x"],
        [.beforeHook 0, .afterHook 0])
    ∧ Configurable.execute ct3 ftab3 9 [0] (fun _ => []) []
        [("z", Val.str "z"), ("y", Val.str "y"), ("x", Val.str "x")] 0 =
      .error (.keyError "z") := by
  constructor <;>
    simp +decide [Configurable.execute, Configurable.setup, setupGroupSet,
      resolveGroupClass, sort_action_classes, topological_sort, visitMany,
      visit, delete_config, dictRemove, setupGroups, setup_config,
      setup_config_items, factory_key, get_factory_arguments,
      get_factory_arguments.go, getattrD, dictLookup, dictInsert, dictKeys,
      Configurable.group_actions, buildActions, expand_actions, routeActions,
      execGroups, ActionGroup.execute, ActionGroup.prepare, prepareActions,
      ActionGroup.combine, get_actions, sortByKey, dictValues, get_config_kw,
      get_config_kw.go, performAll, writeBackKw, ct3, ftab3]

/-- Names removed by delete_config for one class config: the config names
themselves and their factories' direct argument names. -/
def delNameB (ftab : FacTable) (cc : List (String × Nat)) (k : String) : Bool :=
  cc.any (fun nf => k = nf.1 || (ftab nf.2).args.any (fun an => k = an.1))

/-- The delete pass at the start of Configurable.setup: delete_config over
every sorted group class. -/
def deletePass (ftab : FacTable) (ct : ClassTab) (sorted : List Nat)
    (cfg : Config) : Config :=
  sorted.foldl (fun c g => delete_config ftab (ct g).config c) cfg

/-- A name deleted by the delete pass: removed by delete_config of some
class in the sorted list. -/
def delClassB (ftab : FacTable) (ct : ClassTab) (sorted : List Nat)
    (k : String) : Bool :=
  sorted.any (fun g => delNameB ftab (ct g).config k)

/-- dictRemove is a filter on keys. -/
theorem dictRemove_eq_filter [DecidableEq κ] (k : κ) (l : Dict κ ν) :
    dictRemove k l = l.filter (fun kv => !(decide (kv.1 = k))) := by
  induction l with
  | nil => rfl
  | cons kv rest ih =>
    obtain ⟨k1, v1⟩ := kv
    by_cases h : k1 = k
    · simp [dictRemove, h, List.filter, ih]
    · simp [dictRemove, h, List.filter, ih]

/-- The inner fold of delete_config (removing all argument names) is a
filter. -/
theorem foldRemove_eq_filter :
    ∀ (args : List (String × Nat)) (c : Config),
    args.foldl (fun c2 an => dictRemove an.1 c2) c =
    c.filter (fun kv => !(args.any (fun an => decide (kv.1 = an.1)))) := by
  intro args
  induction args with
  | nil =>
    intro c
    simp [List.filter_true]
  | cons a rest ih =>
    intro c
    rw [List.foldl_cons, ih (dictRemove a.1 c), dictRemove_eq_filter,
      List.filter_filter]
    congr 1
    funext kv
    simp [List.any_cons, Bool.not_or, Bool.and_comm]

/-- delete_config is a filter by delNameB. -/
theorem delete_config_eq_filter (ftab : FacTable) :
    ∀ (cc : List (String × Nat)) (cfg : Config),
    delete_config ftab cc cfg =
      cfg.filter (fun kv => !(delNameB ftab cc kv.1)) := by
  intro cc
  induction cc with
  | nil =>
    intro cfg
    simp [delete_config, delNameB, List.filter_true]
  | cons nf rest ih =>
    intro cfg
    have hstep : delete_config ftab (nf :: rest) cfg =
        delete_config ftab rest
          ((ftab nf.2).args.foldl (fun c2 an => dictRemove an.1 c2)
            (dictRemove nf.1 cfg)) := rfl
    rw [hstep, ih, foldRemove_eq_filter, dictRemove_eq_filter,
      List.filter_filter, List.filter_filter]
    congr 1
    funext kv
    simp [delNameB, List.any_cons, Bool.not_or, Bool.and_comm,
      Bool.and_assoc, Bool.and_left_comm]

/-- The delete pass is a filter by delClassB. -/
theorem deletePass_eq_filter (ftab : FacTable) (ct : ClassTab) :
    ∀ (sorted : List Nat) (cfg : Config),
    deletePass ftab ct sorted cfg =
      cfg.filter (fun kv => !(delClassB ftab ct sorted kv.1)) := by
  intro sorted
  induction sorted with
  | nil =>
    intro cfg
    simp [deletePass, delClassB, List.filter_true]
  | cons g rest ih =>
    intro cfg
    have hstep : deletePass ftab ct (g :: rest) cfg =
        deletePass ftab ct rest (delete_config ftab (ct g).config cfg) := rfl
    rw [hstep, ih, delete_config_eq_filter, List.filter_filter]
    congr 1
    funext kv
    simp [delClassB, List.any_cons, Bool.not_or, Bool.and_comm]

attribute [reducible] Dict

/-- The delete pass distributes over list append. -/
theorem deletePass_append (ftab : FacTable) (ct : ClassTab)
    (sorted : List Nat) (l1 l2 : List (String × Val)) :
    deletePass ftab ct sorted (l1 ++ l2) =
      deletePass ftab ct sorted l1 ++ deletePass ftab ct sorted l2 := by
  rw [deletePass_eq_filter, deletePass_eq_filter, deletePass_eq_filter,
    List.filter_append]

/-- The delete pass is idempotent. -/
theorem deletePass_idem (ftab : FacTable) (ct : ClassTab)
    (sorted : List Nat) (cfg : Config) :
    deletePass ftab ct sorted (deletePass ftab ct sorted cfg) =
      deletePass ftab ct sorted cfg := by
  rw [deletePass_eq_filter, deletePass_eq_filter, List.filter_filter]
  congr 1
  funext kv
  simp [Bool.and_self]

/-- The delete pass erases a config whose keys are all deleted names. -/
theorem deletePass_all_deleted (ftab : FacTable) (ct : ClassTab)
    (sorted : List Nat) (extra : List (String × Val))
    (h : ∀ kv ∈ extra, delClassB ftab ct sorted kv.1 = true) :
    deletePass ftab ct sorted extra = [] := by
  rw [deletePass_eq_filter]
  rw [List.filter_eq_nil]
  intro kv hkv
  simp [h kv hkv]

/-- A deleted name is absent from the keys of a delete-pass output. -/
theorem deletePass_key_absent (ftab : FacTable) (ct : ClassTab)
    (sorted : List Nat) (cfg : Config) (k : String)
    (h : delClassB ftab ct sorted k = true) :
    k ∉ dictKeys (deletePass ftab ct sorted cfg) := by
  rw [deletePass_eq_filter]
  intro hmem
  simp only [dictKeys, List.mem_map] at hmem
  obtain ⟨kv, hkv, hk⟩ := hmem
  rw [List.mem_filter] at hkv
  rw [hk] at hkv
  rw [h] at hkv
  simp at hkv

/-- Inserting a key absent from the first part of an append goes into the
second part. -/
theorem dictInsert_append_right [DecidableEq κ] (k : κ) (v : ν)
    (l1 l2 : List (κ × ν)) (h : k ∉ dictKeys l1) :
    dictInsert k v (l1 ++ l2) = l1 ++ dictInsert k v l2 := by
  induction l1 with
  | nil => rfl
  | cons kv rest ih =>
    obtain ⟨k1, v1⟩ := kv
    have hne : k1 ≠ k := by
      intro he
      exact h (by simp [dictKeys, he])
    have hrest : k ∉ dictKeys rest := by
      intro hmem
      exact h (by simp [dictKeys] at hmem ⊢; exact Or.inr hmem)
    simp [dictInsert, hne, ih hrest]

/-- Every entry of dictInsert is the inserted pair or an original entry. -/
theorem mem_dictInsert [DecidableEq κ] (k : κ) (v : ν) (l : List (κ × ν))
    (kv : κ × ν) (h : kv ∈ dictInsert k v l) : kv = (k, v) ∨ kv ∈ l := by
  induction l with
  | nil =>
    simp [dictInsert] at h
    exact Or.inl h
  | cons kv1 rest ih =>
    obtain ⟨k1, v1⟩ := kv1
    by_cases he : k1 = k
    · simp [dictInsert, he] at h
      rcases h with h | h
      · exact Or.inl (by simp [h])
      · exact Or.inr (List.mem_cons_of_mem _ h)
    · simp only [dictInsert, he, if_false, List.mem_cons] at h
      rcases h with h | h
      · exact Or.inr (by simp [h])
      · rcases ih h with h2 | h2
        · exact Or.inl h2
        · exact Or.inr (List.mem_cons_of_mem _ h2)

/-- The config bag is the untouched base plus appended entries whose keys
all satisfy D (the deleted-name predicate). -/
def ExtraInv (D : String → Bool) (base cfg : Config) : Prop :=
  ∃ extra, cfg = base ++ extra ∧ ∀ kv ∈ extra, D kv.1 = true

theorem ExtraInv.base_self (D : String → Bool) (base : Config) :
    ExtraInv D base base :=
  ⟨[], by simp, fun kv h => absurd h (by simp)⟩

theorem ExtraInv.insert {D : String → Bool} {base cfg : Config}
    (hbase : ∀ k, D k = true → k ∉ dictKeys base)
    (h : ExtraInv D base cfg) (k : String) (v : Val) (hD : D k = true) :
    ExtraInv D base (dictInsert k v cfg) := by
  obtain ⟨extra, rfl, hex⟩ := h
  refine ⟨dictInsert k v extra,
    dictInsert_append_right k v base extra (hbase k hD), ?_⟩
  intro kv hkv
  rcases mem_dictInsert k v extra kv hkv with h2 | h2
  · rw [h2]
    exact hD
  · exact hex kv h2

theorem ExtraInv.writeBack {D : String → Bool} {base : Config}
    (hbase : ∀ k, D k = true → k ∉ dictKeys base) :
    ∀ (kw : Dict String Val) (cfg : Config),
    (∀ p ∈ kw, D p.1 = true) → ExtraInv D base cfg →
    ExtraInv D base (writeBackKw cfg kw) := by
  intro kw
  induction kw with
  | nil =>
    intro cfg _ h
    exact h
  | cons nv rest ih =>
    intro cfg hD h
    have hstep : writeBackKw cfg (nv :: rest) =
        writeBackKw (dictInsert nv.1 nv.2 cfg) rest := rfl
    rw [hstep]
    exact ih _ (fun p hp => hD p (List.mem_cons_of_mem _ hp))
      (h.insert hbase nv.1 nv.2 (hD nv (List.mem_cons_self _ _)))

/-- The setup_config item loop only adds entries with deleted-name keys. -/
theorem setup_items_extra {D : String → Bool} {base : Config}
    (ftab : FacTable)
    (hbase : ∀ k, D k = true → k ∉ dictKeys base) :
    ∀ (items : List (String × Nat)) (cfg : Config) (seen : Dict String Nat)
      (log : List String) (cfg2 : Config) (seen2 : Dict String Nat)
      (log2 : List String),
    (∀ nf ∈ items, D nf.1 = true) → ExtraInv D base cfg →
    setup_config_items ftab items cfg seen log = .ok (cfg2, seen2, log2) →
    ExtraInv D base cfg2 := by
  intro items
  induction items with
  | nil =>
    intro cfg seen log cfg2 seen2 log2 _ hinv hrun
    rw [setup_config_items] at hrun
    cases hrun
    exact hinv
  | cons it rest ih =>
    intro cfg seen log cfg2 seen2 log2 hD hinv hrun
    obtain ⟨name, fid⟩ := it
    rw [setup_config_items] at hrun
    by_cases hv : getattrD cfg name = .vnone
    · rw [if_neg (not_not_intro hv)] at hrun
      cases hargs : get_factory_arguments ftab cfg fid with
      | error e =>
        rw [hargs] at hrun
        cases hrun
      | ok vs =>
        rw [hargs] at hrun
        have hrun2 : setup_config_items ftab rest
            (dictInsert name ((ftab fid).build vs) cfg)
            (dictInsert name fid seen) (log ++ [name]) =
            .ok (cfg2, seen2, log2) := hrun
        exact ih _ _ _ _ _ _ (fun nf h => hD nf (List.mem_cons_of_mem _ h))
          (hinv.insert hbase name _ (hD (name, fid) (List.mem_cons_self _ _)))
          hrun2
    · rw [if_pos hv] at hrun
      cases hseen : dictLookup name seen with
      | none =>
        rw [hseen] at hrun
        cases hrun
      | some fid0 =>
        rw [hseen] at hrun
        have hrun2 : (if fid0 ≠ fid then
            (Except.error (PyExc.configError
              ("Inconsistent factories for config " ++ name)) :
              Except PyExc (Config × Dict String Nat × List String))
          else setup_config_items ftab rest cfg seen log) =
            .ok (cfg2, seen2, log2) := hrun
        by_cases hf : fid0 = fid
        · rw [if_neg (not_not_intro hf)] at hrun2
          exact ih _ _ _ _ _ _ (fun nf h => hD nf (List.mem_cons_of_mem _ h))
            hinv hrun2
        · rw [if_pos hf] at hrun2
          cases hrun2

/-- An action whose perform callback never changes the set of config names
(faithful to the source, where perform mutates config objects in place and
the kw dict keys are fixed). -/
def PerformKeys (a : MAction) : Prop :=
  ∀ (obj : Target) (kw kw2 : Dict String Val),
    a.perform obj kw = .ok kw2 → dictKeys kw2 = dictKeys kw

/-- performAll preserves the config keyword names when every action does. -/
theorem performAll_keys :
    ∀ (l : List (MAction × Target)) (kw : Dict String Val) (ev : List Event)
      (kw2 : Dict String Val) (ev2 : List Event),
    (∀ p ∈ l, PerformKeys p.1) → performAll l kw ev = .ok (kw2, ev2) →
    dictKeys kw2 = dictKeys kw := by
  intro l
  induction l with
  | nil =>
    intro kw ev kw2 ev2 _ h
    rw [performAll] at h
    cases h
    rfl
  | cons p rest ih =>
    intro kw ev kw2 ev2 hk h
    obtain ⟨a, obj⟩ := p
    rw [performAll] at h
    cases hp : a.perform obj kw with
    | error e =>
      rw [hp] at h
      cases h
    | ok kw1 =>
      rw [hp] at h
      have h2 := ih kw1 _ kw2 ev2 (fun q hq => hk q (List.mem_cons_of_mem _ hq)) h
      rw [h2]
      exact hk (a, obj) (List.mem_cons_self _ _) obj kw kw1 hp

/-- Shift an action's assigned registration order by d. -/
def shiftA (d : Nat) (a : MAction) : MAction :=
  { a with order := a.order.map (· + d) }

/-- Shift an (action, target) pair's order by d. -/
def shiftP (d : Nat) (p : MAction × Target) : MAction × Target :=
  (shiftA d p.1, p.2)

/-- performAll ignores the order attribute: shifted actions perform
identically. -/
theorem performAll_shift (d : Nat) :
    ∀ (l : List (MAction × Target)) (kw : Dict String Val) (ev : List Event),
    performAll (l.map (shiftP d)) kw ev = performAll l kw ev := by
  intro l
  induction l with
  | nil =>
    intro kw ev
    rfl
  | cons p rest ih =>
    intro kw ev
    obtain ⟨a, obj⟩ := p
    rw [List.map_cons]
    rw [performAll, performAll]
    show (match a.perform obj kw with
      | Except.error e => Except.error (translateDirectiveErr a.code_info e)
      | Except.ok kw1 => performAll (List.map (shiftP d) rest) kw1
          (ev ++ [Event.performed a.tag obj])) = _
    cases hp : a.perform obj kw with
    | error e =>
      rfl
    | ok kw1 =>
      show performAll (List.map (shiftP d) rest) kw1
          (ev ++ [Event.performed a.tag obj]) = _
      exact ih kw1 _

/-- Values of a successful prepareActions pass come from the input pairs or
the initial map. -/
theorem prepareActions_values_sub (ct : ClassTab) (cfg : Config) :
    ∀ (l : List (MAction × Target)) (discs : Dict Val MAction)
      (amap F : Dict Val (MAction × Target)),
    prepareActions ct cfg l discs amap = .ok F →
    ∀ q ∈ dictValues F, q ∈ l ∨ q ∈ dictValues amap := by
  intro l
  induction l with
  | nil =>
    intro discs amap F h q hq
    rw [prepareActions] at h
    cases h
    exact Or.inr hq
  | cons p rest ih =>
    intro discs amap F h q hq
    obtain ⟨a, obj⟩ := p
    rw [prepareActions] at h
    cases hkw : get_config_kw ct cfg a.cls with
    | error e =>
      rw [hkw] at h
      cases h
    | ok kw =>
      rw [hkw] at h
      have h1 : (match a.identifier kw with
        | Except.error e => Except.error e
        | Except.ok id =>
          match a.discriminators kw with
          | Except.error e => Except.error e
          | Except.ok ds =>
            match claimDiscs a (id :: ds) discs with
            | Except.error e => Except.error e
            | Except.ok discs1 =>
              prepareActions ct cfg rest discs1
                (dictInsert id (a, obj) amap)) = Except.ok F := h
      cases hid : a.identifier kw with
      | error e =>
        rw [hid] at h1
        cases h1
      | ok id =>
        rw [hid] at h1
        have h2 : (match a.discriminators kw with
          | Except.error e => Except.error e
          | Except.ok ds =>
            match claimDiscs a (id :: ds) discs with
            | Except.error e => Except.error e
            | Except.ok discs1 =>
              prepareActions ct cfg rest discs1
                (dictInsert id (a, obj) amap)) = Except.ok F := h1
        cases hds : a.discriminators kw with
        | error e =>
          rw [hds] at h2
          cases h2
        | ok ds =>
          rw [hds] at h2
          have h3 : (match claimDiscs a (id :: ds) discs with
            | Except.error e => Except.error e
            | Except.ok discs1 =>
              prepareActions ct cfg rest discs1
                (dictInsert id (a, obj) amap)) = Except.ok F := h2
          cases hcl : claimDiscs a (id :: ds) discs with
          | error e =>
            rw [hcl] at h3
            cases h3
          | ok discs2 =>
            rw [hcl] at h3
            have h4 : prepareActions ct cfg rest discs2
                (dictInsert id (a, obj) amap) = .ok F := h3
            rcases ih discs2 _ F h4 q hq with hq2 | hq2
            · exact Or.inl (List.mem_cons_of_mem _ hq2)
            · rcases dictValues_insert_subset id (a, obj) q amap hq2 with
                hq3 | hq3
              · exact Or.inl (by rw [hq3]; exact List.mem_cons_self _ _)
              · exact Or.inr hq3

/-- Values of a dict.update come from the base or the overlay. -/
theorem dictValues_update_subset [DecidableEq κ] :
    ∀ (overlay base : Dict κ ν) (q : ν),
    q ∈ dictValues (dictUpdate base overlay) →
    q ∈ dictValues base ∨ q ∈ dictValues overlay := by
  intro overlay
  induction overlay with
  | nil =>
    intro base q h
    exact Or.inl h
  | cons kv rest ih =>
    intro base q h
    have hstep : dictUpdate base (kv :: rest) =
        dictUpdate (dictInsert kv.1 kv.2 base) rest := rfl
    rw [hstep] at h
    rcases ih _ q h with h2 | h2
    · rcases dictValues_insert_subset kv.1 kv.2 q base h2 with h3 | h3
      · refine Or.inr ?_
        rw [h3]
        simp [dictValues]
      · exact Or.inl h3
    · refine Or.inr ?_
      simp only [dictValues, List.map_cons, List.mem_cons]
      exact Or.inr h2

/-- Values of the combined map of a prepare pass come from this group's own
map or one of the parents' maps. -/
theorem combineAll_values_sub :
    ∀ (ext : List (Dict Val (MAction × Target)))
      (amap : Dict Val (MAction × Target)) (q : MAction × Target),
    q ∈ dictValues (ext.foldl ActionGroup.combine amap) →
    q ∈ dictValues amap ∨ ∃ P ∈ ext, q ∈ dictValues P := by
  intro ext
  induction ext with
  | nil =>
    intro amap q h
    exact Or.inl h
  | cons P rest ih =>
    intro amap q h
    rw [List.foldl_cons] at h
    rcases ih _ q h with h2 | h2
    · rcases dictValues_update_subset amap P q h2 with h3 | h3
      · exact Or.inr ⟨P, List.mem_cons_self _ _, h3⟩
      · exact Or.inl h3
    · obtain ⟨P2, hP2, hq⟩ := h2
      exact Or.inr ⟨P2, List.mem_cons_of_mem _ hP2, hq⟩

/-- Every class setupGroupSet collects is a validated group target: its own
group_class is None (a class resolves to itself only when it declares no
group_class, and to its target only after the target was checked not to
have one). -/
theorem setupGroupSet_gc_none (ct : ClassTab) :
    ∀ (cls acc gset : List Nat),
    (∀ g ∈ acc, (ct g).group_class = none) →
    setupGroupSet ct cls acc = .ok gset →
    ∀ g ∈ gset, (ct g).group_class = none := by
  intro cls
  induction cls with
  | nil =>
    intro acc gset hacc h
    rw [setupGroupSet] at h
    cases h
    exact hacc
  | cons c rest ih =>
    intro acc gset hacc h
    rw [setupGroupSet] at h
    by_cases hia : (ct c).isAction = false
    · rw [if_pos hia] at h
      exact ih acc gset hacc h
    · rw [if_neg hia] at h
      cases hres : resolveGroupClass ct c with
      | error e =>
        rw [hres] at h
        cases h
      | ok gnew =>
        rw [hres] at h
        have h2 : setupGroupSet ct rest
            (if gnew ∈ acc then acc else acc ++ [gnew]) = .ok gset := h
        have hgnew : (ct gnew).group_class = none := by
          rw [resolveGroupClass] at hres
          cases hgc : (ct c).group_class with
          | none =>
            rw [hgc] at hres
            cases hres
            exact hgc
          | some gc =>
            rw [hgc] at hres
            have hres2 : (if (ct gc).group_class ≠ none then
                (Except.error (PyExc.configError
                  "Cannot use group_class on another action class that uses group_class") :
                  Except PyExc Nat)
              else if (ct c).ownConfig = true then
                Except.error (PyExc.configError
                  "Cannot use config class attribute when you use group_class")
              else if (ct c).ownBefore = true then
                Except.error (PyExc.configError
                  "Cannot define before method when you use group_class")
              else if (ct c).ownAfter = true then
                Except.error (PyExc.configError
                  "Cannot define after method when you use group_class")
              else Except.ok gc) = Except.ok gnew := hres
            by_cases h1 : (ct gc).group_class ≠ none
            · rw [if_pos h1] at hres2
              cases hres2
            · rw [if_neg h1] at hres2
              by_cases hc2 : (ct c).ownConfig = true
              · rw [if_pos hc2] at hres2
                cases hres2
              · rw [if_neg hc2] at hres2
                by_cases hc3 : (ct c).ownBefore = true
                · rw [if_pos hc3] at hres2
                  cases hres2
                · rw [if_neg hc3] at hres2
                  by_cases hc4 : (ct c).ownAfter = true
                  · rw [if_pos hc4] at hres2
                    cases hres2
                  · rw [if_neg hc4] at hres2
                    cases hres2
                    exact not_not.mp h1
        refine ih _ gset ?_ h2
        intro g hg
        by_cases hin : gnew ∈ acc
        · rw [if_pos hin] at hg
          exact hacc g hg
        · rw [if_neg hin] at hg
          rcases List.mem_append.mp hg with h3 | h3
          · exact hacc g h3
          · have : g = gnew := by simpa using h3
            rw [this]
            exact hgnew

/-- When every class listed in a depends is itself a plain class (no
group_class), every class in the sorted setup order has no group_class:
the toposort only adds depends-reachable classes to the validated group
targets. -/
theorem sorted_gc_none (ct : ClassTab)
    (hdeps : ∀ c, ∀ m ∈ (ct c).depends, (ct m).group_class = none)
    (fuel : Nat) (gset sorted1 : List Nat)
    (hgset : ∀ g ∈ gset, (ct g).group_class = none)
    (hsrt : topological_sort fuel gset (fun c => (ct c).depends) =
      .ok sorted1) :
    ∀ g ∈ sorted1, (ct g).group_class = none := by
  intro g hg
  obtain ⟨_, _, _, hreach⟩ :=
    topological_sort_spec (fun c => (ct c).depends) fuel gset sorted1 hsrt
  obtain ⟨y, hy, hr⟩ := hreach g hg
  clear hg
  induction hr with
  | refl => exact hgset y hy
  | tail hab hbc ih => exact hdeps _ _ hbc

/-- The per-class setup loop threads the config bag, the factories and the
log independently of the parents' maps and the group accumulator. -/
theorem setupGroups_pm_indep (ct : ClassTab) (ftab : FacTable) (fuel : Nat)
    (pm pm2 : Nat → List (Dict Val (MAction × Target))) :
    ∀ (cls : List Nat) (cfg : Config) (seen : Dict String Nat)
      (log : List String) (groups groups2i : Dict Nat ActionGroup)
      (cfg2 : Config) (seen2 : Dict String Nat) (log2 : List String)
      (groups2 : Dict Nat ActionGroup),
    setupGroups ct ftab fuel pm cls cfg seen log groups =
      .ok (cfg2, seen2, log2, groups2) →
    ∃ groups2o, setupGroups ct ftab fuel pm2 cls cfg seen log groups2i =
      .ok (cfg2, seen2, log2, groups2o) := by
  intro cls
  induction cls with
  | nil =>
    intro cfg seen log groups groups2i cfg2 seen2 log2 groups2 h
    rw [setupGroups] at h
    cases h
    exact ⟨groups2i, by rw [setupGroups]⟩
  | cons g0 rest ih =>
    intro cfg seen log groups groups2i cfg2 seen2 log2 groups2 h
    rw [setupGroups] at h
    cases hsc : setup_config ftab fuel (ct g0).config cfg seen log with
    | error e =>
      rw [hsc] at h
      cases h
    | ok r =>
      obtain ⟨cfg1, seen1, log1⟩ := r
      rw [hsc] at h
      have h2 : setupGroups ct ftab fuel pm rest cfg1 seen1 log1
          (dictInsert g0 ⟨g0, [], pm g0⟩ groups) =
          .ok (cfg2, seen2, log2, groups2) := h
      obtain ⟨g2o, hg2o⟩ := ih _ _ _ _
        (dictInsert g0 ⟨g0, [], pm2 g0⟩ groups2i) _ _ _ _ h2
      refine ⟨g2o, ?_⟩
      rw [setupGroups, hsc]
      exact hg2o

/-- Executing one action group (with key-preserving hooks and performs, own
and inherited) only writes config entries whose names are the group class's
config names. -/
theorem execute_extraInv {D : String → Bool} {base : Config}
    (hbase : ∀ k, D k = true → k ∉ dictKeys base)
    (ct : ClassTab) (g : ActionGroup) (cfg cfg2 : Config) (ev2 : List Event)
    (hgc : (ct g.action_class).group_class = none)
    (hkeysD : ∀ k ∈ ((ct g.action_class).config).map Prod.fst, D k = true)
    (hba : ∀ kw, dictKeys ((ct g.action_class).before kw) = dictKeys kw ∧
      dictKeys ((ct g.action_class).after kw) = dictKeys kw)
    (hacts : ∀ p ∈ g.actions, PerformKeys p.1)
    (hpmk : ∀ P ∈ g.extendsMaps, ∀ q ∈ dictValues P, PerformKeys q.1)
    (hinv : ExtraInv D base cfg)
    (hrun : g.execute ct cfg = .ok (cfg2, ev2)) :
    ExtraInv D base cfg2 := by
  rw [ActionGroup.execute] at hrun
  cases hprep : g.prepare ct cfg with
  | error e =>
    rw [hprep] at hrun
    cases hrun
  | ok amap =>
    rw [hprep] at hrun
    have hrun1 : (match get_config_kw ct cfg g.action_class with
      | Except.error e => Except.error e
      | Except.ok kw =>
        match performAll (get_actions amap) ((ct g.action_class).before kw)
            [Event.beforeHook g.action_class] with
        | Except.error e => Except.error e
        | Except.ok (kw2, ev) =>
          Except.ok (writeBackKw cfg ((ct g.action_class).after kw2),
            ev ++ [Event.afterHook g.action_class])) =
        Except.ok (cfg2, ev2) := hrun
    cases hkw : get_config_kw ct cfg g.action_class with
    | error e =>
      rw [hkw] at hrun1
      cases hrun1
    | ok kw =>
      rw [hkw] at hrun1
      have hrun2 : (match performAll (get_actions amap)
          ((ct g.action_class).before kw)
          [Event.beforeHook g.action_class] with
        | Except.error e => Except.error e
        | Except.ok (kw2, ev) =>
          Except.ok (writeBackKw cfg ((ct g.action_class).after kw2),
            ev ++ [Event.afterHook g.action_class])) =
          Except.ok (cfg2, ev2) := hrun1
      cases hpa : performAll (get_actions amap)
          ((ct g.action_class).before kw)
          [Event.beforeHook g.action_class] with
      | error e =>
        rw [hpa] at hrun2
        cases hrun2
      | ok r =>
        obtain ⟨kw2, ev⟩ := r
        rw [hpa] at hrun2
        cases hrun2
        -- every performed action has a key-preserving perform
        have hamap : ∀ q ∈ dictValues amap, PerformKeys q.1 := by
          rw [ActionGroup.prepare] at hprep
          cases hpp : prepareActions ct cfg g.actions [] [] with
          | error e =>
            rw [hpp] at hprep
            cases hprep
          | ok amap1 =>
            rw [hpp] at hprep
            have hprep2 : Except.ok
                (g.extendsMaps.foldl ActionGroup.combine amap1) =
                Except.ok amap := hprep
            cases hprep2
            intro q hq
            rcases combineAll_values_sub g.extendsMaps amap1 q hq with
              h2 | h2
            · rcases prepareActions_values_sub ct cfg g.actions [] [] amap1
                  hpp q h2 with h3 | h3
              · exact hacts q h3
              · exact absurd h3 (by simp [dictValues])
            · obtain ⟨P, hP, hqP⟩ := h2
              exact hpmk P hP q hqP
        -- perform preserves the kw keys
        have hkeys2 : dictKeys kw2 = dictKeys kw := by
          have h2 := performAll_keys (get_actions amap)
            ((ct g.action_class).before kw)
            [Event.beforeHook g.action_class] kw2 ev
            (fun p hp => hamap p ((get_actions_mem amap p).mp hp))
            hpa
          rw [h2, (hba kw).1]
        -- the written-back keys are the group class's config names
        have hkwkeys : dictKeys kw = ((ct g.action_class).config).map
            Prod.fst := by
          have h2 := get_config_kw_keys ct cfg
            ((ct ((ct g.action_class).group_class.getD
              g.action_class)).config) kw hkw
          rw [h2, hgc]
          rfl
        refine ExtraInv.writeBack hbase _ cfg ?_ hinv
        intro p hp
        refine hkeysD p.1 ?_
        have hmem : p.1 ∈ dictKeys ((ct g.action_class).after kw2) := by
          simp only [dictKeys, List.mem_map]
          exact ⟨p, hp, rfl⟩
        rw [(hba kw2).2, hkeys2, hkwkeys] at hmem
        exact hmem

/-- The group-execution loop preserves the append-of-deleted-names shape of
the config bag. -/
theorem execGroups_extraInv {D : String → Bool} {base : Config}
    (hbase : ∀ k, D k = true → k ∉ dictKeys base) (ct : ClassTab) :
    ∀ (order : List Nat) (groups : Dict Nat ActionGroup) (cfg : Config)
      (ev : List Event) (cfg2 : Config) (ev2 : List Event),
    (∀ g ∈ order, ∀ grp, dictLookup g groups = some grp →
      grp.action_class = g ∧ (∀ p ∈ grp.actions, PerformKeys p.1) ∧
      (∀ P ∈ grp.extendsMaps, ∀ q ∈ dictValues P, PerformKeys q.1)) →
    (∀ g ∈ order, (ct g).group_class = none ∧
      ∀ k ∈ ((ct g).config).map Prod.fst, D k = true) →
    (∀ (g : Nat) (kw : Dict String Val),
      dictKeys ((ct g).before kw) = dictKeys kw ∧
      dictKeys ((ct g).after kw) = dictKeys kw) →
    ExtraInv D base cfg → execGroups ct order groups cfg ev = .ok (cfg2, ev2) →
    ExtraInv D base cfg2 := by
  intro order
  induction order with
  | nil =>
    intro groups cfg ev cfg2 ev2 _ _ _ hinv hrun
    rw [execGroups] at hrun
    cases hrun
    exact hinv
  | cons g rest ih =>
    intro groups cfg ev cfg2 ev2 hg hcls hba hinv hrun
    rw [execGroups] at hrun
    cases hlk : dictLookup g groups with
    | none =>
      rw [hlk] at hrun
      cases hrun
    | some grp =>
      rw [hlk] at hrun
      have hrun1 : (match grp.execute ct cfg with
        | Except.error e => Except.error e
        | Except.ok (cfg1, ev1) =>
          execGroups ct rest groups cfg1 (ev ++ ev1)) =
          Except.ok (cfg2, ev2) := hrun
      cases hex : grp.execute ct cfg with
      | error e =>
        rw [hex] at hrun1
        cases hrun1
      | ok r =>
        obtain ⟨cfg1, ev1⟩ := r
        rw [hex] at hrun1
        have hrun2 : execGroups ct rest groups cfg1 (ev ++ ev1) =
            Except.ok (cfg2, ev2) := hrun1
        obtain ⟨hac, hpk, hpmk⟩ :=
          hg g (List.mem_cons_self _ _) grp hlk
        obtain ⟨hgc, hD⟩ := hcls g (List.mem_cons_self _ _)
        have hinv1 : ExtraInv D base cfg1 :=
          execute_extraInv hbase ct grp cfg cfg1 ev1
            (by rw [hac]; exact hgc) (by rw [hac]; exact hD)
            (by rw [hac]; exact fun kw => hba g kw) hpk hpmk hinv hex
        exact ih groups cfg1 (ev ++ ev1) cfg2 ev2
          (fun g2 h2 => hg g2 (List.mem_cons_of_mem _ h2))
          (fun g2 h2 => hcls g2 (List.mem_cons_of_mem _ h2)) hba hinv1 hrun2

/-- With one-level factory arguments, every item the setup_config toposort
emits is a config item of the class or a direct factory argument of one, so
its name is removed by delete_config. -/
theorem toposort_items_delName (ftab : FacTable)
    (hone : ∀ fid, ∀ p ∈ (ftab fid).args, (ftab p.2).args = [])
    (fuel : Nat) (cc items : List (String × Nat))
    (h : topological_sort fuel cc (factory_key ftab) = .ok items) :
    ∀ it ∈ items, delNameB ftab cc it.1 = true := by
  intro it hit
  obtain ⟨_, _, _, hreach⟩ :=
    topological_sort_spec (factory_key ftab) fuel cc items h
  obtain ⟨y, hy, hr⟩ := hreach it hit
  rcases Relation.ReflTransGen.cases_head hr with heq | ⟨b, hb, hr2⟩
  · rw [delNameB, List.any_eq_true]
    refine ⟨y, hy, ?_⟩
    rw [← heq]
    simp
  · rcases Relation.ReflTransGen.cases_head hr2 with heq2 | ⟨c, hc, _⟩
    · rw [delNameB, List.any_eq_true]
      refine ⟨y, hy, ?_⟩
      have hb2 : it ∈ (ftab y.2).args := heq2 ▸ hb
      have : (ftab y.2).args.any (fun an => it.1 = an.1) = true := by
        rw [List.any_eq_true]
        exact ⟨it, hb2, by simp⟩
      simp [this]
    · have hb2 : b ∈ (ftab y.2).args := hb
      have hempty : (ftab b.2).args = [] := hone y.2 b hb2
      rw [show factory_key ftab b = (ftab b.2).args from rfl, hempty] at hc
      cases hc

/-- A successful toposort of a deps-closed input stays inside the input. -/
theorem toposort_sub_of_closed [DecidableEq α] (deps : α → List α)
    (fuel : Nat) (l out : List α)
    (hclosed : ∀ n ∈ l, ∀ m ∈ deps n, m ∈ l)
    (h : topological_sort fuel l deps = .ok out) : ∀ x ∈ out, x ∈ l := by
  intro x hx
  obtain ⟨_, _, _, hreach⟩ := topological_sort_spec deps fuel l out h
  obtain ⟨y, hy, hr⟩ := hreach x hx
  clear hx
  induction hr with
  | refl => exact hy
  | tail hab hbc ih => exact hclosed _ ih _ hbc

/-- A successful toposort's output is deps-closed. -/
theorem toposort_out_closed [DecidableEq α] (deps : α → List α)
    (fuel : Nat) (l out : List α)
    (h : topological_sort fuel l deps = .ok out) :
    ∀ n ∈ out, ∀ m ∈ deps n, m ∈ out := by
  obtain ⟨_, _, hord, _⟩ := topological_sort_spec deps fuel l out h
  intro n hn m hm
  exact (hord n hn m hm).mem_left

/-- What the per-class setup loop produces: the keys extend the accumulator
with the class list, and each processed class maps to a fresh empty group
with its parents' maps. -/
theorem setupGroups_out (ct : ClassTab) (ftab : FacTable) (fuel : Nat)
    (pm : Nat → List (Dict Val (MAction × Target))) :
    ∀ (cls : List Nat) (cfg : Config) (seen : Dict String Nat)
      (log : List String) (groups : Dict Nat ActionGroup) (cfg2 : Config)
      (seen2 : Dict String Nat) (log2 : List String)
      (groups2 : Dict Nat ActionGroup),
    setupGroups ct ftab fuel pm cls cfg seen log groups =
      .ok (cfg2, seen2, log2, groups2) →
    (cls.Nodup → (∀ g ∈ cls, g ∉ dictKeys groups) →
      dictKeys groups2 = dictKeys groups ++ cls)
    ∧ (∀ g, g ∈ cls → dictLookup g groups2 = some ⟨g, [], pm g⟩)
    ∧ (∀ g, g ∉ cls → dictLookup g groups2 = dictLookup g groups) := by
  intro cls
  induction cls with
  | nil =>
    intro cfg seen log groups cfg2 seen2 log2 groups2 hrun
    rw [setupGroups] at hrun
    cases hrun
    exact ⟨fun _ _ => by simp, fun g hg => absurd hg (by simp),
      fun g _ => rfl⟩
  | cons g0 rest ih =>
    intro cfg seen log groups cfg2 seen2 log2 groups2 hrun
    rw [setupGroups] at hrun
    cases hsc : setup_config ftab fuel (ct g0).config cfg seen log with
    | error e =>
      rw [hsc] at hrun
      cases hrun
    | ok r =>
      obtain ⟨cfg1, seen1, log1⟩ := r
      rw [hsc] at hrun
      have hrun2 : setupGroups ct ftab fuel pm rest cfg1 seen1 log1
          (dictInsert g0 ⟨g0, [], pm g0⟩ groups) =
          .ok (cfg2, seen2, log2, groups2) := hrun
      obtain ⟨hkeys, hmem, hnot⟩ := ih _ _ _ _ _ _ _ _ hrun2
      refine ⟨?_, ?_, ?_⟩
      · intro hnd hfresh
        have hg0 : g0 ∉ dictKeys groups :=
          hfresh g0 (List.mem_cons_self _ _)
        have hkeys1 : dictKeys (dictInsert g0 (⟨g0, [], pm g0⟩ : ActionGroup)
            groups) = dictKeys groups ++ [g0] :=
          dictKeys_insert_not_mem g0 _ groups
            ((dictLookup_none_iff groups g0).mpr hg0)
        rw [hkeys (by simp at hnd; exact hnd.2) ?_, hkeys1]
        · simp
        · intro g hg
          rw [hkeys1]
          intro hmem2
          rcases List.mem_append.mp hmem2 with h2 | h2
          · exact hfresh g (List.mem_cons_of_mem _ hg) h2
          · have : g = g0 := by simpa using h2
            subst this
            simp at hnd
            exact hnd.1 hg
      · intro g hg
        rcases List.mem_cons.mp hg with heq | hg2
        · subst heq
          by_cases hg0r : g ∈ rest
          · exact hmem g hg0r
          · rw [hnot g hg0r]
            exact dictLookup_insert_self g _ groups
        · exact hmem g hg2
      · intro g hg
        have hgne : g ≠ g0 := fun he => hg (he ▸ List.mem_cons_self _ _)
        have hgr : g ∉ rest := fun h2 => hg (List.mem_cons_of_mem _ h2)
        rw [hnot g hgr]
        exact dictLookup_insert_ne g0 g _ groups (Ne.symm hgne)

/-- The per-class setup loop only adds config entries whose names delete_config
would remove for one of the processed classes (one-level factory arguments). -/
theorem setupGroups_extraInv {ftab : FacTable} {ct : ClassTab}
    {sorted : List Nat} {base : Config}
    (hone : ∀ fid, ∀ p ∈ (ftab fid).args, (ftab p.2).args = [])
    (hbase : ∀ k, delClassB ftab ct sorted k = true → k ∉ dictKeys base)
    (fuel : Nat) (pm : Nat → List (Dict Val (MAction × Target))) :
    ∀ (cls : List Nat), (∀ g ∈ cls, g ∈ sorted) →
    ∀ (cfg : Config) (seen : Dict String Nat) (log : List String)
      (groups : Dict Nat ActionGroup) (cfg2 : Config)
      (seen2 : Dict String Nat) (log2 : List String)
      (groups2 : Dict Nat ActionGroup),
    ExtraInv (delClassB ftab ct sorted) base cfg →
    setupGroups ct ftab fuel pm cls cfg seen log groups =
      .ok (cfg2, seen2, log2, groups2) →
    ExtraInv (delClassB ftab ct sorted) base cfg2 := by
  intro cls
  induction cls with
  | nil =>
    intro _ cfg seen log groups cfg2 seen2 log2 groups2 hinv hrun
    rw [setupGroups] at hrun
    cases hrun
    exact hinv
  | cons g0 rest ih =>
    intro hsub cfg seen log groups cfg2 seen2 log2 groups2 hinv hrun
    rw [setupGroups] at hrun
    cases hsc : setup_config ftab fuel (ct g0).config cfg seen log with
    | error e =>
      rw [hsc] at hrun
      cases hrun
    | ok r =>
      obtain ⟨cfg1, seen1, log1⟩ := r
      rw [hsc] at hrun
      have hrun2 : setupGroups ct ftab fuel pm rest cfg1 seen1 log1
          (dictInsert g0 ⟨g0, [], pm g0⟩ groups) =
          .ok (cfg2, seen2, log2, groups2) := hrun
      have hinv1 : ExtraInv (delClassB ftab ct sorted) base cfg1 := by
        rw [setup_config] at hsc
        cases hts : topological_sort fuel (ct g0).config (factory_key ftab) with
        | error e =>
          cases e <;> rw [hts] at hsc <;> cases hsc
        | ok items =>
          rw [hts] at hsc
          refine setup_items_extra ftab hbase items cfg seen log cfg1 seen1
            log1 ?_ hinv hsc
          intro nf hnf
          have h2 := toposort_items_delName ftab hone fuel (ct g0).config
            items hts nf hnf
          rw [delClassB, List.any_eq_true]
          exact ⟨g0, hsub g0 (List.mem_cons_self _ _), h2⟩
      exact ih (fun g hg => hsub g (List.mem_cons_of_mem _ hg)) _ _ _ _ _ _ _ _
        hinv1 hrun2

/-- Routing actions into groups preserves the key set and only appends input
pairs to the stored groups' action lists. -/
theorem routeActions_props (ct : ClassTab) :
    ∀ (pairs : List (MAction × Target)) (groups groups2 : Dict Nat ActionGroup),
    routeActions ct pairs groups = .ok groups2 →
    dictKeys groups2 = dictKeys groups
    ∧ (∀ g grp2, dictLookup g groups2 = some grp2 →
        ∃ grp, dictLookup g groups = some grp ∧
          grp2.action_class = grp.action_class ∧
          grp2.extendsMaps = grp.extendsMaps ∧
          (∀ p ∈ grp2.actions, p ∈ grp.actions ∨ p ∈ pairs)) := by
  intro pairs
  induction pairs with
  | nil =>
    intro groups groups2 hrun
    rw [routeActions] at hrun
    cases hrun
    exact ⟨rfl, fun g grp2 h =>
      ⟨grp2, h, rfl, rfl, fun p hp => Or.inl hp⟩⟩
  | cons q rest ih =>
    intro groups groups2 hrun
    obtain ⟨a, obj⟩ := q
    rw [routeActions] at hrun
    cases hlk : dictLookup (((ct a.cls).group_class).getD a.cls) groups with
    | none =>
      rw [hlk] at hrun
      cases hrun
    | some g1 =>
      rw [hlk] at hrun
      have hrun2 : routeActions ct rest
          (dictInsert (((ct a.cls).group_class).getD a.cls)
            { g1 with actions := g1.actions ++ [(a, obj)] } groups) =
          .ok groups2 := hrun
      obtain ⟨hkeys, hlook⟩ := ih _ _ hrun2
      constructor
      · rw [hkeys]
        exact dictKeys_insert_mem _ _ g1 groups hlk
      · intro g grp2 h2
        obtain ⟨grp1, hlk1, hac, hext, hacts⟩ := hlook g grp2 h2
        by_cases hg : g = ((ct a.cls).group_class).getD a.cls
        · subst hg
          rw [dictLookup_insert_self] at hlk1
          cases hlk1
          refine ⟨g1, hlk, hac, hext, ?_⟩
          intro p hp
          rcases hacts p hp with hp2 | hp2
          · show p ∈ g1.actions ∨ _
            rcases List.mem_append.mp hp2 with hp3 | hp3
            · exact Or.inl hp3
            · have : p = (a, obj) := by simpa using hp3
              exact Or.inr (this ▸ List.mem_cons_self _ _)
          · exact Or.inr (List.mem_cons_of_mem _ hp2)
        · rw [dictLookup_insert_ne _ _ _ _ (Ne.symm hg)] at hlk1
          refine ⟨grp1, hlk1, hac, hext, ?_⟩
          intro p hp
          rcases hacts p hp with hp2 | hp2
          · exact Or.inl hp2
          · exact Or.inr (List.mem_cons_of_mem _ hp2)

mutual

/-- A registration tree whose leaf actions are commit-fresh: they carry no
preset order attribute (so expansion assigns one) and their perform
callbacks preserve the config keyword names. -/
def RItem.TreeOk : RItem → Prop
  | .act a => a.order = none ∧ PerformKeys a
  | .comp _ r => TreeOkRes r

def TreeOkRes : Except PyExc (List (RItem × Target)) → Prop
  | .error _ => True
  | .ok subs => TreeOkList subs

def TreeOkList : List (RItem × Target) → Prop
  | [] => True
  | (i, _) :: rest => i.TreeOk ∧ TreeOkList rest

end

theorem TreeOk_setDirective (dd : Option CodeInfo) (i : RItem) :
    (i.setDirective dd).TreeOk ↔ i.TreeOk := by
  cases i with
  | act a => exact Iff.rfl
  | comp d0 r => exact Iff.rfl

theorem TreeOkList_map_setDirective (dd : Option CodeInfo) :
    ∀ (l : List (RItem × Target)), TreeOkList l →
    TreeOkList (l.map (fun so => (so.1.setDirective dd, so.2))) := by
  intro l
  induction l with
  | nil =>
    intro _
    exact trivial
  | cons x rest ih =>
    obtain ⟨i, t⟩ := x
    intro h
    exact ⟨(TreeOk_setDirective dd i).mpr h.1, ih h.2⟩

theorem TreeOkList_append :
    ∀ (l1 l2 : List (RItem × Target)), TreeOkList l1 → TreeOkList l2 →
    TreeOkList (l1 ++ l2) := by
  intro l1
  induction l1 with
  | nil =>
    intro l2 _ h2
    exact h2
  | cons x rest ih =>
    obtain ⟨i, t⟩ := x
    intro l2 h1 h2
    exact ⟨h1.1, ih l2 h1.2 h2⟩

/-- Expansion on commit-fresh trees: the counter never decreases, starting
the counter d later shifts every assigned order by exactly d (and nothing
else), and every produced action has an assigned order and a key-preserving
perform. -/
theorem expand_props (d : Nat) : ∀ (n : Nat) (l : List (RItem × Target))
      (c : Nat) (out : List (MAction × Target)) (c2 : Nat),
    sizeList l ≤ n → TreeOkList l →
    expand_actions l c = .ok (out, c2) →
    c ≤ c2
    ∧ expand_actions l (c + d) = .ok (out.map (shiftP d), c2 + d)
    ∧ (∀ p ∈ out, PerformKeys p.1 ∧ p.1.order ≠ none) := by
  intro n
  induction n with
  | zero =>
    intro l c out c2 hsz hok hexp
    rw [sizeList_eq_zero l (Nat.le_zero.mp hsz)] at hexp ⊢
    rw [expand_actions] at hexp
    cases hexp
    refine ⟨Nat.le_refl c, ?_, ?_⟩
    · rw [expand_actions]
      rfl
    · intro p hp
      cases hp
  | succ n ih =>
    intro l c out c2 hsz hok hexp
    cases l with
    | nil =>
      rw [expand_actions] at hexp
      cases hexp
      refine ⟨Nat.le_refl c, ?_, ?_⟩
      · rw [expand_actions]
        rfl
      · intro p hp
        cases hp
    | cons it rest =>
      obtain ⟨i, t⟩ := it
      cases i with
      | act a =>
        obtain ⟨⟨hord, hpk⟩, hokr⟩ := hok
        have hsz2 : sizeList rest ≤ n := by
          rw [show sizeList ((RItem.act a, t) :: rest) =
            RItem.size (RItem.act a) + sizeList rest from rfl] at hsz
          rw [show RItem.size (RItem.act a) = 1 from rfl] at hsz
          omega
        rw [expand_actions] at hexp
        rw [if_pos hord] at hexp
        cases hrec : expand_actions rest (c + 1) with
        | error e =>
          rw [hrec] at hexp
          cases hexp
        | ok p =>
          obtain ⟨l2, c2v⟩ := p
          rw [hrec] at hexp
          cases hexp
          obtain ⟨hle, hshift, hfacts⟩ := ih rest (c + 1) l2 c2 hsz2 hokr hrec
          refine ⟨by omega, ?_, ?_⟩
          · rw [expand_actions]
            rw [if_pos hord]
            rw [show c + d + 1 = c + 1 + d from by omega]
            rw [hshift]
            rfl
          · intro p hp
            rcases List.mem_cons.mp hp with h1 | h1
            · rw [h1]
              exact ⟨hpk, by simp⟩
            · exact hfacts p h1
      | comp dir res =>
        cases res with
        | error e =>
          rw [expand_actions] at hexp
          cases hexp
        | ok subs =>
          obtain ⟨hoks, hokr⟩ := hok
          have hoksubs : TreeOkList subs := hoks
          have hszh : sizeList subs + 1 + sizeList rest ≤ n + 1 := by
            rw [show sizeList ((RItem.comp dir (Except.ok subs), t) :: rest) =
              RItem.size (RItem.comp dir (Except.ok subs)) + sizeList rest
              from rfl] at hsz
            rw [show RItem.size (RItem.comp dir (Except.ok subs)) =
              1 + sizeList subs from rfl] at hsz
            omega
          have hsz1 : sizeList (subs.map
              (fun so => (so.1.setDirective dir, so.2))) ≤ n := by
            rw [sizeList_map_setDirective]
            omega
          have hsz2 : sizeList rest ≤ n := by omega
          rw [expand_actions] at hexp
          cases hrec1 : expand_actions
              (subs.map (fun so => (so.1.setDirective dir, so.2))) c with
          | error e =>
            rw [hrec1] at hexp
            cases hexp
          | ok p1 =>
            obtain ⟨l1, c1v⟩ := p1
            rw [hrec1] at hexp
            have hexp2 : (match expand_actions rest c1v with
              | Except.error e => Except.error e
              | Except.ok (l2x, c2x) =>
                Except.ok (l1 ++ l2x, c2x)) = Except.ok (out, c2) := hexp
            cases hrec2 : expand_actions rest c1v with
            | error e =>
              rw [hrec2] at hexp2
              cases hexp2
            | ok p2 =>
              obtain ⟨l2, c2v⟩ := p2
              rw [hrec2] at hexp2
              cases hexp2
              obtain ⟨hle1, hshift1, hfacts1⟩ := ih _ c l1 c1v hsz1
                (TreeOkList_map_setDirective dir subs hoksubs) hrec1
              obtain ⟨hle2, hshift2, hfacts2⟩ := ih rest c1v l2 c2 hsz2
                hokr hrec2
              refine ⟨by omega, ?_, ?_⟩
              · rw [expand_actions]
                rw [hshift1]
                show (match expand_actions rest (c1v + d) with
                  | Except.error e => Except.error e
                  | Except.ok (l2x, c2x) =>
                    Except.ok (List.map (shiftP d) l1 ++ l2x, c2x)) = _
                rw [hshift2, List.map_append]
              · intro p hp
                rcases List.mem_append.mp hp with h1 | h1
                · exact hfacts1 p h1
                · exact hfacts2 p h1

/-- Map a function over a dict's values. -/
def mapVals (f : ν → μ) (m : List (κ × ν)) : List (κ × μ) :=
  m.map (fun kv => (kv.1, f kv.2))

theorem dictLookup_mapVals [DecidableEq κ] (f : ν → μ) (k : κ) :
    ∀ (m : List (κ × ν)),
    dictLookup k (mapVals f m) = (dictLookup k m).map f := by
  intro m
  induction m with
  | nil => rfl
  | cons kv rest ih =>
    obtain ⟨k1, v1⟩ := kv
    by_cases h : k1 = k
    · simp [mapVals, dictLookup, h]
    · simp only [mapVals, List.map_cons, dictLookup, h, if_false] at ih ⊢
      exact ih

theorem dictInsert_mapVals [DecidableEq κ] (f : ν → μ) (k : κ) (v : ν) :
    ∀ (m : List (κ × ν)),
    dictInsert k (f v) (mapVals f m) = mapVals f (dictInsert k v m) := by
  intro m
  induction m with
  | nil => rfl
  | cons kv rest ih =>
    obtain ⟨k1, v1⟩ := kv
    by_cases h : k1 = k
    · simp [mapVals, dictInsert, h]
    · simp only [mapVals, List.map_cons, dictInsert, h, if_false,
        List.cons.injEq] at ih ⊢
      exact ⟨trivial, ih⟩

theorem dictValues_mapVals (f : ν → μ) (m : List (κ × ν)) :
    dictValues (mapVals f m) = (dictValues m).map f := by
  induction m with
  | nil => rfl
  | cons kv rest ih =>
    simp only [mapVals, dictValues, List.map_cons] at ih ⊢
    show f kv.2 :: List.map Prod.snd
        (List.map (fun kv => (kv.1, f kv.2)) rest) =
      f kv.2 :: List.map f (List.map Prod.snd rest)
    rw [ih]

/-- dict.update commutes with mapping the values. -/
theorem dictUpdate_mapVals [DecidableEq κ] (f : ν → μ) :
    ∀ (overlay base : Dict κ ν),
    dictUpdate (mapVals f base) (mapVals f overlay) =
      mapVals f (dictUpdate base overlay) := by
  intro overlay
  induction overlay with
  | nil =>
    intro base
    rfl
  | cons kv rest ih =>
    intro base
    show dictUpdate (dictInsert kv.1 (f kv.2) (mapVals f base))
      (mapVals f rest) = _
    rw [dictInsert_mapVals]
    exact ih (dictInsert kv.1 kv.2 base)

/-- Combining with every parent commutes with mapping all stored values. -/
theorem combineAll_mapVals (f : MAction × Target → MAction × Target) :
    ∀ (ext : List (Dict Val (MAction × Target)))
      (amap : Dict Val (MAction × Target)),
    (ext.map (mapVals f)).foldl ActionGroup.combine (mapVals f amap) =
      mapVals f (ext.foldl ActionGroup.combine amap) := by
  intro ext
  induction ext with
  | nil =>
    intro amap
    rfl
  | cons P rest ih =>
    intro amap
    rw [List.map_cons, List.foldl_cons, List.foldl_cons]
    rw [show ActionGroup.combine (mapVals f amap) (mapVals f P) =
      mapVals f (ActionGroup.combine amap P) from dictUpdate_mapVals f amap P]
    exact ih (ActionGroup.combine amap P)

/-- Stable insertion commutes with a uniform key shift. -/
theorem insertSorted_map_congr (key : β → Nat) (f : β → β) (d : Nat)
    (x : β) (hx : key (f x) = key x + d) :
    ∀ (l : List β), (∀ y ∈ l, key (f y) = key y + d) →
    insertSorted key (f x) (l.map f) = (insertSorted key x l).map f := by
  intro l
  induction l with
  | nil =>
    intro _
    rfl
  | cons y rest ih =>
    intro hl
    have hy : key (f y) = key y + d := hl y (List.mem_cons_self _ _)
    rw [List.map_cons, insertSorted, insertSorted]
    by_cases hc : key y ≤ key x
    · rw [if_pos (by rw [hy, hx]; omega), if_pos hc]
      rw [List.map_cons]
      rw [ih (fun z hz => hl z (List.mem_cons_of_mem _ hz))]
    · rw [if_neg (by rw [hy, hx]; omega), if_neg hc]
      rfl

/-- Stable sorting commutes with a uniform key shift. -/
theorem sortByKey_map_congr (key : β → Nat) (f : β → β) (d : Nat) :
    ∀ (l : List β), (∀ y ∈ l, key (f y) = key y + d) →
    sortByKey key (l.map f) = (sortByKey key l).map f := by
  intro l
  induction l with
  | nil =>
    intro _
    rfl
  | cons x rest ih =>
    intro hl
    rw [List.map_cons, sortByKey, sortByKey]
    rw [ih (fun z hz => hl z (List.mem_cons_of_mem _ hz))]
    exact insertSorted_map_congr key f d x (hl x (List.mem_cons_self _ _))
      (sortByKey key rest)
      (fun z hz => hl z (List.mem_cons_of_mem _
        ((sortByKey_perm key rest).mem_iff.mp hz)))

/-- Conflict claiming ignores the order attribute: shifted actions claim the
same discriminators, raise identical conflict errors (the conflict info is
tag and origin only), and produce the shifted claim table. -/
theorem claimDiscs_shift (d : Nat) (a : MAction) :
    ∀ (vals : List Val) (discs : Dict Val MAction),
    claimDiscs (shiftA d a) vals (mapVals (shiftA d) discs) =
      match claimDiscs a vals discs with
      | .error e => .error e
      | .ok ds => .ok (mapVals (shiftA d) ds) := by
  intro vals
  induction vals with
  | nil =>
    intro discs
    rfl
  | cons v rest ih =>
    intro discs
    rw [claimDiscs, claimDiscs, dictLookup_mapVals]
    cases hlk : dictLookup v discs with
    | some other =>
      rfl
    | none =>
      rw [show Option.map (shiftA d) none = none from rfl]
      rw [show dictInsert v (shiftA d a) (mapVals (shiftA d) discs) =
        mapVals (shiftA d) (dictInsert v a discs) from
        dictInsert_mapVals (shiftA d) v a discs]
      exact ih (dictInsert v a discs)

/-- The prepare loop ignores the order attribute: shifted actions resolve
the same config kw, identifiers and discriminators, fail identically, and
produce the shifted identifier map. -/
theorem prepareActions_shift (ct : ClassTab) (cfg : Config) (d : Nat) :
    ∀ (l : List (MAction × Target)) (discs : Dict Val MAction)
      (amap : Dict Val (MAction × Target)),
    prepareActions ct cfg (l.map (shiftP d)) (mapVals (shiftA d) discs)
      (mapVals (shiftP d) amap) =
      match prepareActions ct cfg l discs amap with
      | .error e => .error e
      | .ok F => .ok (mapVals (shiftP d) F) := by
  intro l
  induction l with
  | nil =>
    intro discs amap
    rfl
  | cons p rest ih =>
    intro discs amap
    obtain ⟨a, obj⟩ := p
    rw [List.map_cons]
    rw [prepareActions, prepareActions]
    show (match get_config_kw ct cfg a.cls with
      | Except.error e => Except.error e
      | Except.ok kw =>
        match a.identifier kw with
        | Except.error e => Except.error e
        | Except.ok id =>
          match a.discriminators kw with
          | Except.error e => Except.error e
          | Except.ok ds =>
            match claimDiscs (shiftA d a) (id :: ds)
                (mapVals (shiftA d) discs) with
            | Except.error e => Except.error e
            | Except.ok discs1 =>
              prepareActions ct cfg (rest.map (shiftP d)) discs1
                (dictInsert id (shiftA d a, obj)
                  (mapVals (shiftP d) amap))) = _
    cases hkw : get_config_kw ct cfg a.cls with
    | error e =>
      rfl
    | ok kw =>
      show (match a.identifier kw with
        | Except.error e => Except.error e
        | Except.ok id =>
          match a.discriminators kw with
          | Except.error e => Except.error e
          | Except.ok ds =>
            match claimDiscs (shiftA d a) (id :: ds)
                (mapVals (shiftA d) discs) with
            | Except.error e => Except.error e
            | Except.ok discs1 =>
              prepareActions ct cfg (List.map (shiftP d) rest) discs1
                (dictInsert id (shiftA d a, obj)
                  (mapVals (shiftP d) amap))) =
        (match (match a.identifier kw with
          | Except.error e => Except.error e
          | Except.ok id =>
            match a.discriminators kw with
            | Except.error e => Except.error e
            | Except.ok ds =>
              match claimDiscs a (id :: ds) discs with
              | Except.error e => Except.error e
              | Except.ok discs1 =>
                prepareActions ct cfg rest discs1
                  (dictInsert id (a, obj) amap)) with
        | Except.error e => Except.error e
        | Except.ok F => Except.ok (mapVals (shiftP d) F))
      cases hid : a.identifier kw with
      | error e =>
        rfl
      | ok id =>
        show (match a.discriminators kw with
          | Except.error e => Except.error e
          | Except.ok ds =>
            match claimDiscs (shiftA d a) (id :: ds)
                (mapVals (shiftA d) discs) with
            | Except.error e => Except.error e
            | Except.ok discs1 =>
              prepareActions ct cfg (List.map (shiftP d) rest) discs1
                (dictInsert id (shiftA d a, obj)
                  (mapVals (shiftP d) amap))) =
          (match (match a.discriminators kw with
            | Except.error e => Except.error e
            | Except.ok ds =>
              match claimDiscs a (id :: ds) discs with
              | Except.error e => Except.error e
              | Except.ok discs1 =>
                prepareActions ct cfg rest discs1
                  (dictInsert id (a, obj) amap)) with
          | Except.error e => Except.error e
          | Except.ok F => Except.ok (mapVals (shiftP d) F))
        cases hds : a.discriminators kw with
        | error e =>
          rfl
        | ok ds =>
          show (match claimDiscs (shiftA d a) (id :: ds)
              (mapVals (shiftA d) discs) with
            | Except.error e => Except.error e
            | Except.ok discs1 =>
              prepareActions ct cfg (List.map (shiftP d) rest) discs1
                (dictInsert id (shiftA d a, obj)
                  (mapVals (shiftP d) amap))) =
            (match (match claimDiscs a (id :: ds) discs with
              | Except.error e => Except.error e
              | Except.ok discs1 =>
                prepareActions ct cfg rest discs1
                  (dictInsert id (a, obj) amap)) with
            | Except.error e => Except.error e
            | Except.ok F => Except.ok (mapVals (shiftP d) F))
          rw [claimDiscs_shift d a (id :: ds) discs]
          cases hcl : claimDiscs a (id :: ds) discs with
          | error e =>
            rfl
          | ok discs2 =>
            show prepareActions ct cfg (rest.map (shiftP d))
                (mapVals (shiftA d) discs2)
                (dictInsert id (shiftA d a, obj)
                  (mapVals (shiftP d) amap)) = _
            rw [show (dictInsert id (shiftA d a, obj)
                (mapVals (shiftP d) amap)) =
              mapVals (shiftP d) (dictInsert id (a, obj) amap) from
              dictInsert_mapVals (shiftP d) id (a, obj) amap]
            exact ih discs2 (dictInsert id (a, obj) amap)

/-- Shift every stored action order of a group — own buffered actions and
the parents' resolved maps — by d. -/
def shiftG (d : Nat) (grp : ActionGroup) : ActionGroup :=
  ⟨grp.action_class, grp.actions.map (shiftP d),
    grp.extendsMaps.map (mapVals (shiftP d))⟩

/-- Executing a group whose action orders (own and inherited) are uniformly
shifted produces exactly the same config changes and events. -/
theorem execute_shift (ct : ClassTab) (cfg : Config) (d : Nat)
    (g : ActionGroup)
    (horder : ∀ p ∈ g.actions, p.1.order ≠ none)
    (hpord : ∀ P ∈ g.extendsMaps, ∀ q ∈ dictValues P, q.1.order ≠ none) :
    ActionGroup.execute ct (shiftG d g) cfg = ActionGroup.execute ct g cfg := by
  rw [ActionGroup.execute, ActionGroup.execute]
  have hprep : (shiftG d g).prepare ct cfg =
      match g.prepare ct cfg with
      | .error e => .error e
      | .ok F => .ok (mapVals (shiftP d) F) := by
    rw [ActionGroup.prepare, ActionGroup.prepare]
    have h1 : prepareActions ct cfg (g.actions.map (shiftP d)) [] [] =
        match prepareActions ct cfg g.actions [] [] with
        | .error e => .error e
        | .ok F => .ok (mapVals (shiftP d) F) :=
      prepareActions_shift ct cfg d g.actions [] []
    show (match prepareActions ct cfg (g.actions.map (shiftP d)) [] [] with
      | Except.error e => Except.error e
      | Except.ok amap =>
        Except.ok ((shiftG d g).extendsMaps.foldl ActionGroup.combine amap)) =
      _
    rw [h1]
    cases hp : prepareActions ct cfg g.actions [] [] with
    | error e => rfl
    | ok F =>
      show Except.ok ((shiftG d g).extendsMaps.foldl ActionGroup.combine
        (mapVals (shiftP d) F)) = _
      rw [show (shiftG d g).extendsMaps =
        g.extendsMaps.map (mapVals (shiftP d)) from rfl]
      rw [combineAll_mapVals]
  rw [hprep]
  cases hp : g.prepare ct cfg with
  | error e => rfl
  | ok F =>
    show (match get_config_kw ct cfg g.action_class with
      | Except.error e => Except.error e
      | Except.ok kw =>
        match performAll (get_actions (mapVals (shiftP d) F))
            ((ct g.action_class).before kw)
            [Event.beforeHook g.action_class] with
        | Except.error e => Except.error e
        | Except.ok (kw2, ev) =>
          Except.ok (writeBackKw cfg ((ct g.action_class).after kw2),
            ev ++ [Event.afterHook g.action_class])) = _
    have hga : get_actions (mapVals (shiftP d) F) =
        (get_actions F).map (shiftP d) := by
      rw [get_actions, get_actions, dictValues_mapVals]
      refine sortByKey_map_congr _ (shiftP d) d (dictValues F) ?_
      intro y hy
      have hord : y.1.order ≠ none := by
        rw [ActionGroup.prepare] at hp
        cases hpp : prepareActions ct cfg g.actions [] [] with
        | error e =>
          rw [hpp] at hp
          cases hp
        | ok F1 =>
          rw [hpp] at hp
          have hp2 : Except.ok (g.extendsMaps.foldl ActionGroup.combine F1) =
              Except.ok F := hp
          cases hp2
          rcases combineAll_values_sub g.extendsMaps F1 y hy with h2 | h2
          · rcases prepareActions_values_sub ct cfg g.actions [] [] F1
                hpp y h2 with h3 | h3
            · exact horder y h3
            · exact absurd h3 (by simp [dictValues])
          · obtain ⟨P, hP, hyP⟩ := h2
            exact hpord P hP y hyP
      cases hvo : y.1.order with
      | none => exact absurd hvo hord
      | some x =>
        rw [show (shiftP d y).1.order = y.1.order.map (· + d) from rfl, hvo]
        rfl
    rw [hga]
    cases hkw : get_config_kw ct cfg g.action_class with
    | error e => rfl
    | ok kw =>
      show (match performAll (List.map (shiftP d) (get_actions F))
          ((ct g.action_class).before kw)
          [Event.beforeHook g.action_class] with
        | Except.error e => Except.error e
        | Except.ok (kw2, ev) =>
          Except.ok (writeBackKw cfg ((ct g.action_class).after kw2),
            ev ++ [Event.afterHook g.action_class])) =
        (match performAll (get_actions F) ((ct g.action_class).before kw)
          [Event.beforeHook g.action_class] with
        | Except.error e => Except.error e
        | Except.ok (kw2, ev) =>
          Except.ok (writeBackKw cfg ((ct g.action_class).after kw2),
            ev ++ [Event.afterHook g.action_class]))
      rw [performAll_shift]

/-- Two group maps related by a uniform order shift of all stored actions. -/
def GRel (d : Nat) (g1 g2 : Dict Nat ActionGroup) : Prop :=
  ∀ g, dictLookup g g2 = (dictLookup g g1).map (shiftG d)

/-- Routing shifted pairs into a shifted group map reproduces the original
routing, shifted. -/
theorem routeActions_rel (ct : ClassTab) (d : Nat) :
    ∀ (pairs : List (MAction × Target)) (g1 g2 out1 : Dict Nat ActionGroup),
    GRel d g1 g2 → routeActions ct pairs g1 = .ok out1 →
    ∃ out2, routeActions ct (pairs.map (shiftP d)) g2 = .ok out2 ∧
      GRel d out1 out2 := by
  intro pairs
  induction pairs with
  | nil =>
    intro g1 g2 out1 hrel hrun
    rw [routeActions] at hrun
    cases hrun
    exact ⟨g2, rfl, hrel⟩
  | cons q rest ih =>
    intro g1 g2 out1 hrel hrun
    obtain ⟨a, obj⟩ := q
    rw [routeActions] at hrun
    cases hlk : dictLookup (((ct a.cls).group_class).getD a.cls) g1 with
    | none =>
      rw [hlk] at hrun
      cases hrun
    | some grp =>
      rw [hlk] at hrun
      have hrun2 : routeActions ct rest
          (dictInsert (((ct a.cls).group_class).getD a.cls)
            { grp with actions := grp.actions ++ [(a, obj)] } g1) =
          .ok out1 := hrun
      have hrel2 : GRel d
          (dictInsert (((ct a.cls).group_class).getD a.cls)
            { grp with actions := grp.actions ++ [(a, obj)] } g1)
          (dictInsert (((ct a.cls).group_class).getD a.cls)
            { shiftG d grp with
              actions := (shiftG d grp).actions ++ [shiftP d (a, obj)] }
            g2) := by
        intro g
        by_cases hg : g = ((ct a.cls).group_class).getD a.cls
        · subst hg
          rw [dictLookup_insert_self, dictLookup_insert_self]
          show some _ = some _
          congr 1
          show ActionGroup.mk grp.action_class
            (grp.actions.map (shiftP d) ++ [shiftP d (a, obj)])
            (grp.extendsMaps.map (mapVals (shiftP d))) = _
          rw [show (shiftG d { grp with
              actions := grp.actions ++ [(a, obj)] }) =
            ActionGroup.mk grp.action_class
              ((grp.actions ++ [(a, obj)]).map (shiftP d))
              (grp.extendsMaps.map (mapVals (shiftP d))) from rfl]
          rw [List.map_append]
          rfl
        · rw [dictLookup_insert_ne _ _ _ _ (Ne.symm hg),
            dictLookup_insert_ne _ _ _ _ (Ne.symm hg)]
          exact hrel g
      obtain ⟨out2, hout2, hrelo⟩ := ih _ _ out1 hrel2 hrun2
      refine ⟨out2, ?_, hrelo⟩
      rw [List.map_cons, routeActions]
      rw [show (shiftP d (a, obj)).1.cls = a.cls from rfl]
      rw [hrel _, hlk]
      show routeActions ct (rest.map (shiftP d))
        (dictInsert (((ct a.cls).group_class).getD a.cls)
          { shiftG d grp with
            actions := (shiftG d grp).actions ++
              [((shiftP d (a, obj)).1, (shiftP d (a, obj)).2)] } g2) = _
      exact hout2

/-- Executing groups related by a uniform order shift produces the same
config and events. -/
theorem execGroups_rel (ct : ClassTab) (d : Nat) :
    ∀ (order : List Nat) (g1 g2 : Dict Nat ActionGroup) (cfg : Config)
      (ev : List Event),
    GRel d g1 g2 →
    (∀ g grp, dictLookup g g1 = some grp →
      (∀ p ∈ grp.actions, p.1.order ≠ none) ∧
      (∀ P ∈ grp.extendsMaps, ∀ q ∈ dictValues P, q.1.order ≠ none)) →
    execGroups ct order g2 cfg ev = execGroups ct order g1 cfg ev := by
  intro order
  induction order with
  | nil =>
    intro g1 g2 cfg ev _ _
    rfl
  | cons g rest ih =>
    intro g1 g2 cfg ev hrel hfacts
    rw [execGroups, execGroups, hrel g]
    cases hlk : dictLookup g g1 with
    | none => rfl
    | some grp =>
      show (match (shiftG d grp).execute ct cfg with
        | Except.error e => Except.error e
        | Except.ok (cfg1, ev1) =>
          execGroups ct rest g2 cfg1 (ev ++ ev1)) =
        (match grp.execute ct cfg with
        | Except.error e => Except.error e
        | Except.ok (cfg1, ev1) =>
          execGroups ct rest g1 cfg1 (ev ++ ev1))
      obtain ⟨hord, hpord⟩ := hfacts g grp hlk
      rw [execute_shift ct cfg d grp hord hpord]
      cases hex : grp.execute ct cfg with
      | error e => rfl
      | ok r =>
        obtain ⟨cfg1, ev1⟩ := r
        show execGroups ct rest g2 cfg1 (ev ++ ev1) = _
        exact ih g1 g2 cfg1 (ev ++ ev1) hrel hfacts

/-- Directive trees built from commit-fresh factories are commit-fresh. -/
theorem buildActions_TreeOk :
    ∀ (dirs : List (MDirective × Target)) (items : List (RItem × Target)),
    (∀ p ∈ dirs, ∀ item, p.1.factory = .ok item → item.TreeOk) →
    buildActions dirs = .ok items → TreeOkList items := by
  intro dirs
  induction dirs with
  | nil =>
    intro items _ h
    rw [buildActions] at h
    cases h
    exact trivial
  | cons p rest ih =>
    intro items hok h
    obtain ⟨dv, obj⟩ := p
    rw [buildActions] at h
    cases hact : dv.action with
    | error e =>
      rw [hact] at h
      cases h
    | ok item =>
      rw [hact] at h
      have h2 : (match buildActions rest with
        | Except.error e => Except.error e
        | Except.ok l => Except.ok ((item, obj) :: l)) = Except.ok items := h
      cases hrest : buildActions rest with
      | error e =>
        rw [hrest] at h2
        cases h2
      | ok l =>
        rw [hrest] at h2
        cases h2
        refine ⟨?_, ih l (fun q hq => hok q (List.mem_cons_of_mem _ hq)) hrest⟩
        rw [MDirective.action] at hact
        cases hfac : dv.factory with
        | error e =>
          rw [hfac] at hact
          cases hact
        | ok item0 =>
          rw [hfac] at hact
          have hact2 : Except.ok (item0.setDirective (some dv.code_info)) =
              Except.ok item := hact
          cases hact2
          exact (TreeOk_setDirective _ _).mpr
            (hok (dv, obj) (List.mem_cons_self _ _) item0 hfac)

/-- Configurable.setup depends on the incoming config bag only through the
delete pass, and on the parents' resolved maps only through what it stores
in the fresh action groups: a starting bag that normalizes identically sets
up the same sorted classes, config state, factories seen and log, storing
whatever parents' maps the new commit is given. -/
theorem setup_cfg_invariance (ct : ClassTab) (ftab : FacTable) (fuel : Nat)
    (allCls : List Nat)
    (pm pm2 : Nat → List (Dict Val (MAction × Target)))
    (cfgA cfgB : Config) (sorted1 : List Nat) (cfgS : Config)
    (seen : Dict String Nat) (log : List String)
    (groups : Dict Nat ActionGroup)
    (h1 : Configurable.setup ct ftab fuel allCls pm cfgA =
      .ok (sorted1, cfgS, seen, log, groups))
    (hnorm : deletePass ftab ct sorted1 cfgB = deletePass ftab ct sorted1 cfgA) :
    ∃ groups2, Configurable.setup ct ftab fuel allCls pm2 cfgB =
      .ok (sorted1, cfgS, seen, log, groups2) ∧
      setupGroups ct ftab fuel pm2 sorted1
        (deletePass ftab ct sorted1 cfgA) [] [] [] =
        .ok (cfgS, seen, log, groups2) := by
  rw [Configurable.setup] at h1
  cases hgs : setupGroupSet ct allCls [] with
  | error e =>
    rw [hgs] at h1
    cases h1
  | ok gset =>
    rw [hgs] at h1
    have h1b : (match sort_action_classes ct fuel gset with
      | Except.error TErr.cycle => Except.error PyExc.topoError
      | Except.error TErr.fuel => Except.error PyExc.fuel
      | Except.ok sorted2 =>
        match setupGroups ct ftab fuel pm sorted2
            (deletePass ftab ct sorted2 cfgA) [] [] [] with
        | Except.error e => Except.error e
        | Except.ok (cfg2, seen2, log2, groups2) =>
          Except.ok (sorted2, cfg2, seen2, log2, groups2)) =
        Except.ok (sorted1, cfgS, seen, log, groups) := h1
    cases hs : sort_action_classes ct fuel gset with
    | error e =>
      cases e
      · rw [hs] at h1b
        cases h1b
      · rw [hs] at h1b
        cases h1b
    | ok sorted2 =>
      rw [hs] at h1b
      have h2 : (match setupGroups ct ftab fuel pm sorted2
          (deletePass ftab ct sorted2 cfgA) [] [] [] with
        | Except.error e => Except.error e
        | Except.ok (cfg2, seen2, log2, groups2) =>
          Except.ok (sorted2, cfg2, seen2, log2, groups2)) =
          Except.ok (sorted1, cfgS, seen, log, groups) := h1b
      cases hsg : setupGroups ct ftab fuel pm sorted2
          (deletePass ftab ct sorted2 cfgA) [] [] [] with
      | error e =>
        rw [hsg] at h2
        cases h2
      | ok r =>
        obtain ⟨cfg2, seen2, log2, groups2x⟩ := r
        rw [hsg] at h2
        have h3 : Except.ok (sorted2, cfg2, seen2, log2, groups2x) =
            (Except.ok (sorted1, cfgS, seen, log, groups) :
              Except PyExc (List Nat × Config × Dict String Nat ×
                List String × Dict Nat ActionGroup)) := h2
        simp only [Except.ok.injEq, Prod.mk.injEq] at h3
        obtain ⟨hq1, hq2, hq3, hq4, hq5⟩ := h3
        subst hq1
        subst hq2
        subst hq3
        subst hq4
        subst hq5
        obtain ⟨g2, hg2⟩ := setupGroups_pm_indep ct ftab fuel pm pm2
          sorted2 _ _ _ _ ([] : Dict Nat ActionGroup) _ _ _ _ hsg
        refine ⟨g2, ?_, hg2⟩
        rw [Configurable.setup, hgs]
        show (match sort_action_classes ct fuel gset with
          | Except.error TErr.cycle => Except.error PyExc.topoError
          | Except.error TErr.fuel => Except.error PyExc.fuel
          | Except.ok sorted3 =>
            match setupGroups ct ftab fuel pm2 sorted3
                (deletePass ftab ct sorted3 cfgB) [] [] [] with
            | Except.error e => Except.error e
            | Except.ok (cfg2, seen2, log2, groups2) =>
              Except.ok (sorted3, cfg2, seen2, log2, groups2)) = _
        rw [hs]
        show (match setupGroups ct ftab fuel pm2 sorted2
            (deletePass ftab ct sorted2 cfgB) [] [] [] with
          | Except.error e => Except.error e
          | Except.ok (cfg2, seen2, log2, groups2) =>
            Except.ok (sorted2, cfg2, seen2, log2, groups2)) = _
        rw [hnorm, hg2]

/-- Assembly of the second commit from the decomposed stages of the first:
given the intermediate results of setup, group_actions and execGroups of a
successful commit, a commit from the resulting config bag, any later order
counter, and the parents' maps as the re-committed parents produce them
(orders shifted by the same global amount) reproduces the same config, log
and events. -/
theorem C3_assemble (ct : ClassTab) (ftab : FacTable) (fuel : Nat)
    (allCls : List Nat)
    (pm : Nat → List (Dict Val (MAction × Target))) (d : Nat)
    (dirs : List (MDirective × Target))
    (cfg0 : Config) (c0 : Nat)
    (sorted1 : List Nat) (cfgS : Config) (seen : Dict String Nat)
    (log : List String) (groups0 : Dict Nat ActionGroup)
    (items : List (RItem × Target)) (pairs : List (MAction × Target))
    (c1 : Nat) (order2 : List Nat) (cfgF : Config) (ev : List Event)
    (groups1x : Dict Nat ActionGroup) {gset : List Nat}
    (hone : ∀ fid, ∀ p ∈ (ftab fid).args, (ftab p.2).args = [])
    (hdeps : ∀ c, ∀ m ∈ (ct c).depends, (ct m).group_class = none)
    (hba : ∀ (g : Nat) (kw : Dict String Val),
      dictKeys ((ct g).before kw) = dictKeys kw ∧
      dictKeys ((ct g).after kw) = dictKeys kw)
    (hdirs : ∀ p ∈ dirs, ∀ item, p.1.factory = .ok item → item.TreeOk)
    (hpm : ∀ g, ∀ P ∈ pm g, ∀ q ∈ dictValues P,
      PerformKeys q.1 ∧ q.1.order ≠ none)
    (hgs : setupGroupSet ct allCls [] = .ok gset)
    (hsrt : sort_action_classes ct fuel gset = .ok sorted1)
    (hsg : setupGroups ct ftab fuel pm sorted1
      (deletePass ftab ct sorted1 cfg0) [] [] [] =
      .ok (cfgS, seen, log, groups0))
    (hbi : buildActions dirs = .ok items)
    (hexp : expand_actions items c0 = .ok (pairs, c1))
    (hroute : routeActions ct pairs groups0 = .ok groups1x)
    (hsort2 : sort_action_classes ct fuel (dictKeys groups1x) = .ok order2)
    (hexec : execGroups ct order2 groups1x cfgS [] = .ok (cfgF, ev)) :
    ∃ groups2, Configurable.execute ct ftab fuel allCls
      (fun g => (pm g).map (mapVals (shiftP d))) dirs cfgF (c0 + d) =
      .ok (cfgF, c1 + d, groups2, log, ev) := by
  have hbase : ∀ k, delClassB ftab ct sorted1 k = true →
      k ∉ dictKeys (deletePass ftab ct sorted1 cfg0) :=
    fun k hk => deletePass_key_absent ftab ct sorted1 cfg0 k hk
  have hsrt2 : topological_sort fuel gset (fun c => (ct c).depends) =
      .ok sorted1 := hsrt
  have hnodup : sorted1.Nodup :=
    (topological_sort_spec _ fuel gset sorted1 hsrt2).1
  have hgset : ∀ g ∈ gset, (ct g).group_class = none :=
    setupGroupSet_gc_none ct allCls [] gset
      (fun g hg => absurd hg (by simp)) hgs
  have hgcS : ∀ g ∈ sorted1, (ct g).group_class = none :=
    sorted_gc_none ct hdeps fuel gset sorted1 hgset hsrt2
  obtain ⟨hkeys0, hlook0, hnotin0⟩ :=
    setupGroups_out ct ftab fuel pm sorted1 _ _ _ _ _ _ _ _ hsg
  have hkeys0b : dictKeys groups0 = sorted1 := by
    have h2 := hkeys0 hnodup (fun g _ => by simp [dictKeys])
    simpa [dictKeys] using h2
  have hinvS : ExtraInv (delClassB ftab ct sorted1)
      (deletePass ftab ct sorted1 cfg0) cfgS :=
    setupGroups_extraInv hone hbase fuel pm sorted1
      (fun g h => h) _ _ _ _ _ _ _ _
      (ExtraInv.base_self _ _) hsg
  have hTree : TreeOkList items := buildActions_TreeOk dirs items hdirs hbi
  obtain ⟨hc0le, hshift, hfactsP⟩ :=
    expand_props d (sizeList items) items c0 pairs c1
      (Nat.le_refl _) hTree hexp
  obtain ⟨hkeysR, hlookR⟩ := routeActions_props ct pairs groups0 groups1x
    hroute
  have hkeys1 : dictKeys groups1x = sorted1 := by rw [hkeysR, hkeys0b]
  have hclosed : ∀ n ∈ sorted1, ∀ m ∈ (ct n).depends, m ∈ sorted1 :=
    toposort_out_closed _ fuel gset sorted1 hsrt2
  have hsort2b : topological_sort fuel (dictKeys groups1x)
      (fun c => (ct c).depends) = .ok order2 := hsort2
  have hord2sub : ∀ x ∈ order2, x ∈ sorted1 := by
    intro x hx
    have h2 := toposort_sub_of_closed (fun c => (ct c).depends) fuel
      (dictKeys groups1x) order2 ?_ hsort2b x hx
    · rwa [hkeys1] at h2
    · rw [hkeys1]
      exact hclosed
  have hgfacts : ∀ g grp, dictLookup g groups1x = some grp →
      grp.action_class = g ∧ grp.extendsMaps = pm g ∧
      (∀ p ∈ grp.actions, PerformKeys p.1 ∧ p.1.order ≠ none) := by
    intro g grp hlk
    obtain ⟨grp0, hlk0, hac, hext, hsub⟩ := hlookR g grp hlk
    by_cases hg : g ∈ sorted1
    · rw [hlook0 g hg] at hlk0
      cases hlk0
      refine ⟨hac, hext, ?_⟩
      intro p hp
      rcases hsub p hp with h3 | h3
      · exact absurd h3 (by simp)
      · exact hfactsP p h3
    · rw [hnotin0 g hg] at hlk0
      exact absurd hlk0 (by simp [dictLookup])
  have hinvF : ExtraInv (delClassB ftab ct sorted1)
      (deletePass ftab ct sorted1 cfg0) cfgF := by
    refine execGroups_extraInv hbase ct order2 groups1x cfgS [] cfgF ev
      ?_ ?_ hba hinvS hexec
    · intro g _ grp hlk
      obtain ⟨ha, hb, hc⟩ := hgfacts g grp hlk
      refine ⟨ha, fun p hp => (hc p hp).1, ?_⟩
      intro P hP q hq
      rw [hb] at hP
      exact (hpm g P hP q hq).1
    · intro g hg
      refine ⟨hgcS g (hord2sub g hg), ?_⟩
      intro k hk
      obtain ⟨nf, hnf, hknf⟩ := List.mem_map.mp hk
      have hdn : delNameB ftab (ct g).config k = true := by
        rw [delNameB, List.any_eq_true]
        refine ⟨nf, hnf, ?_⟩
        simp [hknf]
      rw [delClassB, List.any_eq_true]
      exact ⟨g, hord2sub g hg, hdn⟩
  have hnorm : deletePass ftab ct sorted1 cfgF =
      deletePass ftab ct sorted1 cfg0 := by
    obtain ⟨extra, hceq, hex⟩ := hinvF
    rw [hceq, deletePass_append,
      deletePass_all_deleted ftab ct sorted1 extra hex, List.append_nil]
    exact deletePass_idem ftab ct sorted1 cfg0
  -- second setup
  have hset1 : Configurable.setup ct ftab fuel allCls pm cfg0 =
      .ok (sorted1, cfgS, seen, log, groups0) := by
    rw [Configurable.setup, hgs]
    show (match sort_action_classes ct fuel gset with
      | Except.error TErr.cycle => Except.error PyExc.topoError
      | Except.error TErr.fuel => Except.error PyExc.fuel
      | Except.ok sorted2 =>
        match setupGroups ct ftab fuel pm sorted2
            (deletePass ftab ct sorted2 cfg0) [] [] [] with
        | Except.error e => Except.error e
        | Except.ok (cfgx, seenx, logx, groupsx) =>
          Except.ok (sorted2, cfgx, seenx, logx, groupsx)) = _
    rw [hsrt]
    show (match setupGroups ct ftab fuel pm sorted1
        (deletePass ftab ct sorted1 cfg0) [] [] [] with
      | Except.error e => Except.error e
      | Except.ok (cfgx, seenx, logx, groupsx) =>
        Except.ok (sorted1, cfgx, seenx, logx, groupsx)) = _
    rw [hsg]
  obtain ⟨groups0b, hset2, hsg2⟩ :=
    setup_cfg_invariance ct ftab fuel allCls pm
      (fun g => (pm g).map (mapVals (shiftP d))) cfg0 cfgF sorted1 cfgS seen
      log groups0 hset1 hnorm
  obtain ⟨hkeys0c, hlook0b, hnotin0b⟩ :=
    setupGroups_out ct ftab fuel (fun g => (pm g).map (mapVals (shiftP d)))
      sorted1 _ _ _ _ _ _ _ _ hsg2
  have hkeys0bb : dictKeys groups0b = sorted1 := by
    have h2 := hkeys0c hnodup (fun g _ => by simp [dictKeys])
    simpa [dictKeys] using h2
  -- second group_actions
  have hgrel0 : GRel d groups0 groups0b := by
    intro g
    by_cases hg : g ∈ sorted1
    · rw [hlook0 g hg, hlook0b g hg]
      rfl
    · rw [hnotin0 g hg, hnotin0b g hg]
      rfl
  obtain ⟨groups2, hroute2, hgrel2⟩ :=
    routeActions_rel ct d pairs groups0 groups0b groups1x hgrel0 hroute
  have hga2 : Configurable.group_actions ct dirs (c0 + d) groups0b =
      .ok (groups2, c1 + d) := by
    rw [Configurable.group_actions, hbi]
    show (match expand_actions items (c0 + d) with
      | Except.error e => Except.error e
      | Except.ok (pairs2, counter2) =>
        match routeActions ct pairs2 groups0b with
        | Except.error e => Except.error e
        | Except.ok groupsR2 => Except.ok (groupsR2, counter2)) = _
    rw [hshift]
    show (match routeActions ct (pairs.map (shiftP d)) groups0b with
      | Except.error e => Except.error e
      | Except.ok groupsR2 =>
        Except.ok (groupsR2, c1 + d)) = _
    rw [hroute2]
  obtain ⟨hkeysR2, _⟩ :=
    routeActions_props ct (pairs.map (shiftP d)) groups0b groups2 hroute2
  have hkeys2 : dictKeys groups2 = dictKeys groups1x := by
    rw [hkeysR2, hkeys0bb, hkeys1]
  have hexec2 : execGroups ct order2 groups2 cfgS [] = .ok (cfgF, ev) := by
    rw [execGroups_rel ct d order2 groups1x groups2 cfgS [] hgrel2
      (fun g grp hlk => by
        obtain ⟨_, hb, hc⟩ := hgfacts g grp hlk
        refine ⟨fun p hp => (hc p hp).2, ?_⟩
        intro P hP q hq
        rw [hb] at hP
        exact (hpm g P hP q hq).2)]
    exact hexec
  refine ⟨groups2, ?_⟩
  rw [Configurable.execute, hset2]
  show (match Configurable.group_actions ct dirs (c0 + d) groups0b with
    | Except.error e => Except.error e
    | Except.ok (groupsB, counterB) =>
      match sort_action_classes ct fuel (dictKeys groupsB) with
      | Except.error TErr.cycle => Except.error PyExc.topoError
      | Except.error TErr.fuel => Except.error PyExc.fuel
      | Except.ok orderB =>
        match execGroups ct orderB groupsB cfgS [] with
        | Except.error e => Except.error e
        | Except.ok (cfgB, evB) =>
          Except.ok (cfgB, counterB, groupsB, log, evB)) = _
  rw [hga2]
  show (match sort_action_classes ct fuel (dictKeys groups2) with
    | Except.error TErr.cycle => Except.error PyExc.topoError
    | Except.error TErr.fuel => Except.error PyExc.fuel
    | Except.ok orderB =>
      match execGroups ct orderB groups2 cfgS [] with
      | Except.error e => Except.error e
      | Except.ok (cfgB, evB) =>
        Except.ok (cfgB, c1 + d, groups2, log, evB)) = _
  rw [hkeys2, hsort2]
  show (match execGroups ct order2 groups2 cfgS [] with
    | Except.error e => Except.error e
    | Except.ok (cfgB, evB) =>
      Except.ok (cfgB, c1 + d, groups2, log, evB)) = _
  rw [hexec2]

/-- C3: re-committing is idempotent under the conditions the code actually
requires: one-level factory arguments and plain (non-group_class) classes in
depends lists — so the delete pass removes everything the commit wrote —
key-preserving before/after hooks and perform callbacks, and commit-fresh
directive factories (actions without preset orders). A second commit from
the first commit's config bag, starting at any later point c0 + d of the
global order counter and receiving the parents' maps as the re-committed
parents produce them (orders shifted by the same global amount d, as
commit() re-executes parents in the same pass), reproduces exactly the same
config bag, construction log and events — each action's perform re-runs
once, with identical effects; only the opaque order counter advances. -/
theorem C3_recommit_idempotent (ct : ClassTab) (ftab : FacTable) (fuel : Nat)
    (allCls : List Nat)
    (parentMaps : Nat → List (Dict Val (MAction × Target)))
    (dirs : List (MDirective × Target))
    (cfg0 cfg2 : Config) (c0 c1 d : Nat) (groups1 : Dict Nat ActionGroup)
    (log1 : List String) (ev1 : List Event)
    (hone : ∀ fid, ∀ p ∈ (ftab fid).args, (ftab p.2).args = [])
    (hdeps : ∀ c, ∀ m ∈ (ct c).depends, (ct m).group_class = none)
    (hba : ∀ (g : Nat) (kw : Dict String Val),
      dictKeys ((ct g).before kw) = dictKeys kw ∧
      dictKeys ((ct g).after kw) = dictKeys kw)
    (hdirs : ∀ p ∈ dirs, ∀ item, p.1.factory = .ok item → item.TreeOk)
    (hpm : ∀ g, ∀ P ∈ parentMaps g, ∀ q ∈ dictValues P,
      PerformKeys q.1 ∧ q.1.order ≠ none)
    (hrun1 : Configurable.execute ct ftab fuel allCls parentMaps dirs
      cfg0 c0 = .ok (cfg2, c1, groups1, log1, ev1)) :
    ∃ groups2, Configurable.execute ct ftab fuel allCls
      (fun g => (parentMaps g).map (mapVals (shiftP d))) dirs cfg2 (c0 + d) =
      .ok (cfg2, c1 + d, groups2, log1, ev1) := by
  rw [Configurable.execute] at hrun1
  cases hset : Configurable.setup ct ftab fuel allCls parentMaps cfg0 with
  | error e =>
    rw [hset] at hrun1
    cases hrun1
  | ok r =>
    obtain ⟨sorted1, cfgS, seen, log, groups0⟩ := r
    rw [hset] at hrun1
    have hrun1b : (match Configurable.group_actions ct dirs c0 groups0 with
      | Except.error e => Except.error e
      | Except.ok (groups1x, counter1) =>
        match sort_action_classes ct fuel (dictKeys groups1x) with
        | Except.error TErr.cycle => Except.error PyExc.topoError
        | Except.error TErr.fuel => Except.error PyExc.fuel
        | Except.ok order2 =>
          match execGroups ct order2 groups1x cfgS [] with
          | Except.error e => Except.error e
          | Except.ok (cfgF, ev) =>
            Except.ok (cfgF, counter1, groups1x, log, ev)) =
        Except.ok (cfg2, c1, groups1, log1, ev1) := hrun1
    cases hga : Configurable.group_actions ct dirs c0 groups0 with
    | error e =>
      rw [hga] at hrun1b
      cases hrun1b
    | ok r2 =>
      obtain ⟨groups1x, counter1⟩ := r2
      rw [hga] at hrun1b
      have hrun1c : (match sort_action_classes ct fuel
          (dictKeys groups1x) with
        | Except.error TErr.cycle => Except.error PyExc.topoError
        | Except.error TErr.fuel => Except.error PyExc.fuel
        | Except.ok order2 =>
          match execGroups ct order2 groups1x cfgS [] with
          | Except.error e => Except.error e
          | Except.ok (cfgF, ev) =>
            Except.ok (cfgF, counter1, groups1x, log, ev)) =
          Except.ok (cfg2, c1, groups1, log1, ev1) := hrun1b
      cases hsort2 : sort_action_classes ct fuel (dictKeys groups1x) with
      | error e =>
        cases e
        · rw [hsort2] at hrun1c
          cases hrun1c
        · rw [hsort2] at hrun1c
          cases hrun1c
      | ok order2 =>
        rw [hsort2] at hrun1c
        have hrun1d : (match execGroups ct order2 groups1x cfgS [] with
          | Except.error e => Except.error e
          | Except.ok (cfgF, ev) =>
            Except.ok (cfgF, counter1, groups1x, log, ev)) =
            Except.ok (cfg2, c1, groups1, log1, ev1) := hrun1c
        cases hexec : execGroups ct order2 groups1x cfgS [] with
        | error e =>
          rw [hexec] at hrun1d
          cases hrun1d
        | ok rr =>
          obtain ⟨cfgF, ev⟩ := rr
          rw [hexec] at hrun1d
          have hfin : (Except.ok (cfgF, counter1, groups1x, log, ev) :
              Except PyExc (Config × Nat × Dict Nat ActionGroup ×
                List String × List Event)) =
              Except.ok (cfg2, c1, groups1, log1, ev1) := hrun1d
          simp only [Except.ok.injEq, Prod.mk.injEq] at hfin
          obtain ⟨heq1, heq2, heq3, heq4, heq5⟩ := hfin
          subst heq1
          subst heq2
          subst heq3
          subst heq4
          subst heq5
          -- decompose setup
          rw [Configurable.setup] at hset
          cases hgs : setupGroupSet ct allCls [] with
          | error e =>
            rw [hgs] at hset
            cases hset
          | ok gset =>
            rw [hgs] at hset
            have hsetb : (match sort_action_classes ct fuel gset with
              | Except.error TErr.cycle => Except.error PyExc.topoError
              | Except.error TErr.fuel => Except.error PyExc.fuel
              | Except.ok sorted2 =>
                match setupGroups ct ftab fuel parentMaps sorted2
                    (deletePass ftab ct sorted2 cfg0) [] [] [] with
                | Except.error e => Except.error e
                | Except.ok (cfgx, seenx, logx, groupsx) =>
                  Except.ok (sorted2, cfgx, seenx, logx, groupsx)) =
                Except.ok (sorted1, cfgS, seen, log, groups0) := hset
            cases hsrt : sort_action_classes ct fuel gset with
            | error e =>
              cases e
              · rw [hsrt] at hsetb
                cases hsetb
              · rw [hsrt] at hsetb
                cases hsetb
            | ok sorted2 =>
              rw [hsrt] at hsetb
              have hsetc : (match setupGroups ct ftab fuel parentMaps
                  sorted2 (deletePass ftab ct sorted2 cfg0) [] [] [] with
                | Except.error e => Except.error e
                | Except.ok (cfgx, seenx, logx, groupsx) =>
                  Except.ok (sorted2, cfgx, seenx, logx, groupsx)) =
                  Except.ok (sorted1, cfgS, seen, log, groups0) := hsetb
              cases hsg : setupGroups ct ftab fuel parentMaps sorted2
                  (deletePass ftab ct sorted2 cfg0) [] [] [] with
              | error e =>
                rw [hsg] at hsetc
                cases hsetc
              | ok rs =>
                obtain ⟨cfgx, seenx, logx, groupsx⟩ := rs
                rw [hsg] at hsetc
                have hsetd : (Except.ok (sorted2, cfgx, seenx, logx, groupsx) :
                    Except PyExc (List Nat × Config × Dict String Nat ×
                      List String × Dict Nat ActionGroup)) =
                    Except.ok (sorted1, cfgS, seen, log, groups0) := hsetc
                simp only [Except.ok.injEq, Prod.mk.injEq] at hsetd
                obtain ⟨hq1, hq2, hq3, hq4, hq5⟩ := hsetd
                subst hq1
                subst hq2
                subst hq3
                subst hq4
                subst hq5
                -- decompose group_actions
                rw [Configurable.group_actions] at hga
                cases hbi : buildActions dirs with
                | error e =>
                  rw [hbi] at hga
                  cases hga
                | ok items =>
                  rw [hbi] at hga
                  have hgab : (match expand_actions items c0 with
                    | Except.error e => Except.error e
                    | Except.ok (pairs, counterE) =>
                      match routeActions ct pairs groupsx with
                      | Except.error e => Except.error e
                      | Except.ok groupsR =>
                        Except.ok (groupsR, counterE)) =
                      Except.ok (groups1x, counter1) := hga
                  cases hexp : expand_actions items c0 with
                  | error e =>
                    rw [hexp] at hgab
                    cases hgab
                  | ok rp =>
                    obtain ⟨pairs, counterE⟩ := rp
                    rw [hexp] at hgab
                    have hgac : (match routeActions ct pairs groupsx with
                      | Except.error e => Except.error e
                      | Except.ok groupsR =>
                        Except.ok (groupsR, counterE)) =
                        (Except.ok (groups1x, counter1) :
                          Except PyExc (Dict Nat ActionGroup × Nat)) := hgab
                    cases hroute : routeActions ct pairs groupsx with
                    | error e =>
                      rw [hroute] at hgac
                      cases hgac
                    | ok groupsR =>
                      rw [hroute] at hgac
                      have hgad : (Except.ok (groupsR, counterE) :
                          Except PyExc (Dict Nat ActionGroup × Nat)) =
                          Except.ok (groups1x, counter1) := hgac
                      simp only [Except.ok.injEq, Prod.mk.injEq] at hgad
                      obtain ⟨hw1, hw2⟩ := hgad
                      subst hw1
                      subst hw2
                      exact C3_assemble ct ftab fuel allCls parentMaps d
                        dirs cfg0 c0 sorted2 cfgx seenx logx groupsx items
                        pairs counterE order2 cfgF ev groupsR hone hdeps hba
                        hdirs hpm hgs hsrt hsg hbi hexp hroute hsort2 hexec

/-- Class table for the re-commit witness: one action class with one config
item and no dependencies. -/
def ct3w : ClassTab := fun _ =>
  ⟨true, none, [("x", 0)], [], false, false, false, id, id⟩

/-- Factory table for the re-commit witness: argument-free factories. -/
def ftab3w : FacTable := fun _ => ⟨[], fun _ => .str "v"⟩

/-- A commit-fresh action registered through a directive. -/
def act3w : MAction := mkAction 0 1 none (Val.str "i") []

/-- The directive's code info. -/
def ci3w : CodeInfo := ⟨"a.py", 3, "line"⟩

/-- The registered directive producing act3w. -/
def dir3w : MDirective := ⟨ci3w, .ok (.act act3w)⟩

/-- The action as the first commit stores it: stamped with the directive's
origin and the assigned order 0. -/
def act3w1 : MAction := { act3w with directive := some ci3w, order := some 0 }

/-- The group map after the first commit. -/
def c3wG1 : Dict Nat ActionGroup := [(0, ⟨0, [(act3w1, 7)], []⟩)]

theorem c3w_run1 : Configurable.execute ct3w ftab3w 4 [0] (fun _ => [])
    [(dir3w, 7)] [] 0 =
    .ok ([("x", Val.str "v")], 1, c3wG1, ["x"],
      [.beforeHook 0, .performed 1 7, .afterHook 0]) := by
  simp +decide [Configurable.execute, Configurable.setup, setupGroupSet,
    resolveGroupClass, sort_action_classes, topological_sort, visitMany,
    visit, delete_config, dictRemove, setupGroups, setup_config,
    setup_config_items, factory_key, get_factory_arguments,
    get_factory_arguments.go, getattrD, dictLookup, dictInsert, dictKeys,
    Configurable.group_actions, buildActions, MDirective.action,
    RItem.setDirective, translateTypeErr, expand_actions, routeActions,
    execGroups, ActionGroup.execute, ActionGroup.prepare, prepareActions,
    claimDiscs, ActionGroup.combine, get_actions, sortByKey, insertSorted,
    dictValues, get_config_kw, get_config_kw.go, performAll, writeBackKw,
    ct3w, ftab3w, dir3w, act3w, act3w1, c3wG1, ci3w, mkAction]

/-- Witness for C3: committing the one-directive configurable a second time
from the first commit's config bag, with the global order counter one step
further, reproduces the same config, construction log and events. -/
theorem C3_recommit_idempotent_witness :
    ∃ groups2, Configurable.execute ct3w ftab3w 4 [0]
      (fun g => (([] : List (Dict Val (MAction × Target))).map
        (mapVals (shiftP 1))))
      [(dir3w, 7)] [("x", Val.str "v")] (0 + 1) =
      .ok ([("x", Val.str "v")], 1 + 1, groups2, ["x"],
        [.beforeHook 0, .performed 1 7, .afterHook 0]) :=
  C3_recommit_idempotent ct3w ftab3w 4 [0] (fun _ => []) [(dir3w, 7)]
    [] [("x", Val.str "v")] 0 1 1 c3wG1 ["x"]
    [.beforeHook 0, .performed 1 7, .afterHook 0]
    (by intro fid p hp; simp [ftab3w] at hp)
    (by intro c m hm; simp [ct3w] at hm)
    (fun g kw => ⟨rfl, rfl⟩)
    (by
      intro p hp item hfac
      have hp2 : p = (dir3w, 7) := by simpa using hp
      rw [hp2] at hfac
      have hfac2 : Except.ok (RItem.act act3w) = Except.ok item := hfac
      cases hfac2
      exact ⟨rfl, fun obj kw kw2 h => by cases h; rfl⟩)
    (by intro g P hP; exact absurd hP (by simp))
    c3w_run1
